import Mathlib

/-!
# TritonHTTP: the connection-handling core of `tritonhttp/server.go`

A shallow embedding of `server.go` and of the Go library calls it makes.

Conventions of the embedding.

* A Go `string` and a Go `[]byte` are both a `Str`, a list of characters, one
  character per byte; all the delimiters the server looks at (space, colon,
  slash, dot, CR, LF) are ASCII. Where Go reads a string as UTF-8, as
  `strings.TrimSpace` does, the bytes are decoded as the package `unicode/utf8`
  decodes them.
* A Go `map[string]string` is a `GoMap`, an association list with distinct keys
  whose order is the (arbitrary) iteration order of the map.
* The connection is a `Conn`: the script of what each `conn.Read` call will
  return, the bytes the peer has accepted so far, how many more bytes it will
  accept, and whether `Close` was called.
* The filesystem and the clock are the `World` in which one request is handled;
  `HandleClient` gets one `World` per iteration of its loop.
* `CanonicalHeaderKey`, `MIMETypeByExtension` and `FormatTime` are declared in
  other files of the package; they are the fields of `Lib`.
* A run-time panic of the Go program (index out of range, nil dereference) is
  an explicit outcome.
-/

set_option autoImplicit false
set_option maxRecDepth 100000

/-- A Go string or byte slice. -/
abbrev Str := List Char

/-! ## Go library: `unicode/utf8`, `unicode` -/

namespace utf8

/-- Go `utf8.RuneError`, the rune U+FFFD that a decoder returns for an invalid
encoding. -/
def RuneError : Nat := 0xFFFD

/-- Go `utf8.RuneSelf`: the bytes below it are runes of their own. -/
def RuneSelf : Nat := 0x80

/-- Go `utf8.UTFMax`, the greatest length of an encoding. -/
def UTFMax : Nat := 4

/-- The byte `s[i]` as a number; the decoders index only below `len(s)`. -/
def byteAt (s : Str) (i : Nat) : Nat := (s.getD i (Char.ofNat 0)).toNat

/-- The table `first` of the package: what the first byte of an encoding tells.
`0xF0` marks an ASCII byte and `0xF1` a byte that starts no encoding; otherwise
the low three bits are the length and the high four bits index `acceptRanges`. -/
def first (b : Nat) : Nat :=
  if b < 0x80 then 0xF0
  else if b < 0xC2 then 0xF1
  else if b < 0xE0 then 0x02
  else if b = 0xE0 then 0x13
  else if b < 0xED then 0x03
  else if b = 0xED then 0x23
  else if b < 0xF0 then 0x03
  else if b = 0xF0 then 0x34
  else if b < 0xF4 then 0x04
  else if b = 0xF4 then 0x44
  else 0xF1

/-- The table `acceptRanges`: the range allowed for the second byte. -/
def acceptRanges (i : Nat) : Nat × Nat :=
  if i = 0 then (0x80, 0xBF)
  else if i = 1 then (0xA0, 0xBF)
  else if i = 2 then (0x80, 0x9F)
  else if i = 3 then (0x90, 0xBF)
  else if i = 4 then (0x80, 0x8F)
  else (0, 0)

/-- The body of Go `utf8.DecodeRuneInString`, on the length `n` of the string
and on its bytes `s[0]` to `s[3]`, of which `s[i]` is read only where `i < n`.
A mask `b & m` is the remainder `b % (m + 1)`, and the shifted fields of a rune
do not overlap, so that their `|` is a sum. -/
def decodeBytes (n s0 s1 s2 s3 : Nat) : Nat × Nat :=
  if n < 1 then (RuneError, 0)
  else
    let x := first s0
    if 0xF0 ≤ x then (if x % 2 = 0 then s0 else RuneError, 1)
    else
      let sz := x % 8
      let accept := acceptRanges (x / 16)
      if n < sz then (RuneError, 1)
      else if s1 < accept.1 ∨ accept.2 < s1 then (RuneError, 1)
      else if sz ≤ 2 then (s0 % 32 * 64 + s1 % 64, 2)
      else if s2 < 0x80 ∨ 0xBF < s2 then (RuneError, 1)
      else if sz ≤ 3 then (s0 % 16 * 4096 + s1 % 64 * 64 + s2 % 64, 3)
      else if s3 < 0x80 ∨ 0xBF < s3 then (RuneError, 1)
      else (s0 % 8 * 262144 + s1 % 64 * 4096 + s2 % 64 * 64 + s3 % 64, 4)

/-- Go `utf8.DecodeRuneInString`: the first rune of `s` and its width in bytes;
`(RuneError, 0)` for the empty string and `(RuneError, 1)` for an invalid
encoding. -/
def DecodeRuneInString (s : Str) : Nat × Nat :=
  decodeBytes s.length (byteAt s 0) (byteAt s 1) (byteAt s 2) (byteAt s 3)

/-- Go `utf8.RuneStart`: the byte is not a continuation byte. -/
def RuneStart (b : Nat) : Bool := b / 64 % 4 != 2

/-- The loop of `DecodeLastRuneInString` that steps back from `start` while
`start >= lim` and the byte at `start` starts no rune. The index is passed and
returned plus one, so that `0` stands for `-1`. -/
def lastStart (s : Str) (lim : Nat) : Nat → Nat
  | 0 => 0
  | start + 1 =>
    if lim ≤ start then
      if RuneStart (byteAt s start) then start + 1 else lastStart s lim start
    else start + 1

/-- Go `utf8.DecodeLastRuneInString`: the last rune of `s` and its width. -/
def DecodeLastRuneInString (s : Str) : Nat × Nat :=
  let end_ := s.length
  if end_ = 0 then (RuneError, 0)
  else
    let r := byteAt s (end_ - 1)
    if r < RuneSelf then (r, 1)
    else
      let lim := end_ - UTFMax
      let start := lastStart s lim (end_ - 1) - 1
      let d := DecodeRuneInString ((s.take end_).drop start)
      if start + d.2 ≠ end_ then (RuneError, 1) else d

end utf8

namespace unicode

/-- Go `unicode.IsSpace`: the runes with the Unicode White_Space property. -/
def IsSpace (r : Nat) : Bool :=
  if r ≤ 0xFF then
    r = 0x09 ∨ r = 0x0A ∨ r = 0x0B ∨ r = 0x0C ∨ r = 0x0D ∨ r = 0x20 ∨ r = 0x85 ∨ r = 0xA0
  else
    r = 0x1680 ∨ (0x2000 ≤ r ∧ r ≤ 0x200A) ∨ r = 0x2028 ∨ r = 0x2029 ∨ r = 0x202F ∨
      r = 0x205F ∨ r = 0x3000

end unicode

/-! ## Go library: `strings`, `bytes`, `strconv`, `sort` -/

namespace strings

/-- Go `strings.HasPrefix(s, p)`. -/
def HasPrefix (s p : Str) : Bool := p.isPrefixOf s

/-- Splits `s` at the first occurrence of the one-byte separator `sep`. -/
def cut (sep : Char) : Str → Option (Str × Str)
  | [] => none
  | c :: cs =>
    if c = sep then some ([], cs)
    else match cut sep cs with
      | none => none
      | some (a, b) => some (c :: a, b)

/-- Go `strings.SplitN(s, sep, n)` for a one-byte separator and `n ≥ 0`: at most
`n` pieces, the last one being the unsplit remainder. -/
def SplitN (sep : Char) : Nat → Str → List Str
  | 0, _ => []
  | 1, s => [s]
  | n + 2, s =>
    match cut sep s with
    | none => [s]
    | some (a, b) => a :: SplitN sep (n + 1) b

/-- The table `asciiSpace` of the package. -/
def asciiSpace (c : Nat) : Bool :=
  c = 0x09 ∨ c = 0x0A ∨ c = 0x0B ∨ c = 0x0C ∨ c = 0x0D ∨ c = 0x20

/-- Go `indexFunc(s, f, truth)`, from the index `i` whose rest of the string is
`rest`: `for i, r := range s` decodes a rune at each step, and the index of the
first rune with `f(r) == truth` is returned, `none` standing for `-1`. The
loop is run for at most `fuel` runes; a string has no more runes than bytes,
and `indexFunc_enough` shows that as many rounds as bytes are enough. -/
def indexFunc (f : Nat → Bool) (truth : Bool) : Nat → Nat → Str → Option Nat
  | 0, _, _ => none
  | fuel + 1, i, rest =>
    if rest = [] then none
    else
      let d := utf8.DecodeRuneInString rest
      if f d.1 = truth then some i else indexFunc f truth fuel (i + d.2) (rest.drop d.2)

/-- Go `strings.TrimLeftFunc`. -/
def TrimLeftFunc (s : Str) (f : Nat → Bool) : Str :=
  match indexFunc f false s.length 0 s with
  | none => []
  | some i => s.drop i

/-- Go `lastIndexFunc(s, f, truth)`, from the index `i` down: the last rune of
`s[0:i]` is decoded at each step, and the index of the last rune with
`f(r) == truth` is returned, `none` standing for `-1`. The loop is run for at
most `fuel` runes, and `lastIndexFunc_enough` shows that `i` rounds are
enough. -/
def lastIndexFunc (f : Nat → Bool) (truth : Bool) (s : Str) : Nat → Nat → Option Nat
  | 0, _ => none
  | fuel + 1, i =>
    if 0 < i then
      let d := utf8.DecodeLastRuneInString (s.take i)
      if f d.1 = truth then some (i - d.2) else lastIndexFunc f truth s fuel (i - d.2)
    else none

/-- Go `strings.TrimRightFunc`. -/
def TrimRightFunc (s : Str) (f : Nat → Bool) : Str :=
  match lastIndexFunc f false s s.length s.length with
  | some i =>
    if utf8.RuneSelf ≤ utf8.byteAt s i then s.take (i + (utf8.DecodeRuneInString (s.drop i)).2)
    else s.take (i + 1)
  | none => s.take 0

/-- Go `strings.TrimFunc`. -/
def TrimFunc (s : Str) (f : Nat → Bool) : Str := TrimRightFunc (TrimLeftFunc s f) f

/-- The second loop of `TrimSpace`, on the bytes of `s[start:]` from the last
one backwards: ASCII white space is dropped; at a byte that is not ASCII the
rest goes to `TrimRightFunc`. The argument and the result are reversed. -/
def trimSpaceStop : Str → Str
  | [] => []
  | c :: front =>
    if utf8.RuneSelf ≤ c.toNat then (TrimRightFunc (c :: front).reverse unicode.IsSpace).reverse
    else if asciiSpace c.toNat then trimSpaceStop front
    else c :: front

/-- Go `strings.TrimSpace`. The first loop drops leading ASCII white space; at a
byte that is not ASCII the rest of the string goes to `TrimFunc`. -/
def TrimSpace : Str → Str
  | [] => []
  | c :: rest =>
    if utf8.RuneSelf ≤ c.toNat then TrimFunc (c :: rest) unicode.IsSpace
    else if asciiSpace c.toNat then TrimSpace rest
    else (trimSpaceStop (c :: rest).reverse).reverse

end strings

namespace bytes

/-- Go `bytes.Index(b, []byte("\r\n"))`; `none` stands for `-1`. -/
def IndexCRLF : Str → Option Nat
  | [] => none
  | c :: cs =>
    if c = '\r' ∧ cs.head? = some '\n' then some 0
    else (IndexCRLF cs).map (· + 1)

end bytes

namespace strconv

/-- Go `strconv.Itoa` on a non-negative integer. -/
def Itoa (n : Nat) : Str := Nat.toDigits 10 n

end strconv

namespace sort

/-- Go string comparison `a <= b`: lexicographic on the bytes. -/
def le : Str → Str → Bool
  | [], _ => true
  | _ :: _, [] => false
  | a :: as, b :: bs => if a = b then le as bs else decide (a.toNat < b.toNat)

/-- Inserts a string before the first element that is not below it. -/
def insert (k : Str) : List Str → List Str
  | [] => [k]
  | x :: xs => if le k x then k :: x :: xs else x :: insert k xs

/-- Go `sort.Strings`: the slice in ascending order. -/
def Strings (keys : List Str) : List Str := keys.foldr insert []

end sort

/-! ## Go maps -/

/-- A Go `map[string]string`: distinct keys, in the iteration order of the map. -/
abbrev GoMap := List (Str × Str)

namespace GoMap

/-- The two-valued lookup `v, ok := m[k]`. -/
def find? : GoMap → Str → Option Str
  | [], _ => none
  | (k1, v1) :: m, k => if k1 = k then some v1 else find? m k

/-- The lookup `m[k]`, the empty string for a key that is absent. -/
def get (m : GoMap) (k : Str) : Str := (m.find? k).getD []

/-- Whether `k` is a key of the map (the `ok` of `_, ok := m[k]`). -/
def has (m : GoMap) (k : Str) : Bool := (m.find? k).isSome

/-- The assignment `m[k] = v`. -/
def set : GoMap → Str → Str → GoMap
  | [], k, v => [(k, v)]
  | (k1, v1) :: m, k, v => if k1 = k then (k, v) :: m else (k1, v1) :: set m k v

/-- The keys, in iteration order (`for k := range m`). -/
def keys (m : GoMap) : List Str := m.map Prod.fst

end GoMap

/-! ## Go library: `path/filepath` (Unix) -/

namespace filepath

/-- The elements of a path: the pieces between slashes. -/
def elems : Str → List Str
  | [] => [[]]
  | c :: cs =>
    if c = '/' then [] :: elems cs
    else match elems cs with
      | [] => [[c]]
      | e :: es => (c :: e) :: es

/-- The element loop of `Clean`. `out` holds the elements kept so far, last one
first. An empty element and `.` are dropped; `..` removes the last kept element
when that is a real one, is dropped at the top of a rooted path, and is kept
otherwise; any other element is kept. -/
def cleanLoop (rooted : Bool) : List Str → List Str → List Str
  | [], out => out
  | e :: es, out =>
    if e = [] ∨ e = ['.'] then cleanLoop rooted es out
    else if e = ['.', '.'] then
      match out with
      | [] => if rooted then cleanLoop rooted es [] else cleanLoop rooted es [e]
      | top :: out1 =>
        if top = ['.', '.'] then cleanLoop rooted es (e :: top :: out1)
        else cleanLoop rooted es out1
    else cleanLoop rooted es (e :: out)

/-- Go `filepath.Clean`. -/
def Clean (path : Str) : Str :=
  if path = [] then ['.']
  else
    let rooted := path.head? = some '/'
    let kept := (cleanLoop rooted (elems path) []).reverse
    let out := (if rooted then ['/'] else []) ++ List.intercalate ['/'] kept
    if out = [] then ['.'] else out

/-- Go `filepath.Join(a, b)`: the non-empty arguments joined by a slash, cleaned. -/
def Join (a b : Str) : Str :=
  if a ≠ [] then Clean (a ++ '/' :: b)
  else if b ≠ [] then Clean b
  else []

/-- The scan of `Ext`, from the last byte backwards; `acc` is what was passed. -/
def extLoop : Str → Str → Str
  | [], _ => []
  | c :: cs, acc =>
    if c = '/' then []
    else if c = '.' then '.' :: acc
    else extLoop cs (c :: acc)

/-- Go `filepath.Ext`: the suffix of the last element from its last dot on. -/
def Ext (path : Str) : Str := extLoop path.reverse []

end filepath

/-! ## Errors, filesystem, clock, connection -/

/-- The Go `error` values the server can meet. -/
inductive Err
  /-- The error `io.EOF`: the peer closed the stream. -/
  | EOF
  /-- A `net.Error` whose `Timeout()` is true: the read deadline expired. -/
  | timeout
  /-- Any other error of `conn.Read`. -/
  | readFailure
  /-- The text "Error in reading line" of `ReadLine`. -/
  | noDelimiter
  /-- The text "Timeout with partial request" of `ReadRequest`. -/
  | timeoutPartial
  /-- The text "could not parse the request line" of `ReadRequest`. -/
  | requestLine
  /-- The text "Could not parse request header" of `ParseRequestHeader`. -/
  | headerSyntax
  /-- The text "Invalid key in header" of `ParseRequestHeader`. -/
  | headerKey
  /-- The text "Host header not found" of `ValidateRequestHeaders`. -/
  | noHost
  /-- The `fs.ErrNotExist` error of `os.Stat`. -/
  | notExist
  /-- Any other error of `os.Stat` or `os.ReadFile`. -/
  | file
  /-- An error of the `Write` of the connection. -/
  | write
  /-- The error `io.ErrShortWrite`. -/
  | shortWrite
  /-- An error of `net.Listen`. -/
  | listen
  deriving DecidableEq, Repr

/-- What `os.Stat` reports of a file. -/
structure FileInfo where
  /-- The result of `IsDir()`. -/
  isDir : Bool
  /-- The result of `ModTime()`. -/
  modTime : Nat
  deriving DecidableEq, Repr

/-- The filesystem: the results of `os.Stat` (the file information, or the
error, which is `Err.notExist` when `os.IsNotExist` holds of it) and of
`os.ReadFile` (`none` for an error). -/
structure FS where
  /-- Go `os.Stat`. -/
  Stat : Str → Except Err FileInfo
  /-- Go `os.ReadFile`. -/
  ReadFile : Str → Option Str

/-- The filesystem and the clock (`time.Now()`) while one request is handled. -/
structure World where
  /-- The filesystem. -/
  fs : FS
  /-- The value of `time.Now()`. -/
  now : Nat

/-- The functions of the package that `server.go` calls and that other files
of the package declare. -/
structure Lib where
  /-- The function `CanonicalHeaderKey`. -/
  CanonicalHeaderKey : Str → Str
  /-- The function `MIMETypeByExtension`. -/
  MIMETypeByExtension : Str → Str
  /-- The function `FormatTime`. -/
  FormatTime : Nat → Str

/-- What one call of `conn.Read(buf)` returns. -/
inductive ReadEvent
  /-- The bytes `buf[:bytes_read]`, with a nil error. -/
  | data (chunk : Str)
  /-- The error `io.EOF`. -/
  | EOF
  /-- A timeout error. -/
  | timeout
  /-- Any other error. -/
  | failure
  deriving DecidableEq, Repr

/-- A `net.Conn`. Once the script `reads` is used up the peer is silent and the
next read runs into the deadline. -/
structure Conn where
  /-- What the coming calls of `Read` return, in order. -/
  reads : List ReadEvent
  /-- Whether `SetReadDeadline` succeeds. -/
  deadlineOk : Bool
  /-- How many more bytes `Write` accepts before it fails; `none` is no limit. -/
  room : Option Nat
  /-- The bytes written to the peer so far. -/
  sent : Str
  /-- Whether `Close` was called. -/
  closed : Bool
  deriving DecidableEq, Repr

namespace Conn

/-- Go `conn.Close()`. -/
def Close (c : Conn) : Conn := { c with closed := true }

/-- Go `conn.Write(p)`: the connection, the count of bytes written, the error. -/
def Write (c : Conn) (p : Str) : Conn × Nat × Option Err :=
  match c.room with
  | none => ({ c with sent := c.sent ++ p }, p.length, none)
  | some k =>
    if p.length ≤ k then
      ({ c with sent := c.sent ++ p, room := some (k - p.length) }, p.length, none)
    else
      ({ c with sent := c.sent ++ p.take k, room := some 0 }, k, some Err.write)

/-- The bytes that the script of reads still holds. -/
def pending : List ReadEvent → Nat
  | [] => 0
  | ReadEvent.data chunk :: evs => chunk.length + pending evs
  | _ :: evs => pending evs

end Conn

/-! ## Go library: `bufio.Writer` over a connection -/

namespace bufio

/-- A `bufio.Writer`: the sticky error `err`, the buffered bytes `buf[0:n]`, and
the underlying writer `wr`. -/
structure Writer where
  /-- The field `err`. -/
  err : Option Err
  /-- The bytes `buf[0:n]`. -/
  buf : Str
  /-- The field `wr`. -/
  wr : Conn

/-- The default buffer size of `bufio.NewWriter`. -/
def defaultBufSize : Nat := 4096

/-- Go `bufio.NewWriter(w)`. -/
def NewWriter (w : Conn) : Writer := { err := none, buf := [], wr := w }

/-- Go `b.Available()`. -/
def Writer.Available (b : Writer) : Nat := defaultBufSize - b.buf.length

/-- Go `b.Flush()`. -/
def Writer.Flush (b : Writer) : Writer × Option Err :=
  match b.err with
  | some e => (b, some e)
  | none =>
    if b.buf.length = 0 then (b, none)
    else
      match b.wr.Write b.buf with
      | (wr, n, err) =>
        let err := if n < b.buf.length ∧ err = none then some Err.shortWrite else err
        match err with
        | some e => ({ err := some e, buf := b.buf.drop n, wr := wr }, some e)
        | none => ({ err := none, buf := [], wr := wr }, none)

/-- The loop of `b.WriteString(s)` over a writer that has no `WriteString` of its
own: while `s` does not fit, fill the buffer and flush it. The loop is run for
at most the given number of rounds, which `writeStringLoop_done` shows to be
enough. -/
def Writer.writeStringLoop : Nat → Writer → Str → Writer × Str
  | 0, b, s => (b, s)
  | fuel + 1, b, s =>
    if s.length > b.Available ∧ b.err = none then
      let n := min b.Available s.length
      let b1 := ({ b with buf := b.buf ++ s.take n } : Writer).Flush.1
      writeStringLoop fuel b1 (s.drop n)
    else (b, s)

/-- Go `b.WriteString(s)`. -/
def Writer.WriteString (b : Writer) (s : Str) : Writer × Option Err :=
  match b.writeStringLoop (s.length + 2) s with
  | (b1, s1) =>
    match b1.err with
    | some e => (b1, some e)
    | none => ({ b1 with buf := b1.buf ++ s1 }, none)

/-- The loop of `b.Write(p)`: while `p` does not fit, write it straight to the
underlying writer if the buffer is empty, else fill the buffer and flush it.
The loop is run for at most the given number of rounds, which `writeLoop_done`
shows to be enough. -/
def Writer.writeLoop : Nat → Writer → Str → Writer × Str
  | 0, b, p => (b, p)
  | fuel + 1, b, p =>
    if p.length > b.Available ∧ b.err = none then
      if b.buf.length = 0 then
        match b.wr.Write p with
        | (wr, n, err) => writeLoop fuel { b with wr := wr, err := err } (p.drop n)
      else
        let n := min b.Available p.length
        let b1 := ({ b with buf := b.buf ++ p.take n } : Writer).Flush.1
        writeLoop fuel b1 (p.drop n)
    else (b, p)

/-- Go `b.Write(p)`. -/
def Writer.Write (b : Writer) (p : Str) : Writer × Option Err :=
  match b.writeLoop (p.length + 2) p with
  | (b1, p1) =>
    match b1.err with
    | some e => (b1, some e)
    | none => ({ b1 with buf := b1.buf ++ p1 }, none)

end bufio

/-! ## `server.go` -/

/-- The constant `responseProto`. -/
def responseProto : Str := "HTTP/1.1".toList

/-- The constant `statusOK`. -/
def statusOK : Nat := 200

/-- The constant `statusBadRequest`. -/
def statusBadRequest : Nat := 400

/-- The constant `statusNotFound`. -/
def statusNotFound : Nat := 404

/-- The map `statusText`, looked up at a status code. -/
def statusText (code : Nat) : Str :=
  if code = statusOK then "OK".toList
  else if code = statusBadRequest then "Bad Request".toList
  else if code = statusNotFound then "Not Found".toList
  else []

/-- The delimiter `"\r\n"`. -/
def CRLF : Str := ['\r', '\n']

/-- The struct `Server`; the listen address plays no part in what follows. -/
structure Server where
  /-- The field `VirtualHosts`: host name to document root. -/
  VirtualHosts : GoMap

/-- The struct `Request`, with the fields that `server.go` assigns. -/
structure Request where
  /-- The field `Method`. -/
  Method : Str
  /-- The field `URL`. -/
  URL : Str
  /-- The field `Proto`. -/
  Proto : Str
  /-- The field `Headers`. -/
  Headers : GoMap
  /-- The field `Host`. -/
  Host : Str
  /-- The field `Close`. -/
  Close : Bool
  deriving DecidableEq, Repr

/-- The struct `Response`, with the fields that `server.go` assigns. -/
structure Response where
  /-- The field `Proto`. -/
  Proto : Str
  /-- The field `StatusCode`. -/
  StatusCode : Nat
  /-- The field `StatusText`. -/
  StatusText : Str
  /-- The field `Headers`. -/
  Headers : GoMap
  /-- The field `Request` (named `Req` here, as the name `Response.Request`
  would hide the type `Request` inside the methods of `Response`); nil unless
  assigned. -/
  Req : Option Request
  /-- The field `FilePath`. -/
  FilePath : Str
  deriving DecidableEq, Repr

/-- The outcome of a function that returns an `error` and can panic. -/
inductive Outcome
  /-- The function returned this error (`none` is nil). -/
  | ret (err : Option Err)
  /-- The function panicked. -/
  | panic
  deriving DecidableEq, Repr

/-- The loop of `ValidateServerSetup` over the document roots. When `os.Stat`
fails with an error other than not-exist, `fileStatus` is nil and the call
`fileStatus.IsDir()` panics. -/
def validateRoots (w : World) : List Str → Outcome
  | [] => Outcome.ret none
  | docRoot :: rest =>
    match w.fs.Stat docRoot with
    | Except.error fileErr =>
      if fileErr = Err.notExist then Outcome.ret (some fileErr)
      else Outcome.panic
    | Except.ok fileStatus =>
      if !fileStatus.isDir then Outcome.ret none
      else validateRoots w rest

/-- The method `ValidateServerSetup`. -/
def Server.ValidateServerSetup (s : Server) (w : World) : Outcome :=
  validateRoots w (s.VirtualHosts.map Prod.snd)

/-- The loop of `ReadLine`: read until the message holds the delimiter. The
result is the script that is left, the message, and the read error if any. -/
def readUntilCRLF : List ReadEvent → Str → List ReadEvent × Str × Option Err
  | evs, message =>
    if (bytes.IndexCRLF message).isSome then (evs, message, none)
    else
      match evs with
      | [] => ([], message, some Err.timeout)
      | ReadEvent.data chunk :: rest => readUntilCRLF rest (message ++ chunk)
      | ReadEvent.EOF :: rest => (rest, message, some Err.EOF)
      | ReadEvent.timeout :: rest => (rest, message, some Err.timeout)
      | ReadEvent.failure :: rest => (rest, message, some Err.readFailure)

/-- The function `ReadLine`: the connection, then the line, the message and the
error that it returns. -/
def ReadLine (conn : Conn) (message : Str) : Conn × Str × Str × Option Err :=
  match readUntilCRLF conn.reads message with
  | (evs, message, some readErr) => ({ conn with reads := evs }, [], message, some readErr)
  | (evs, message, none) =>
    match bytes.IndexCRLF message with
    | some ind =>
      let line := message.take ind
      let message := if message.length > ind + 2 then message.drop (ind + 2) else []
      ({ conn with reads := evs }, line, message, none)
    | none => ({ conn with reads := evs }, [], message, some Err.noDelimiter)

/-- The function `ParseRequestHeader`. -/
def ParseRequestHeader (lib : Lib) (line : Str) : Except Err (Str × Str) :=
  match strings.SplitN ':' 2 line with
  | [f0, f1] =>
    let key := strings.TrimSpace f0
    let value := strings.TrimSpace f1
    if key = [] then Except.error Err.headerKey
    else Except.ok (lib.CanonicalHeaderKey key, value)
  | _ => Except.error Err.headerSyntax

/-- The function `ValidateRequestHeaders`, on the header map of the request. -/
def ValidateRequestHeaders (headers : GoMap) : Option Err :=
  if !headers.has "Host".toList then some Err.noHost else none

/-- The result of `ReadRequest`. -/
inductive ReadResult
  /-- The return `req, message, nil`. -/
  | ok (req : Request) (message : Str)
  /-- The return `nil, message, err`. -/
  | fail (message : Str) (err : Err)
  /-- A run-time panic. -/
  | panic
  /-- The header loop was cut off; `Server.ReadRequest_finishes` shows that this
  does not happen. -/
  | unfinished
  deriving DecidableEq, Repr

/-- The result of the header loop of `ReadRequest`. -/
inductive HeaderResult
  /-- The loop reached the empty line. -/
  | done (headers : GoMap) (message : Str)
  /-- The loop returned `nil, message, err`. -/
  | fail (message : Str) (err : Err)
  /-- The loop was cut off. -/
  | unfinished
  deriving DecidableEq, Repr

/-- The header loop of `ReadRequest`, run for at most `fuel` lines. -/
def readHeaders (lib : Lib) : Nat → Conn → Str → GoMap → Conn × HeaderResult
  | 0, conn, _, _ => (conn, HeaderResult.unfinished)
  | fuel + 1, conn, message, headers =>
    match ReadLine conn message with
    | (conn, _, message, some readErr) =>
      if readErr = Err.timeout then (conn, HeaderResult.fail message Err.timeoutPartial)
      else (conn, HeaderResult.fail message readErr)
    | (conn, line, message, none) =>
      if line.length = 0 ∨ line = [] then (conn, HeaderResult.done headers message)
      else
        match ParseRequestHeader lib line with
        | Except.error parseErr => (conn, HeaderResult.fail message parseErr)
        | Except.ok (key, value) => readHeaders lib fuel conn message (headers.set key value)

/-- The method `ReadRequest`. The condition on the start line is evaluated from
left to right, and `fields[1][0]` panics when `fields[1]` is empty. -/
def Server.ReadRequest (s : Server) (lib : Lib) (w : World) (conn : Conn) (message : Str) :
    Conn × ReadResult :=
  match ReadLine conn message with
  | (conn, _, message, some readErr) =>
    if readErr = Err.timeout ∧ message.length > 0 then
      (conn, ReadResult.fail message Err.timeoutPartial)
    else (conn, ReadResult.fail message readErr)
  | (conn, line, message, none) =>
    match strings.SplitN ' ' 3 line with
    | [f0, f1, f2] =>
      if f0 ≠ "GET".toList then (conn, ReadResult.fail message Err.requestLine)
      else
        match f1.head? with
        | none => (conn, ReadResult.panic)
        | some c =>
          if c ≠ '/' ∨ f2 ≠ "HTTP/1.1".toList then
            (conn, ReadResult.fail message Err.requestLine)
          else
            match readHeaders lib (message.length + Conn.pending conn.reads + 1) conn message [] with
            | (conn, HeaderResult.unfinished) => (conn, ReadResult.unfinished)
            | (conn, HeaderResult.fail message err) => (conn, ReadResult.fail message err)
            | (conn, HeaderResult.done headers message) =>
              match ValidateRequestHeaders headers with
              | some headerErr => (conn, ReadResult.fail message headerErr)
              | none =>
                let pathToFile := filepath.Join (s.VirtualHosts.get (headers.get "Host".toList)) f1
                let url :=
                  match w.fs.Stat pathToFile with
                  | Except.ok fileStatus =>
                    if fileStatus.isDir ∨ f1.getLast? = some '/' then
                      filepath.Join f1 "index.html".toList
                    else f1
                  | Except.error _ => f1
                (conn, ReadResult.ok
                  { Method := f0, URL := url, Proto := f2, Headers := headers,
                    Host := headers.get "Host".toList,
                    Close := headers.get "Connection".toList = "close".toList } message)
    | _ => (conn, ReadResult.fail message Err.requestLine)

/-- The zero value `Response{}`. -/
def Response.zero : Response :=
  { Proto := [], StatusCode := 0, StatusText := [], Headers := [], Req := none, FilePath := [] }

/-- The method `HandleOK`. -/
def Response.HandleOK (res : Response) : Response :=
  { res with Proto := responseProto, StatusCode := statusOK }

/-- The method `HandleGoodRequest`: the response (nil on an error) and the error. -/
def Server.HandleGoodRequest (s : Server) (lib : Lib) (w : World) (req : Request) :
    Option Response × Option Err :=
  let res := Response.zero.HandleOK
  let res := { res with StatusText := statusText statusOK }
  let res := { res with Req := some req }
  let res := { res with
    FilePath := filepath.Join (s.VirtualHosts.get (req.Headers.get "Host".toList)) req.URL }
  let res := { res with Headers := [] }
  let res :=
    if req.Headers.get "Connection".toList = "close".toList then
      { res with Headers := res.Headers.set "Connection".toList "close".toList }
    else res
  match w.fs.ReadFile res.FilePath with
  | none => (none, some Err.file)
  | some body =>
    let res := { res with
      Headers := res.Headers.set "Content-Length".toList (strconv.Itoa body.length) }
    let res := { res with
      Headers := res.Headers.set "Content-Type".toList
        (lib.MIMETypeByExtension (filepath.Ext res.FilePath)) }
    let res := { res with Headers := res.Headers.set "Date".toList (lib.FormatTime w.now) }
    match w.fs.Stat res.FilePath with
    | Except.error err => (none, some err)
    | Except.ok fileStat =>
      (some { res with
        Headers := res.Headers.set "Last-Modified".toList (lib.FormatTime fileStat.modTime) },
       none)

/-- The method `HandleBadRequest`. -/
def Response.HandleBadRequest (res : Response) (lib : Lib) (w : World) : Response :=
  let res := { res with Proto := responseProto, StatusCode := statusBadRequest, FilePath := [] }
  let res := { res with Headers := [] }
  let res := { res with Headers := res.Headers.set "Connection".toList "close".toList }
  { res with Headers := res.Headers.set "Date".toList (lib.FormatTime w.now) }

/-- The method `FileExistsInDocRoot`. -/
def Server.FileExistsInDocRoot (s : Server) (w : World) (req : Request) : Bool :=
  let pathToFile := filepath.Join (s.VirtualHosts.get (req.Headers.get "Host".toList)) req.URL
  if !strings.HasPrefix pathToFile (s.VirtualHosts.get (req.Headers.get "Host".toList)) then false
  else
    match w.fs.Stat pathToFile with
    | Except.error _ => false
    | Except.ok _ => true

/-- The method `HandleNotFound`. -/
def Response.HandleNotFound (res : Response) (lib : Lib) (w : World) (req : Request) : Response :=
  let res := { res with Proto := responseProto, StatusCode := statusNotFound, FilePath := [] }
  let res := { res with Headers := [] }
  let res :=
    if req.Headers.get "Connection".toList = "close".toList then
      { res with Headers := res.Headers.set "Connection".toList "close".toList }
    else res
  { res with Headers := res.Headers.set "Date".toList (lib.FormatTime w.now) }

/-- The header loop of `Response.Write`, over the sorted keys. -/
def writeHeaders (headers : GoMap) : List Str → bufio.Writer → bufio.Writer × Option Err
  | [], bw => (bw, none)
  | k :: keys, bw =>
    let headerLine := k ++ ": ".toList ++ headers.get k ++ CRLF
    match bw.WriteString headerLine with
    | (bw, some err) => (bw, some err)
    | (bw, none) => writeHeaders headers keys bw

/-- The method `Response.Write` on a non-nil response: the connection and the
error returned. A return before the final flush drops what is still buffered. -/
def Response.Write (res : Response) (w : World) (conn : Conn) : Conn × Option Err :=
  let bw := bufio.NewWriter conn
  let statusLine :=
    res.Proto ++ " ".toList ++ strconv.Itoa res.StatusCode ++ " ".toList ++
      statusText res.StatusCode ++ CRLF
  match bw.WriteString statusLine with
  | (bw, some err) => (bw.wr, some err)
  | (bw, none) =>
    match writeHeaders res.Headers (sort.Strings res.Headers.keys) bw with
    | (bw, some err) => (bw.wr, some err)
    | (bw, none) =>
      match bw.WriteString CRLF with
      | (bw, some err) => (bw.wr, some err)
      | (bw, none) =>
        if res.StatusCode = statusOK then
          match w.fs.ReadFile res.FilePath with
          | none => (bw.wr, some Err.file)
          | some body =>
            match bw.Write body with
            | (bw, some err) => (bw.wr, some err)
            | (bw, none) =>
              match bw.Flush with
              | (bw, some _) => (bw.wr, none)
              | (bw, none) => (bw.wr, none)
        else
          match bw.Flush with
          | (bw, some _) => (bw.wr, none)
          | (bw, none) => (bw.wr, none)

/-- How a run of `HandleClient` ends. -/
inductive Exit
  /-- The handler returned. -/
  | returned
  /-- The handler panicked. -/
  | panicked
  /-- The handler is back at the top of its loop, awaiting the next request,
  when the count of iterations that is followed is used up. -/
  | awaiting
  deriving DecidableEq, Repr

/-- The method `HandleClient`, followed for at most `fuel` iterations of its
loop; iteration `i` runs in the world `ws i`. The result is the connection at
the end, the buffered message, and how the run ends. A nil `res` makes
`res.Write` panic at `res.Proto`. `Server.HandleClient_ends` shows how many
iterations are enough for the handler to return or panic. -/
def Server.HandleClient (s : Server) (lib : Lib) (ws : Nat → World) :
    Nat → Nat → Conn → Str → Conn × Str × Exit
  | 0, _, conn, message => (conn, message, Exit.awaiting)
  | fuel + 1, i, conn, message =>
    if !conn.deadlineOk then (conn.Close, message, Exit.returned)
    else
      match s.ReadRequest lib (ws i) conn message with
      | (conn, ReadResult.panic) => (conn, message, Exit.panicked)
      | (conn, ReadResult.unfinished) => (conn, message, Exit.awaiting)
      | (conn, ReadResult.fail message err) =>
        if err = Err.EOF then (conn.Close, message, Exit.returned)
        else if err = Err.timeout then (conn.Close, message, Exit.returned)
        else
          let res := Response.zero.HandleBadRequest lib (ws i)
          ((res.Write (ws i) conn).1.Close, message, Exit.returned)
      | (conn, ReadResult.ok req message) =>
        if !s.FileExistsInDocRoot (ws i) req then
          let res := Response.zero.HandleNotFound lib (ws i) req
          let conn := (res.Write (ws i) conn).1
          if res.Headers.get "Connection".toList = "close".toList then
            (conn.Close, message, Exit.returned)
          else s.HandleClient lib ws fuel (i + 1) conn message
        else
          match s.HandleGoodRequest lib (ws i) req with
          | (none, _) => (conn, message, Exit.panicked)
          | (some res, _) =>
            let conn := (res.Write (ws i) conn).1
            if res.Headers.get "Connection".toList = "close".toList then
              (conn.Close, message, Exit.returned)
            else s.HandleClient lib ws fuel (i + 1) conn message

/-- How `ListenAndServe` goes on after validating the configuration. -/
inductive Served
  /-- It returned this error before `net.Listen` was called. -/
  | refused (err : Err)
  /-- It panicked before `net.Listen` was called. -/
  | panicked
  /-- It called `net.Listen`, which failed with this error. -/
  | listenFailed (err : Err)
  /-- It called `net.Listen` and entered the accept loop. -/
  | accepting
  deriving DecidableEq, Repr

/-- The method `ListenAndServe` up to the accept loop; `listenErr` is the error
of `net.Listen`. -/
def Server.ListenAndServe (s : Server) (w : World) (listenErr : Option Err) : Served :=
  match s.ValidateServerSetup w with
  | Outcome.panic => Served.panicked
  | Outcome.ret (some validationErr) => Served.refused validationErr
  | Outcome.ret none =>
    match listenErr with
    | some err => Served.listenFailed err
    | none => Served.accepting

/-! ## The functions of the package declared outside `server.go` -/

/-- Modelled from the spec: the upper-case form of an ASCII letter, for the
capitalization that `CanonicalHeaderKey` (declared outside `server.go`) does. -/
def upperASCII (c : Char) : Char :=
  if 'a'.toNat ≤ c.toNat ∧ c.toNat ≤ 'z'.toNat then Char.ofNat (c.toNat - 32) else c

/-- Modelled from the spec: the lower-case form of an ASCII letter, for the
case-insensitivity of `CanonicalHeaderKey` (declared outside `server.go`). -/
def lowerASCII (c : Char) : Char :=
  if 'A'.toNat ≤ c.toNat ∧ c.toNat ≤ 'Z'.toNat then Char.ofNat (c.toNat + 32) else c

/-- Modelled from the spec: the pass over the key that `CanonicalHeaderKey`
(declared outside `server.go`) makes; `up` tells whether the next letter starts
a word. -/
def canonicalLoop : Bool → Str → Str
  | _, [] => []
  | up, c :: cs => (if up then upperASCII c else lowerASCII c) :: canonicalLoop (c = '-') cs

/-- Modelled from the spec: the function `CanonicalHeaderKey`, which `server.go`
calls and another file of the package declares. The spec says that keys are
canonicalized case-insensitively with first-letter-of-word capitalization, so
that "host" and "Host" collide: the first letter of each hyphen-separated word
is put in upper case and every other letter in lower case. -/
def specCanonicalHeaderKey (key : Str) : Str := canonicalLoop true key

/-- Modelled from the spec: the function `MIMETypeByExtension`, which
`server.go` calls and another file of the package declares. The spec says that
it is a lookup in a fixed table from extension to MIME type that covers at
least html, css, js, images and text, with a binary fallback. -/
def specMIMETypeByExtension (ext : Str) : Str :=
  if ext = ".html".toList then "text/html; charset=utf-8".toList
  else if ext = ".css".toList then "text/css; charset=utf-8".toList
  else if ext = ".js".toList then "text/javascript; charset=utf-8".toList
  else if ext = ".txt".toList then "text/plain; charset=utf-8".toList
  else if ext = ".jpg".toList ∨ ext = ".jpeg".toList then "image/jpeg".toList
  else if ext = ".png".toList then "image/png".toList
  else if ext = ".gif".toList then "image/gif".toList
  else "application/octet-stream".toList

/-- Modelled from the spec: a number in decimal with a leading zero when it is
below ten, as the HTTP date representation of `FormatTime` (declared outside
`server.go`) writes days, hours, minutes and seconds. -/
def twoDigits (n : Nat) : Str := if n < 10 then '0' :: strconv.Itoa n else strconv.Itoa n

/-- Modelled from the spec: the function `FormatTime`, which `server.go` calls
and another file of the package declares. The spec says that it renders a
timestamp in the fixed HTTP date representation; the timestamp is taken in
seconds since 1 January 1970 UTC, and the rendering is that of
"Thu, 01 Jan 1970 00:00:00 GMT". -/
def specFormatTime (t : Nat) : Str :=
  let days := t / 86400
  let secs := t % 86400
  let z := days + 719468
  let era := z / 146097
  let doe := z % 146097
  let yoe := (doe - doe / 1460 + doe / 36524 - doe / 146096) / 365
  let doy := doe - (365 * yoe + yoe / 4 - yoe / 100)
  let mp := (5 * doy + 2) / 153
  let d := doy - (153 * mp + 2) / 5 + 1
  let m := if mp < 10 then mp + 3 else mp - 9
  let y := yoe + era * 400 + (if m ≤ 2 then 1 else 0)
  let dayName := (["Thu", "Fri", "Sat", "Sun", "Mon", "Tue", "Wed"].getD (days % 7) "").toList
  let monthName :=
    (["Jan", "Feb", "Mar", "Apr", "May", "Jun", "Jul", "Aug", "Sep", "Oct", "Nov", "Dec"].getD
      (m - 1) "").toList
  dayName ++ ", ".toList ++ twoDigits d ++ " ".toList ++ monthName ++ " ".toList ++
    strconv.Itoa y ++ " ".toList ++ twoDigits (secs / 3600) ++ ":".toList ++
    twoDigits (secs % 3600 / 60) ++ ":".toList ++ twoDigits (secs % 60) ++ " GMT".toList

/-- Modelled from the spec: the three functions of the package that `server.go`
calls and that other files of the package declare, each as the spec describes
it. -/
def specLib : Lib :=
  { CanonicalHeaderKey := specCanonicalHeaderKey
    MIMETypeByExtension := specMIMETypeByExtension
    FormatTime := specFormatTime }

/-! ## Notions used in the statements -/

deriving instance DecidableEq for Except

/-- Two connections that differ at most in what was sent and in the room left. -/
def Conn.SameSide (a b : Conn) : Prop :=
  a.reads = b.reads ∧ a.deadlineOk = b.deadlineOk ∧ a.closed = b.closed

/-- Two connections that differ at most in the script of reads. -/
def Conn.SameOut (a b : Conn) : Prop :=
  a.deadlineOk = b.deadlineOk ∧ a.room = b.room ∧ a.sent = b.sent ∧ a.closed = b.closed

/-- The lines that the header loop of `Response.Write` emits for these keys. -/
def headerLines (headers : GoMap) : List Str → Str
  | [] => []
  | k :: keys => k ++ ": ".toList ++ headers.get k ++ CRLF ++ headerLines headers keys

/-- The bytes of a response on the wire: status line, header lines in the
order of the sorted keys, empty line, body. -/
def Response.wire (res : Response) (body : Str) : Str :=
  res.Proto ++ " ".toList ++ strconv.Itoa res.StatusCode ++ " ".toList ++
    statusText res.StatusCode ++ CRLF ++
    headerLines res.Headers (sort.Strings res.Headers.keys) ++ CRLF ++ body

namespace bufio

/-- The writer has no error, sits on the connection `c` after some of `total`
was sent, and buffers the rest of `total`. -/
def Writer.Holds (b : Writer) (c : Conn) (total : Str) : Prop :=
  b.err = none ∧ ∃ pre, b.wr = { c with sent := pre } ∧ pre ++ b.buf = total

end bufio

/-- The bytes of a 400 response with the headers `Connection: close` and
`Date`, and no body. -/
def badRequestBytes (date : Str) : Str :=
  "HTTP/1.1 400 Bad Request\r\nConnection: close\r\nDate: ".toList ++ date ++ "\r\n\r\n".toList

/-- The bytes of a 404 response with the header `Date` alone, and no body. -/
def notFoundBytes (date : Str) : Str :=
  "HTTP/1.1 404 Not Found\r\nDate: ".toList ++ date ++ "\r\n\r\n".toList

/-- A connection whose peer accepts no byte at all: every `Write` on it fails. -/
def deafPeer : Conn :=
  { reads := [], deadlineOk := true, room := some 0, sent := [], closed := false }

/-- A request for `/missing.html` on the host `site`, as `ReadRequest` builds it. -/
def missingRequest : Request :=
  { Method := "GET".toList, URL := "/missing.html".toList, Proto := "HTTP/1.1".toList,
    Headers := [("Host".toList, "site".toList)], Host := "site".toList, Close := false }

/-! ## A site for the examples -/

/-- The file information of a directory. -/
def dirInfo : FileInfo := { isDir := true, modTime := 1000 }

/-- The file information of a regular file. -/
def fileInfo : FileInfo := { isDir := false, modTime := 1000 }

/-- The filesystem of the examples. The directory `/srv/www` holds `index.html`
and `locked.html`, a file that `os.Stat` finds and `os.ReadFile` cannot read;
next to it lies `/srv/www2/secret.txt`; there is `/etc/passwd`; and the
working directory holds the directory `www` with `index.html`, which have the
same status under the names `./www` and `./www/index.html`. -/
def siteFS : FS :=
  { Stat := fun p =>
      if p = "/srv".toList ∨ p = "/srv/www".toList ∨ p = "/srv/www2".toList ∨
          p = "/etc".toList ∨ p = "www".toList ∨ p = "./www".toList then Except.ok dirInfo
      else if p = "/srv/www/index.html".toList ∨ p = "/srv/www/locked.html".toList ∨
          p = "/srv/www2/secret.txt".toList ∨ p = "/etc/passwd".toList ∨
          p = "www/index.html".toList ∨ p = "./www/index.html".toList then Except.ok fileInfo
      else Except.error Err.notExist
    ReadFile := fun p =>
      if p = "/srv/www/index.html".toList ∨ p = "www/index.html".toList ∨
          p = "./www/index.html".toList then some "<h1>hi</h1>".toList
      else if p = "/srv/www2/secret.txt".toList then some "secret".toList
      else if p = "/etc/passwd".toList then some "root:x:0:0".toList
      else none }

/-- The filesystem without any file. -/
def emptyFS : FS := { Stat := fun _ => Except.error Err.notExist, ReadFile := fun _ => none }

/-- The world of the examples: `siteFS` at midnight of 2 November 2026. -/
def siteWorld : World := { fs := siteFS, now := 1793577600 }

/-- A server with the one virtual host `site`, rooted at `/srv/www`. -/
def siteServer : Server := { VirtualHosts := [("site".toList, "/srv/www".toList)] }

/-- A server with the one virtual host `site`, rooted at `./www`. -/
def dotServer : Server := { VirtualHosts := [("site".toList, "./www".toList)] }

/-- A fresh connection whose peer accepts every byte and sends `reads`. -/
def peer (reads : List ReadEvent) : Conn :=
  { reads := reads, deadlineOk := true, room := none, sent := [], closed := false }

/-! ## Notions used in the statements about reading and round trips -/

/-- The bytes that the coming reads deliver before the first read that fails. -/
def Conn.stream : List ReadEvent → Str
  | ReadEvent.data chunk :: evs => chunk ++ Conn.stream evs
  | _ => []

/-- Whether the first read that delivers no bytes runs into the deadline. -/
def Conn.timesOut : List ReadEvent → Bool
  | [] => true
  | ReadEvent.data _ :: evs => Conn.timesOut evs
  | ReadEvent.timeout :: _ => true
  | _ => false

/-- The chunks of some reads, one after the other. -/
def concatChunks : List Str → Str
  | [] => []
  | chunk :: chunks => chunk ++ concatChunks chunks

/-- The bytes of the UTF-8 encodings of the runes with the Unicode White_Space
property: U+0009 to U+000D, U+0020, U+0085, U+00A0, U+1680, U+2000 to U+200A,
U+2028, U+2029, U+202F, U+205F and U+3000. -/
def spaceCodes : List (List Nat) :=
  [[0x09], [0x0A], [0x0B], [0x0C], [0x0D], [0x20], [0xC2, 0x85], [0xC2, 0xA0],
    [0xE1, 0x9A, 0x80], [0xE2, 0x80, 0x80], [0xE2, 0x80, 0x81], [0xE2, 0x80, 0x82],
    [0xE2, 0x80, 0x83], [0xE2, 0x80, 0x84], [0xE2, 0x80, 0x85], [0xE2, 0x80, 0x86],
    [0xE2, 0x80, 0x87], [0xE2, 0x80, 0x88], [0xE2, 0x80, 0x89], [0xE2, 0x80, 0x8A],
    [0xE2, 0x80, 0xA8], [0xE2, 0x80, 0xA9], [0xE2, 0x80, 0xAF], [0xE2, 0x81, 0x9F],
    [0xE3, 0x80, 0x80]]

/-- The UTF-8 encodings of the runes with the Unicode White_Space property. -/
def spaceEncodings : List Str := spaceCodes.map (fun bs => bs.map Char.ofNat)

/-- A string that is white space and nothing else: encodings of white space
runes, one after the other. -/
def whiteSpace (s : Str) : Prop :=
  ∃ parts : List Str, (∀ p ∈ parts, p ∈ spaceEncodings) ∧ s = concatChunks parts

/-- The string `t` is `s` without its leading and trailing white space: `s` is
`t` between two strings of white space, and `t` neither starts nor ends with
the encoding of a white space rune. -/
def Trimmed (s t : Str) : Prop :=
  ∃ pre post, s = pre ++ t ++ post ∧ whiteSpace pre ∧ whiteSpace post ∧
    (∀ e ∈ spaceEncodings, ¬ e <+: t) ∧ (∀ e ∈ spaceEncodings, ¬ e <:+ t)

/-- An ASCII byte that is not white space. -/
def plainByte (c : Char) : Bool := decide (c.toNat < 0x80) && !strings.asciiSpace c.toNat

/-- The lines of a header block, each followed by the delimiter. -/
def headerBlock : List Str → Str
  | [] => []
  | line :: lines => line ++ CRLF ++ headerBlock lines

/-- The header map after the header loop has taken these lines, in order: each
line that `ParseRequestHeader` accepts assigns its value to its key. -/
def parsedHeaders (lib : Lib) : List Str → GoMap → GoMap
  | [], headers => headers
  | line :: lines, headers =>
    match ParseRequestHeader lib line with
    | Except.ok (key, value) => parsedHeaders lib lines (headers.set key value)
    | Except.error _ => parsedHeaders lib lines headers

/-- The start line of a request for `target`. -/
def startLine (target : Str) : Str := "GET ".toList ++ target ++ " HTTP/1.1".toList

/-- The text of a line before its first colon (the whole line if it has none). -/
def beforeColon (line : Str) : Str := line.takeWhile (fun c => c != ':')

/-- The text of a line after its first colon (empty if it has none). -/
def afterColon (line : Str) : Str := (line.dropWhile (fun c => c != ':')).drop 1

/-- A header value that survives being written and parsed again: trimming
leaves it as it is, and it holds no CRLF. -/
def plainValue (v : Str) : Prop := strings.TrimSpace v = v ∧ bytes.IndexCRLF v = none

/-- The header keys that `HandleGoodRequest` assigns. -/
def successKeys : List Str :=
  ["Connection".toList, "Content-Length".toList, "Content-Type".toList, "Date".toList,
    "Last-Modified".toList]

/-! ## Further examples -/

/-- The worlds of the examples for a clock that moves on: `siteFS` throughout,
midnight of 2 November 2026 at the first request and one second later at
every further one. -/
def tickingWorld (i : Nat) : World :=
  { fs := siteFS, now := if i = 0 then 1793577600 else 1793577601 }

/-- The bytes of a request for `/index.html` on the host `site`. -/
def indexRequestBytes : Str := "GET /index.html HTTP/1.1\r\nHost: site\r\n\r\n".toList

/-- The bytes of the 200 response to `indexRequestBytes` on `siteServer`, with
the given value of the Date header. -/
def indexResponseBytes (date : Str) : Str :=
  "HTTP/1.1 200 OK\r\nContent-Length: 11\r\nContent-Type: text/html; charset=utf-8\r\nDate: ".toList
    ++ date ++ "\r\nLast-Modified: Thu, 01 Jan 1970 00:16:40 GMT\r\n\r\n<h1>hi</h1>".toList

/-- The request that `ReadRequest` builds from `indexRequestBytes`. -/
def indexRequest : Request :=
  { Method := "GET".toList, URL := "/index.html".toList, Proto := "HTTP/1.1".toList,
    Headers := [("Host".toList, "site".toList)], Host := "site".toList, Close := false }

/-- The response that `HandleGoodRequest` builds for `indexRequest` on
`siteServer`, with the given value of the Date header. -/
def indexResponse (date : Str) : Response :=
  { Proto := responseProto, StatusCode := statusOK, StatusText := statusText statusOK,
    Headers :=
      [("Content-Length".toList, "11".toList),
       ("Content-Type".toList, "text/html; charset=utf-8".toList),
       ("Date".toList, date),
       ("Last-Modified".toList, "Thu, 01 Jan 1970 00:16:40 GMT".toList)],
    Req := some indexRequest, FilePath := "/srv/www/index.html".toList }

/-! # Theorems -/

/-! ## The connection is only appended to by writing -/

theorem Conn.sameSide_refl (a : Conn) : a.SameSide a := ⟨rfl, rfl, rfl⟩

theorem Conn.sameSide_trans {a b c : Conn} (h1 : a.SameSide b) (h2 : b.SameSide c) :
    a.SameSide c :=
  ⟨h1.1.trans h2.1, h1.2.1.trans h2.2.1, h1.2.2.trans h2.2.2⟩

theorem Conn.connWrite_sameSide (c : Conn) (p : Str) : (c.Write p).1.SameSide c := by
  unfold Conn.Write
  cases c.room with
  | none => exact ⟨rfl, rfl, rfl⟩
  | some k =>
    by_cases h : p.length ≤ k
    · simp only [h, if_true]; exact ⟨rfl, rfl, rfl⟩
    · simp only [h, if_false]; exact ⟨rfl, rfl, rfl⟩

theorem Conn.Write_err (c : Conn) (p : Str) :
    (c.Write p).2.2 = none → (c.Write p).2.1 = p.length := by
  unfold Conn.Write
  cases c.room with
  | none => intro _; rfl
  | some k =>
    by_cases h : p.length ≤ k
    · simp only [h, if_true]; intro _; trivial
    · simp only [h, if_false]; intro h2; cases h2

namespace bufio

theorem Writer.Flush_sameSide (b : Writer) : b.Flush.1.wr.SameSide b.wr := by
  unfold Writer.Flush
  cases hb : b.err with
  | some e => exact Conn.sameSide_refl _
  | none =>
    by_cases h0 : b.buf.length = 0
    · simp only [h0, if_true]; exact Conn.sameSide_refl _
    · simp only [h0, if_false]
      have hw := Conn.connWrite_sameSide b.wr b.buf
      rcases hr : b.wr.Write b.buf with ⟨wr, n, err⟩
      rw [hr] at hw
      simp only
      split <;> exact hw

/-- After a flush either the sticky error is set or the buffer is empty. -/
theorem Writer.Flush_state (b : Writer) (hb : b.err = none) :
    b.Flush.1.err ≠ none ∨ b.Flush.1.buf = [] := by
  unfold Writer.Flush
  rw [hb]
  by_cases h0 : b.buf.length = 0
  · simp only [h0, if_true]; right; exact List.length_eq_zero.mp h0
  · simp only [h0, if_false]
    rcases b.wr.Write b.buf with ⟨wr, n, err⟩
    simp only
    split
    · left; simp
    · right; rfl

theorem Writer.writeStringLoop_sameSide (fuel : Nat) (b : Writer) (s : Str) :
    (b.writeStringLoop fuel s).1.wr.SameSide b.wr := by
  induction fuel generalizing b s with
  | zero => exact Conn.sameSide_refl _
  | succ fuel ih =>
    unfold Writer.writeStringLoop
    split
    · exact Conn.sameSide_trans (ih _ _) (Writer.Flush_sameSide _)
    · exact Conn.sameSide_refl _

theorem Writer.WriteString_sameSide (b : Writer) (s : Str) :
    (b.WriteString s).1.wr.SameSide b.wr := by
  have h := Writer.writeStringLoop_sameSide (s.length + 2) b s
  unfold Writer.WriteString
  rcases hr : b.writeStringLoop (s.length + 2) s with ⟨b1, s1⟩
  rw [hr] at h
  simp only
  split <;> exact h

theorem Writer.writeLoop_sameSide (fuel : Nat) (b : Writer) (p : Str) :
    (b.writeLoop fuel p).1.wr.SameSide b.wr := by
  induction fuel generalizing b p with
  | zero => exact Conn.sameSide_refl _
  | succ fuel ih =>
    unfold Writer.writeLoop
    split
    · split
      · have hw := Conn.connWrite_sameSide b.wr p
        rcases hr : b.wr.Write p with ⟨wr, n, err⟩
        rw [hr] at hw
        exact Conn.sameSide_trans (ih _ _) hw
      · exact Conn.sameSide_trans (ih _ _) (Writer.Flush_sameSide _)
    · exact Conn.sameSide_refl _

theorem Writer.bufWrite_sameSide (b : Writer) (p : Str) :
    (b.Write p).1.wr.SameSide b.wr := by
  have h := Writer.writeLoop_sameSide (p.length + 2) b p
  unfold Writer.Write
  rcases hr : b.writeLoop (p.length + 2) p with ⟨b1, p1⟩
  rw [hr] at h
  simp only
  split <;> exact h

/-- The loop of `WriteString` has ended when a round starts with the sticky
error set or with the buffer empty and at most `defaultBufSize` bytes per
round left. -/
theorem Writer.writeStringLoop_done_aux (fuel : Nat) (b : Writer) (s : Str)
    (hb : b.err ≠ none ∨ b.buf = []) (hs : s.length ≤ defaultBufSize + fuel) :
    ¬ ((b.writeStringLoop fuel s).2.length > (b.writeStringLoop fuel s).1.Available ∧
        (b.writeStringLoop fuel s).1.err = none) := by
  induction fuel generalizing b s with
  | zero =>
    simp only [Writer.writeStringLoop]
    rintro ⟨h1, h2⟩
    rcases hb with hb | hb
    · exact hb h2
    · simp [Writer.Available, hb] at h1
      omega
  | succ fuel ih =>
    unfold Writer.writeStringLoop
    by_cases hc : s.length > b.Available ∧ b.err = none
    · simp only [hc, and_self, if_true]
      have hbuf : b.buf = [] := by
        rcases hb with hb | hb
        · exact absurd hc.2 hb
        · exact hb
      have hav : b.Available = defaultBufSize := by simp [Writer.Available, hbuf]
      apply ih
      · exact Writer.Flush_state _ rfl
      · have := hc.1
        rw [hav] at this
        simp only [List.length_drop, hav]
        have hmin : min defaultBufSize s.length = defaultBufSize := by omega
        rw [hmin]
        simp only [defaultBufSize] at *
        omega
    · rw [if_neg hc]
      exact hc

/-- The rounds allowed to the loop of `WriteString` are enough: at its result
the condition of the loop is false. -/
theorem Writer.writeStringLoop_done (b : Writer) (s : Str) :
    ¬ ((b.writeStringLoop (s.length + 2) s).2.length >
          (b.writeStringLoop (s.length + 2) s).1.Available ∧
        (b.writeStringLoop (s.length + 2) s).1.err = none) := by
  unfold Writer.writeStringLoop
  by_cases hc : s.length > b.Available ∧ b.err = none
  · simp only [hc, and_self, if_true]
    apply Writer.writeStringLoop_done_aux
    · exact Writer.Flush_state _ rfl
    · simp only [List.length_drop]
      omega
  · rw [if_neg hc]
    exact hc

theorem Writer.writeLoop_stop (fuel : Nat) (b : Writer) (p : Str)
    (h : b.err ≠ none ∨ p = []) : b.writeLoop fuel p = (b, p) := by
  cases fuel with
  | zero => rfl
  | succ fuel =>
    unfold Writer.writeLoop
    have hc : ¬ (p.length > b.Available ∧ b.err = none) := by
      rintro ⟨h1, h2⟩
      rcases h with h | h
      · exact h h2
      · simp [h] at h1
    simp only [hc, if_false]

theorem Writer.writeLoop_done_aux (fuel : Nat) (b : Writer) (p : Str)
    (hb : b.err ≠ none ∨ b.buf = []) :
    ¬ ((b.writeLoop (fuel + 1) p).2.length > (b.writeLoop (fuel + 1) p).1.Available ∧
        (b.writeLoop (fuel + 1) p).1.err = none) := by
  unfold Writer.writeLoop
  by_cases hc : p.length > b.Available ∧ b.err = none
  · simp only [hc, and_self, if_true]
    have hbuf : b.buf = [] := by
      rcases hb with hb | hb
      · exact absurd hc.2 hb
      · exact hb
    simp only [hbuf, List.length_nil, if_true]
    have hw := Conn.Write_err b.wr p
    rcases hr : b.wr.Write p with ⟨wr, n, err⟩
    rw [hr] at hw
    simp only at hw ⊢
    have hstop : err ≠ none ∨ p.drop n = [] := by
      cases err with
      | some e => left; simp
      | none => right; rw [hw rfl]; simp
    rw [Writer.writeLoop_stop fuel _ _ hstop]
    rintro ⟨h1, h2⟩
    rcases hstop with h | h
    · exact h h2
    · simp [h] at h1
  · rw [if_neg hc]
    exact hc

/-- The rounds allowed to the loop of `Write` are enough: at its result the
condition of the loop is false. -/
theorem Writer.writeLoop_done (b : Writer) (p : Str) :
    ¬ ((b.writeLoop (p.length + 2) p).2.length > (b.writeLoop (p.length + 2) p).1.Available ∧
        (b.writeLoop (p.length + 2) p).1.err = none) := by
  rw [Writer.writeLoop]
  by_cases hc : p.length > b.Available ∧ b.err = none
  · simp only [hc, and_self, if_true]
    by_cases h0 : b.buf.length = 0
    · simp only [h0, if_true]
      have hw := Conn.Write_err b.wr p
      rcases hr : b.wr.Write p with ⟨wr, n, err⟩
      rw [hr] at hw
      simp only at hw ⊢
      have hstop : err ≠ none ∨ p.drop n = [] := by
        cases err with
        | some e => left; simp
        | none => right; rw [hw rfl]; simp
      rw [Writer.writeLoop_stop _ _ _ hstop]
      rintro ⟨h1, h2⟩
      rcases hstop with h | h
      · exact h h2
      · simp [h] at h1
    · simp only [h0, if_false]
      exact Writer.writeLoop_done_aux _ _ _ (Writer.Flush_state _ rfl)
  · rw [if_neg hc]
    exact hc

end bufio

/-! ## Writing to a connection that accepts every byte -/

namespace bufio

theorem Writer.NewWriter_holds (c : Conn) : (NewWriter c).Holds c c.sent :=
  ⟨rfl, c.sent, rfl, by simp [NewWriter]⟩

theorem Writer.Flush_holds (b : Writer) (c : Conn) (t : Str) (hc : c.room = none)
    (h : b.Holds c t) :
    b.Flush = ({ err := none, buf := [], wr := { c with sent := t } }, none) := by
  obtain ⟨he, pre, hwr, hpre⟩ := h
  rcases b with ⟨err, buf, wr⟩
  simp only at he hwr hpre
  subst he hwr
  unfold Writer.Flush
  by_cases h0 : buf.length = 0
  · have hb : buf = [] := List.length_eq_zero.mp h0
    subst hb
    simp at hpre
    simp [hpre]
  · simp [h0, Conn.Write, hc, hpre]

theorem Writer.Flush_holds_after (b : Writer) (c : Conn) (t : Str) (hc : c.room = none)
    (h : b.Holds c t) : b.Flush.1.Holds c t := by
  rw [Writer.Flush_holds b c t hc h]
  exact ⟨rfl, t, rfl, by simp⟩

theorem Writer.Holds.append {b : Writer} {c : Conn} {t : Str} (h : b.Holds c t) (s : Str) :
    ({ b with buf := b.buf ++ s } : Writer).Holds c (t ++ s) := by
  obtain ⟨he, pre, hwr, hpre⟩ := h
  exact ⟨he, pre, hwr, by simp [← hpre]⟩

theorem Writer.writeStringLoop_holds (fuel : Nat) (b : Writer) (s : Str) (c : Conn) (t : Str)
    (hc : c.room = none) (h : b.Holds c t) :
    ∃ t1, (b.writeStringLoop fuel s).1.Holds c t1 ∧ t1 ++ (b.writeStringLoop fuel s).2 = t ++ s := by
  induction fuel generalizing b s t with
  | zero => exact ⟨t, h, rfl⟩
  | succ fuel ih =>
    unfold Writer.writeStringLoop
    split
    · obtain ⟨t1, h1, h2⟩ :=
        ih _ (s.drop (min b.Available s.length)) _
          (Writer.Flush_holds_after _ c _ hc (h.append (s.take (min b.Available s.length))))
      refine ⟨t1, h1, ?_⟩
      rw [h2, List.append_assoc, List.take_append_drop]
    · exact ⟨t, h, rfl⟩

theorem Writer.WriteString_holds (b : Writer) (s : Str) (c : Conn) (t : Str)
    (hc : c.room = none) (h : b.Holds c t) :
    (b.WriteString s).2 = none ∧ (b.WriteString s).1.Holds c (t ++ s) := by
  obtain ⟨t1, h1, h2⟩ := Writer.writeStringLoop_holds (s.length + 2) b s c t hc h
  unfold Writer.WriteString
  rcases hr : b.writeStringLoop (s.length + 2) s with ⟨b1, s1⟩
  rw [hr] at h1 h2
  simp only at h1 h2 ⊢
  obtain ⟨he, pre, hwr, hpre⟩ := h1
  rw [he]
  exact ⟨rfl, rfl, pre, hwr, by simp [← h2, ← hpre]⟩

theorem Writer.writeLoop_holds (fuel : Nat) (b : Writer) (p : Str) (c : Conn) (t : Str)
    (hc : c.room = none) (h : b.Holds c t) :
    ∃ t1, (b.writeLoop fuel p).1.Holds c t1 ∧ t1 ++ (b.writeLoop fuel p).2 = t ++ p := by
  induction fuel generalizing b p t with
  | zero => exact ⟨t, h, rfl⟩
  | succ fuel ih =>
    unfold Writer.writeLoop
    split
    · split
      · rename_i h0
        obtain ⟨he, pre, hwr, hpre⟩ := h
        have hb : b.buf = [] := List.length_eq_zero.mp h0
        have hw : b.wr.Write p = ({ c with sent := pre ++ p }, p.length, none) := by
          rw [hwr]; simp [Conn.Write, hc]
        rw [hw]
        simp only
        obtain ⟨t1, h1, h2⟩ := ih { b with wr := { c with sent := pre ++ p }, err := none }
          (p.drop p.length) (t ++ p) ⟨rfl, pre ++ p, rfl, by simp [hb, ← hpre]⟩
        refine ⟨t1, h1, ?_⟩
        rw [h2]; simp
      · obtain ⟨t1, h1, h2⟩ :=
          ih _ (p.drop (min b.Available p.length)) _
            (Writer.Flush_holds_after _ c _ hc (h.append (p.take (min b.Available p.length))))
        refine ⟨t1, h1, ?_⟩
        rw [h2, List.append_assoc, List.take_append_drop]
    · exact ⟨t, h, rfl⟩

theorem Writer.Write_holds (b : Writer) (p : Str) (c : Conn) (t : Str)
    (hc : c.room = none) (h : b.Holds c t) :
    (b.Write p).2 = none ∧ (b.Write p).1.Holds c (t ++ p) := by
  obtain ⟨t1, h1, h2⟩ := Writer.writeLoop_holds (p.length + 2) b p c t hc h
  unfold Writer.Write
  rcases hr : b.writeLoop (p.length + 2) p with ⟨b1, p1⟩
  rw [hr] at h1 h2
  simp only at h1 h2 ⊢
  obtain ⟨he, pre, hwr, hpre⟩ := h1
  rw [he]
  exact ⟨rfl, rfl, pre, hwr, by simp [← h2, ← hpre]⟩

end bufio

theorem writeHeaders_holds (headers : GoMap) (keys : List Str) (b : bufio.Writer) (c : Conn)
    (t : Str) (hc : c.room = none) (h : b.Holds c t) :
    (writeHeaders headers keys b).2 = none ∧
      (writeHeaders headers keys b).1.Holds c (t ++ headerLines headers keys) := by
  induction keys generalizing b t with
  | nil => simpa [writeHeaders, headerLines] using h
  | cons k keys ih =>
    unfold writeHeaders
    dsimp only
    obtain ⟨h1, h2⟩ :=
      bufio.Writer.WriteString_holds b (k ++ ": ".toList ++ headers.get k ++ CRLF) c t hc h
    rcases hr : b.WriteString (k ++ ": ".toList ++ headers.get k ++ CRLF) with ⟨b1, e1⟩
    rw [hr] at h1 h2
    simp only at h1 h2
    subst h1
    simp only
    have := ih b1 _ h2
    simpa [headerLines, List.append_assoc] using this

/-- On a connection that accepts every byte, `Response.Write` of a response
whose status is not 200 sends the status line, the header lines and the empty
line, and returns nil. -/
theorem Response.Write_other (res : Response) (w : World) (c : Conn) (hc : c.room = none)
    (hs : res.StatusCode ≠ statusOK) :
    res.Write w c = ({ c with sent := c.sent ++ res.wire [] }, none) := by
  unfold Response.Write
  dsimp only
  obtain ⟨h1, h2⟩ := bufio.Writer.WriteString_holds (bufio.NewWriter c)
    (res.Proto ++ " ".toList ++ strconv.Itoa res.StatusCode ++ " ".toList ++
      statusText res.StatusCode ++ CRLF) c c.sent hc (bufio.Writer.NewWriter_holds c)
  rcases hr : (bufio.NewWriter c).WriteString (res.Proto ++ " ".toList ++
    strconv.Itoa res.StatusCode ++ " ".toList ++ statusText res.StatusCode ++ CRLF) with ⟨b1, e1⟩
  rw [hr] at h1 h2
  simp only at h1 h2
  subst h1
  simp only
  obtain ⟨h3, h4⟩ := writeHeaders_holds res.Headers (sort.Strings res.Headers.keys) b1 c _ hc h2
  rcases hr2 : writeHeaders res.Headers (sort.Strings res.Headers.keys) b1 with ⟨b2, e2⟩
  rw [hr2] at h3 h4
  simp only at h3 h4
  subst h3
  simp only
  obtain ⟨h5, h6⟩ := bufio.Writer.WriteString_holds b2 CRLF c _ hc h4
  rcases hr3 : b2.WriteString CRLF with ⟨b3, e3⟩
  rw [hr3] at h5 h6
  simp only at h5 h6
  subst h5
  simp only [hs, if_false]
  rw [bufio.Writer.Flush_holds b3 c _ hc h6]
  simp [Response.wire, List.append_assoc]

/-- On a connection that accepts every byte, `Response.Write` of a response
whose status is 200 and whose file can be read sends the status line, the
header lines, the empty line and the bytes of the file, and returns nil. -/
theorem Response.Write_ok (res : Response) (w : World) (c : Conn) (body : Str)
    (hc : c.room = none) (hs : res.StatusCode = statusOK)
    (hf : w.fs.ReadFile res.FilePath = some body) :
    res.Write w c = ({ c with sent := c.sent ++ res.wire body }, none) := by
  unfold Response.Write
  dsimp only
  obtain ⟨h1, h2⟩ := bufio.Writer.WriteString_holds (bufio.NewWriter c)
    (res.Proto ++ " ".toList ++ strconv.Itoa res.StatusCode ++ " ".toList ++
      statusText res.StatusCode ++ CRLF) c c.sent hc (bufio.Writer.NewWriter_holds c)
  rcases hr : (bufio.NewWriter c).WriteString (res.Proto ++ " ".toList ++
    strconv.Itoa res.StatusCode ++ " ".toList ++ statusText res.StatusCode ++ CRLF) with ⟨b1, e1⟩
  rw [hr] at h1 h2
  simp only at h1 h2
  subst h1
  simp only
  obtain ⟨h3, h4⟩ := writeHeaders_holds res.Headers (sort.Strings res.Headers.keys) b1 c _ hc h2
  rcases hr2 : writeHeaders res.Headers (sort.Strings res.Headers.keys) b1 with ⟨b2, e2⟩
  rw [hr2] at h3 h4
  simp only at h3 h4
  subst h3
  simp only
  obtain ⟨h5, h6⟩ := bufio.Writer.WriteString_holds b2 CRLF c _ hc h4
  rcases hr3 : b2.WriteString CRLF with ⟨b3, e3⟩
  rw [hr3] at h5 h6
  simp only at h5 h6
  subst h5
  simp only [hs, if_true, hf]
  obtain ⟨h7, h8⟩ := bufio.Writer.Write_holds b3 body c _ hc h6
  rcases hr4 : b3.Write body with ⟨b4, e4⟩
  rw [hr4] at h7 h8
  simp only at h7 h8
  subst h7
  simp only
  rw [bufio.Writer.Flush_holds b4 c _ hc h8]
  simp [Response.wire, List.append_assoc]

theorem writeHeaders_sameSide (headers : GoMap) (keys : List Str) (b : bufio.Writer) :
    (writeHeaders headers keys b).1.wr.SameSide b.wr := by
  induction keys generalizing b with
  | nil => exact Conn.sameSide_refl _
  | cons k keys ih =>
    unfold writeHeaders
    dsimp only
    have h := bufio.Writer.WriteString_sameSide b (k ++ ": ".toList ++ headers.get k ++ CRLF)
    rcases hr : b.WriteString (k ++ ": ".toList ++ headers.get k ++ CRLF) with ⟨b1, e1⟩
    rw [hr] at h
    cases e1 with
    | some e => exact h
    | none => exact Conn.sameSide_trans (ih b1) h

/-- The connection after `Response.Write` differs from the one before at most
in what was sent and in the room left. -/
theorem Response.respWrite_sameSide (res : Response) (w : World) (c : Conn) :
    (res.Write w c).1.SameSide c := by
  unfold Response.Write
  dsimp only
  have h1 := bufio.Writer.WriteString_sameSide (bufio.NewWriter c)
    (res.Proto ++ " ".toList ++ strconv.Itoa res.StatusCode ++ " ".toList ++
      statusText res.StatusCode ++ CRLF)
  rcases hr : (bufio.NewWriter c).WriteString (res.Proto ++ " ".toList ++
    strconv.Itoa res.StatusCode ++ " ".toList ++ statusText res.StatusCode ++ CRLF) with ⟨b1, e1⟩
  rw [hr] at h1
  replace h1 : b1.wr.SameSide c := h1
  cases e1 with
  | some e => exact h1
  | none =>
    dsimp only
    have h2 := Conn.sameSide_trans (writeHeaders_sameSide res.Headers (sort.Strings res.Headers.keys) b1) h1
    rcases hr2 : writeHeaders res.Headers (sort.Strings res.Headers.keys) b1 with ⟨b2, e2⟩
    rw [hr2] at h2
    cases e2 with
    | some e => exact h2
    | none =>
      dsimp only
      have h3 := Conn.sameSide_trans (bufio.Writer.WriteString_sameSide b2 CRLF) h2
      rcases hr3 : b2.WriteString CRLF with ⟨b3, e3⟩
      rw [hr3] at h3
      cases e3 with
      | some e => exact h3
      | none =>
        dsimp only
        have hflush : ∀ b : bufio.Writer, b.wr.SameSide c →
            (match b.Flush with
              | (bw, some _) => ((bw.wr, none) : Conn × Option Err)
              | (bw, none) => (bw.wr, none)).1.SameSide c := by
          intro b hb
          have h := Conn.sameSide_trans (bufio.Writer.Flush_sameSide b) hb
          rcases hf : b.Flush with ⟨b5, e5⟩
          rw [hf] at h
          cases e5 <;> exact h
        split
        · cases hrf : w.fs.ReadFile res.FilePath with
          | none => exact h3
          | some body =>
            dsimp only
            have h4 := Conn.sameSide_trans (bufio.Writer.bufWrite_sameSide b3 body) h3
            rcases hr4 : b3.Write body with ⟨b4, e4⟩
            rw [hr4] at h4
            cases e4 with
            | some e => exact h4
            | none => exact hflush b4 h4
        · exact hflush b3 h3

/-! ## Reading leaves the writing side of the connection alone -/

theorem Conn.sameOut_refl (a : Conn) : a.SameOut a := ⟨rfl, rfl, rfl, rfl⟩

theorem Conn.sameOut_trans {a b c : Conn} (h1 : a.SameOut b) (h2 : b.SameOut c) :
    a.SameOut c :=
  ⟨h1.1.trans h2.1, h1.2.1.trans h2.2.1, h1.2.2.1.trans h2.2.2.1, h1.2.2.2.trans h2.2.2.2⟩

theorem ReadLine_sameOut (conn : Conn) (message : Str) :
    (ReadLine conn message).1.SameOut conn := by
  unfold ReadLine
  rcases readUntilCRLF conn.reads message with ⟨evs, m, e⟩
  cases e with
  | some e => exact ⟨rfl, rfl, rfl, rfl⟩
  | none =>
    dsimp only
    cases bytes.IndexCRLF m <;> exact ⟨rfl, rfl, rfl, rfl⟩

/-- The line that `ReadLine` returns with an error is empty. -/
theorem ReadLine_error_line (conn : Conn) (message : Str) (e : Err)
    (h : (ReadLine conn message).2.2.2 = some e) : (ReadLine conn message).2.1 = [] := by
  unfold ReadLine at h ⊢
  revert h
  rcases readUntilCRLF conn.reads message with ⟨evs, m, e1⟩
  cases e1 with
  | some e1 => intro _; rfl
  | none =>
    dsimp only
    cases bytes.IndexCRLF m with
    | none => intro _; rfl
    | some i => intro h; cases h

theorem readHeaders_sameOut (lib : Lib) (fuel : Nat) (conn : Conn) (message : Str)
    (headers : GoMap) : (readHeaders lib fuel conn message headers).1.SameOut conn := by
  induction fuel generalizing conn message headers with
  | zero => exact Conn.sameOut_refl _
  | succ fuel ih =>
    unfold readHeaders
    have h := ReadLine_sameOut conn message
    revert h
    rcases ReadLine conn message with ⟨c1, line, m1, e⟩
    intro h
    replace h : c1.SameOut conn := h
    cases e with
    | some e => dsimp only; split <;> exact h
    | none =>
      dsimp only
      split
      · exact h
      · cases ParseRequestHeader lib line with
        | error e => exact h
        | ok kv => exact Conn.sameOut_trans (ih _ _ _) h

theorem Server.ReadRequest_sameOut (s : Server) (lib : Lib) (w : World) (conn : Conn)
    (message : Str) : (s.ReadRequest lib w conn message).1.SameOut conn := by
  unfold Server.ReadRequest
  have h := ReadLine_sameOut conn message
  revert h
  rcases ReadLine conn message with ⟨c1, line, m1, e⟩
  intro h
  replace h : c1.SameOut conn := h
  cases e with
  | some e => dsimp only; split <;> exact h
  | none =>
    dsimp only
    split
    · split
      · exact h
      · split
        · exact h
        · split
          · exact h
          · have h2 := Conn.sameOut_trans (readHeaders_sameOut lib (m1.length + Conn.pending c1.reads + 1) c1 m1 []) h
            revert h2
            rcases readHeaders lib (m1.length + Conn.pending c1.reads + 1) c1 m1 [] with ⟨c2, r⟩
            intro h2
            replace h2 : c2.SameOut conn := h2
            cases r with
            | unfinished => exact h2
            | fail m e => exact h2
            | done hs m =>
              dsimp only
              split <;> exact h2
    · exact h

/-! ## The header loop never reports a bare timeout, and is never cut off -/

theorem ParseRequestHeader_error (lib : Lib) (line : Str) (e : Err)
    (h : ParseRequestHeader lib line = Except.error e) :
    e = Err.headerSyntax ∨ e = Err.headerKey := by
  unfold ParseRequestHeader at h
  split at h
  · dsimp only at h
    split at h
    · cases h; right; rfl
    · cases h
  · cases h; left; rfl

theorem readHeaders_no_timeout (lib : Lib) (fuel : Nat) (conn : Conn) (message : Str)
    (headers : GoMap) (m : Str) :
    (readHeaders lib fuel conn message headers).2 ≠ HeaderResult.fail m Err.timeout := by
  induction fuel generalizing conn message headers with
  | zero => simp [readHeaders]
  | succ fuel ih =>
    unfold readHeaders
    rcases ReadLine conn message with ⟨c1, line, m1, e⟩
    cases e with
    | some e =>
      dsimp only
      by_cases he : e = Err.timeout
      · simp [he]
      · simp only [he, if_false]
        intro h
        injection h with _ h2
        exact he h2
    | none =>
      dsimp only
      split
      · simp
      · cases hp : ParseRequestHeader lib line with
        | error e =>
          dsimp only
          intro h
          injection h with _ h2
          rcases ParseRequestHeader_error lib line e hp with h3 | h3 <;> rw [h3] at h2 <;> cases h2
        | ok kv => exact ih _ _ _

theorem bytes.IndexCRLF_bound (m : Str) (i : Nat) (h : bytes.IndexCRLF m = some i) :
    i + 2 ≤ m.length := by
  induction m generalizing i with
  | nil => simp [bytes.IndexCRLF] at h
  | cons c cs ih =>
    unfold bytes.IndexCRLF at h
    split at h
    · rename_i hc
      cases cs with
      | nil => simp at hc
      | cons d ds => cases h; simp
    · cases hi : bytes.IndexCRLF cs with
      | none => simp [hi] at h
      | some j =>
        simp [hi] at h
        have := ih j hi
        subst h
        simp
        omega

theorem readUntilCRLF_pending (evs : List ReadEvent) (m : Str) :
    (readUntilCRLF evs m).2.1.length + Conn.pending (readUntilCRLF evs m).1 ≤
      m.length + Conn.pending evs := by
  induction evs generalizing m with
  | nil =>
    unfold readUntilCRLF
    split <;> simp
  | cons ev evs ih =>
    unfold readUntilCRLF
    split
    · simp
    · cases ev with
      | data chunk =>
        have := ih (m ++ chunk)
        simp only [Conn.pending, List.length_append] at this ⊢
        omega
      | EOF => simp [Conn.pending]
      | timeout => simp [Conn.pending]
      | failure => simp [Conn.pending]

/-- A line read by `ReadLine`, with its delimiter, is taken off the bytes that
are buffered or still to be read. -/
theorem ReadLine_pending (conn : Conn) (message : Str) (c1 : Conn) (line m1 : Str)
    (h : ReadLine conn message = (c1, line, m1, none)) :
    line.length + 2 + m1.length + Conn.pending c1.reads ≤
      message.length + Conn.pending conn.reads := by
  have hp := readUntilCRLF_pending conn.reads message
  unfold ReadLine at h
  revert h hp
  rcases readUntilCRLF conn.reads message with ⟨evs, m, e⟩
  cases e with
  | some e => intro h; cases h
  | none =>
    dsimp only
    cases hi : bytes.IndexCRLF m with
    | none => intro h; cases h
    | some i =>
      intro h hp
      have hb := bytes.IndexCRLF_bound m i hi
      simp only [Prod.mk.injEq] at h
      obtain ⟨h1, h2, h3, _⟩ := h
      subst h1 h2 h3
      simp only [List.length_take]
      split <;> simp <;> omega

/-- The header loop is not cut off when it may run for more lines than there
are bytes buffered or still to be read. -/
theorem readHeaders_finishes (lib : Lib) (fuel : Nat) (conn : Conn) (message : Str)
    (headers : GoMap) (hf : message.length + Conn.pending conn.reads < fuel) :
    (readHeaders lib fuel conn message headers).2 ≠ HeaderResult.unfinished := by
  induction fuel generalizing conn message headers with
  | zero => omega
  | succ fuel ih =>
    unfold readHeaders
    have hp := ReadLine_pending conn message
    revert hp
    rcases ReadLine conn message with ⟨c1, line, m1, e⟩
    intro hp
    cases e with
    | some e => dsimp only; split <;> simp
    | none =>
      dsimp only
      have hp := hp c1 line m1 rfl
      split
      · simp
      · cases ParseRequestHeader lib line with
        | error e => simp
        | ok kv =>
          apply ih
          omega

/-- The method `ReadRequest` always comes to a result: its header loop is
never cut off. -/
theorem Server.ReadRequest_finishes (s : Server) (lib : Lib) (w : World) (conn : Conn)
    (message : Str) : (s.ReadRequest lib w conn message).2 ≠ ReadResult.unfinished := by
  unfold Server.ReadRequest
  rcases ReadLine conn message with ⟨c1, line, m1, e⟩
  cases e with
  | some e => dsimp only; split <;> simp
  | none =>
    dsimp only
    split
    · split
      · simp
      · split
        · simp
        · split
          · simp
          · have h2 := readHeaders_finishes lib (m1.length + Conn.pending c1.reads + 1) c1 m1 []
              (by omega)
            revert h2
            rcases readHeaders lib (m1.length + Conn.pending c1.reads + 1) c1 m1 [] with ⟨c2, r⟩
            intro h2
            cases r with
            | unfinished => exact absurd rfl h2
            | fail m e => simp
            | done hs m =>
              dsimp only
              split <;> simp
    · simp

/-! ## The handler comes to an end -/

theorem readHeaders_pending (lib : Lib) (fuel : Nat) (conn : Conn) (message : Str)
    (headers : GoMap) (c2 : Conn) (hs : GoMap) (m2 : Str)
    (h : readHeaders lib fuel conn message headers = (c2, HeaderResult.done hs m2)) :
    m2.length + Conn.pending c2.reads ≤ message.length + Conn.pending conn.reads := by
  induction fuel generalizing conn message headers with
  | zero => simp [readHeaders] at h
  | succ fuel ih =>
    unfold readHeaders at h
    have hp := ReadLine_pending conn message
    revert h hp
    rcases ReadLine conn message with ⟨c1, line, m1, e⟩
    intro h hp
    cases e with
    | some e =>
      dsimp only at h
      split at h <;> cases h
    | none =>
      dsimp only at h
      have hp := hp c1 line m1 rfl
      split at h
      · simp only [Prod.mk.injEq, HeaderResult.done.injEq] at h
        obtain ⟨h1, _, h3⟩ := h
        subst h1 h3
        omega
      · revert h
        cases ParseRequestHeader lib line with
        | error e => intro h; cases h
        | ok kv =>
          intro h
          have := ih _ _ _ h
          omega

/-- A request that `ReadRequest` returns has taken at least the two bytes of a
delimiter off the bytes that are buffered or still to be read. -/
theorem Server.ReadRequest_pending (s : Server) (lib : Lib) (w : World) (conn : Conn)
    (message : Str) (c1 : Conn) (req : Request) (m1 : Str)
    (h : s.ReadRequest lib w conn message = (c1, ReadResult.ok req m1)) :
    m1.length + Conn.pending c1.reads + 2 ≤ message.length + Conn.pending conn.reads := by
  unfold Server.ReadRequest at h
  have hp := ReadLine_pending conn message
  revert h hp
  rcases ReadLine conn message with ⟨c0, line, m0, e⟩
  intro h hp
  cases e with
  | some e =>
    dsimp only at h
    split at h <;> cases h
  | none =>
    dsimp only at h
    have hp := hp c0 line m0 rfl
    split at h
    · split at h
      · cases h
      · split at h
        · cases h
        · split at h
          · cases h
          · have hq := readHeaders_pending lib (m0.length + Conn.pending c0.reads + 1) c0 m0 []
            revert h hq
            rcases readHeaders lib (m0.length + Conn.pending c0.reads + 1) c0 m0 [] with ⟨c2, r⟩
            intro h hq
            cases r with
            | unfinished => cases h
            | fail m e => cases h
            | done hs m =>
              dsimp only at h
              have hq := hq c2 hs m rfl
              split at h
              · cases h
              · simp only [Prod.mk.injEq, ReadResult.ok.injEq] at h
                obtain ⟨h1, _, h3⟩ := h
                subst h1 h3
                omega
    · cases h

/-- The method `HandleClient` returns or panics within as many iterations as
there are bytes buffered or still to be read, and one more: a peer that has
nothing more to send runs into the read deadline. -/
theorem Server.HandleClient_ends (s : Server) (lib : Lib) (ws : Nat → World) (fuel i : Nat)
    (conn : Conn) (message : Str) (hf : message.length + Conn.pending conn.reads < fuel) :
    (s.HandleClient lib ws fuel i conn message).2.2 ≠ Exit.awaiting := by
  induction fuel generalizing i conn message with
  | zero => omega
  | succ fuel ih =>
    unfold Server.HandleClient
    by_cases hd : conn.deadlineOk = true
    · simp only [hd, Bool.not_true, Bool.false_eq_true, if_false]
      have hfin := s.ReadRequest_finishes lib (ws i) conn message
      have hpend := s.ReadRequest_pending lib (ws i) conn message
      revert hfin hpend
      rcases s.ReadRequest lib (ws i) conn message with ⟨c1, r⟩
      intro hfin hpend
      cases r with
      | panic => simp
      | unfinished => exact absurd rfl hfin
      | fail m e =>
        dsimp only
        split
        · simp
        · split <;> simp
      | ok req m1 =>
        have hpend := hpend c1 req m1 rfl
        dsimp only
        split
        · split
          · simp
          · apply ih
            rw [(Response.respWrite_sameSide _ (ws i) c1).1]
            omega
        · rcases s.HandleGoodRequest lib (ws i) req with ⟨res, e⟩
          cases res with
          | none => simp
          | some res =>
            dsimp only
            split
            · simp
            · apply ih
              rw [(Response.respWrite_sameSide _ (ws i) c1).1]
              omega
    · simp [hd]

/-! ## C1 to C4: resolving the target, reading the start line -/

/-- C1. The claim fails for the document root `./www`, an existing directory
that holds `index.html`: `FileExistsInDocRoot` compares the cleaned path
`www/index.html` with the prefix `./www`, and the server answers 404. -/
theorem unclean_docroot_answers_404 :
    dotServer.ValidateServerSetup siteWorld = Outcome.ret none ∧
    siteWorld.fs.Stat "./www/index.html".toList = Except.ok fileInfo ∧
    siteWorld.fs.ReadFile "./www/index.html".toList = some "<h1>hi</h1>".toList ∧
    filepath.Join "./www".toList "/index.html".toList = "www/index.html".toList ∧
    strings.HasPrefix "www/index.html".toList "./www".toList = false ∧
    dotServer.HandleClient specLib (fun _ => siteWorld) 1 0
        (peer [ReadEvent.data "GET /index.html HTTP/1.1\r\nHost: site\r\n\r\n".toList]) [] =
      ({ peer [] with sent := notFoundBytes "Mon, 02 Nov 2026 00:00:00 GMT".toList },
        [], Exit.awaiting) := by
  decide

/-- C2. The claim fails for the host `other`, which is not configured: its
document root is looked up as the empty string, every path has that prefix,
and the request for `/etc/passwd` is answered 200 with the file. -/
theorem unknown_host_serves_any_file :
    siteServer.VirtualHosts.has "other".toList = false ∧
    siteServer.HandleClient specLib (fun _ => siteWorld) 1 0
        (peer [ReadEvent.data "GET /etc/passwd HTTP/1.1\r\nHost: other\r\n\r\n".toList]) [] =
      ({ peer [] with sent :=
          ("HTTP/1.1 200 OK\r\nContent-Length: 10\r\nContent-Type: application/octet-stream\r\n" ++
           "Date: Mon, 02 Nov 2026 00:00:00 GMT\r\n" ++
           "Last-Modified: Thu, 01 Jan 1970 00:16:40 GMT\r\n\r\nroot:x:0:0").toList },
        [], Exit.awaiting) := by
  decide

/-- C3. The claim fails for the target `/../www2/secret.txt` on the root
`/srv/www`: the path resolves to `/srv/www2/secret.txt`, outside the root, the
prefix test passes because `/srv/www2` begins with `/srv/www`, and the file is
served with status 200. -/
theorem sibling_directory_passes_prefix_check :
    filepath.Join "/srv/www".toList "/../www2/secret.txt".toList = "/srv/www2/secret.txt".toList ∧
    strings.HasPrefix "/srv/www2/secret.txt".toList "/srv/www/".toList = false ∧
    siteServer.FileExistsInDocRoot siteWorld
      { Method := "GET".toList, URL := "/../www2/secret.txt".toList, Proto := "HTTP/1.1".toList,
        Headers := [("Host".toList, "site".toList)], Host := "site".toList, Close := false } = true ∧
    siteServer.HandleClient specLib (fun _ => siteWorld) 1 0
        (peer [ReadEvent.data "GET /../www2/secret.txt HTTP/1.1\r\nHost: site\r\n\r\n".toList]) [] =
      ({ peer [] with sent :=
          ("HTTP/1.1 200 OK\r\nContent-Length: 6\r\nContent-Type: text/plain; charset=utf-8\r\n" ++
           "Date: Mon, 02 Nov 2026 00:00:00 GMT\r\n" ++
           "Last-Modified: Thu, 01 Jan 1970 00:16:40 GMT\r\n\r\nsecret").toList },
        [], Exit.awaiting) := by
  decide

theorem readUntilCRLF_found (evs : List ReadEvent) (m : Str)
    (h : (bytes.IndexCRLF m).isSome = true) : readUntilCRLF evs m = (evs, m, none) := by
  cases evs <;> (unfold readUntilCRLF; simp [h])

/-- C4. The claim fails for the start line `GET  HTTP/1.1`, whose second token
is empty: for every server, library, world and connection, and whatever
follows the line in the message, `ReadRequest` panics at `fields[1][0]` and
returns no error. -/
theorem empty_target_panics (s : Server) (lib : Lib) (w : World) (conn : Conn) (rest : Str) :
    strings.SplitN ' ' 3 "GET  HTTP/1.1".toList = ["GET".toList, [], "HTTP/1.1".toList] ∧
    s.ReadRequest lib w conn ("GET  HTTP/1.1\r\n".toList ++ rest) = (conn, ReadResult.panic) := by
  refine ⟨by decide, ?_⟩
  have hi : bytes.IndexCRLF ("GET  HTTP/1.1\r\n".toList ++ rest) = some 13 := rfl
  have hl : ReadLine conn ("GET  HTTP/1.1\r\n".toList ++ rest) =
      (conn, "GET  HTTP/1.1".toList,
        (if ("GET  HTTP/1.1\r\n".toList ++ rest).length > 13 + 2 then rest else []), none) := by
    unfold ReadLine
    rw [readUntilCRLF_found _ _ (by rw [hi]; rfl)]
    simp only [hi]
    rfl
  unfold Server.ReadRequest
  rw [hl]
  rfl

/-! ## C5 and C6: what `HandleClient` does when `ReadRequest` fails -/

theorem Response.HandleBadRequest_wire (lib : Lib) (w : World) :
    (Response.zero.HandleBadRequest lib w).wire [] = badRequestBytes (lib.FormatTime w.now) := by
  have hk : sort.Strings (Response.zero.HandleBadRequest lib w).Headers.keys =
      ["Connection".toList, "Date".toList] := rfl
  unfold Response.wire
  rw [hk]
  simp [Response.HandleBadRequest, Response.zero, headerLines, GoMap.get, GoMap.find?, GoMap.set,
    badRequestBytes, statusText, statusBadRequest, statusOK, responseProto, CRLF, strconv.Itoa]
  rfl

/-- When `ReadRequest` returns an error that is neither `io.EOF` nor a timeout
error, `HandleClient` writes the 400 response, closes the connection and
returns. -/
theorem Server.HandleClient_of_fail (s : Server) (lib : Lib) (ws : Nat → World) (fuel i : Nat)
    (conn : Conn) (message : Str) (conn1 : Conn) (message1 : Str) (err : Err)
    (hd : conn.deadlineOk = true) (hroom : conn.room = none)
    (hread : s.ReadRequest lib (ws i) conn message = (conn1, ReadResult.fail message1 err))
    (h1 : err ≠ Err.EOF) (h2 : err ≠ Err.timeout) :
    s.HandleClient lib ws (fuel + 1) i conn message =
      ({ conn1 with
          sent := conn.sent ++ badRequestBytes (lib.FormatTime (ws i).now), closed := true },
        message1, Exit.returned) := by
  have hso := s.ReadRequest_sameOut lib (ws i) conn message
  rw [hread] at hso
  obtain ⟨_, hr, hs, _⟩ := hso
  simp only at hr hs
  unfold Server.HandleClient
  simp only [hd, hread, h1, h2, if_false, Bool.not_true, Bool.false_eq_true]
  rw [Response.Write_other _ _ _ (hr.trans hroom)
    (by show statusBadRequest ≠ statusOK; decide), Response.HandleBadRequest_wire, hs]
  rfl

/-- When `ReadRequest` returns `io.EOF` or a timeout error, `HandleClient`
closes the connection and returns without writing. -/
theorem Server.HandleClient_of_silent (s : Server) (lib : Lib) (ws : Nat → World) (fuel i : Nat)
    (conn : Conn) (message : Str) (conn1 : Conn) (message1 : Str) (err : Err)
    (hd : conn.deadlineOk = true)
    (hread : s.ReadRequest lib (ws i) conn message = (conn1, ReadResult.fail message1 err))
    (h : err = Err.EOF ∨ err = Err.timeout) :
    s.HandleClient lib ws (fuel + 1) i conn message =
      ({ conn1 with sent := conn.sent, closed := true }, message1, Exit.returned) := by
  have hso := s.ReadRequest_sameOut lib (ws i) conn message
  rw [hread] at hso
  obtain ⟨_, _, hs, _⟩ := hso
  simp only at hs
  unfold Server.HandleClient
  simp only [hd, hread, Bool.not_true, Bool.false_eq_true, if_false]
  rcases h with h | h <;> subst h <;> simp [Conn.Close, ← hs]

/-- C5. When `ReadRequest` fails with a parse or validation error (bad start
line, bad header line, empty header key, missing Host), `HandleClient` run on a
connection that accepts its writes sends exactly the 400 response with
`Connection: close` and `Date` and no body, closes the connection and returns;
the reads still scripted and the bytes still buffered (`message1`) are left
untouched. -/
theorem bad_request_answered_400_and_closed (s : Server) (lib : Lib) (ws : Nat → World)
    (fuel i : Nat) (conn : Conn) (message : Str) (conn1 : Conn) (message1 : Str) (err : Err)
    (hd : conn.deadlineOk = true) (hroom : conn.room = none)
    (hread : s.ReadRequest lib (ws i) conn message = (conn1, ReadResult.fail message1 err))
    (herr : err = Err.requestLine ∨ err = Err.headerSyntax ∨ err = Err.headerKey ∨
      err = Err.noHost) :
    s.HandleClient lib ws (fuel + 1) i conn message =
      ({ conn1 with
          sent := conn.sent ++ badRequestBytes (lib.FormatTime (ws i).now), closed := true },
        message1, Exit.returned) := by
  apply s.HandleClient_of_fail lib ws fuel i conn message conn1 message1 err hd hroom hread
  · rcases herr with h | h | h | h <;> subst h <;> decide
  · rcases herr with h | h | h | h <;> subst h <;> decide

/-- C5, at an instance: a request with the method POST, followed by the start
of another request, on a keep-alive connection that could serve five more. -/
theorem bad_request_answered_400_and_closed_witness :
    siteServer.HandleClient specLib (fun _ => siteWorld) (5 + 1) 0
        (peer [ReadEvent.data "POST / HTTP/1.1\r\nHost: site\r\n\r\nGET / HTTP/1.1\r\n".toList]) [] =
      ({ peer [] with
          sent := [] ++ badRequestBytes (specLib.FormatTime siteWorld.now), closed := true },
        "Host: site\r\n\r\nGET / HTTP/1.1\r\n".toList, Exit.returned) :=
  bad_request_answered_400_and_closed siteServer specLib (fun _ => siteWorld) 5 0
    (peer [ReadEvent.data "POST / HTTP/1.1\r\nHost: site\r\n\r\nGET / HTTP/1.1\r\n".toList]) []
    (peer []) "Host: site\r\n\r\nGET / HTTP/1.1\r\n".toList Err.requestLine
    (by decide) (by decide) (by decide) (by decide)

/-- C6. The claim fails when the timeout comes with a partial request buffered:
after the bytes `GET / HT` the read times out, and `HandleClient` answers 400
before it closes the connection. -/
theorem timeout_with_partial_request_answers_400 :
    (ReadLine (peer [ReadEvent.data "GET / HT".toList, ReadEvent.timeout]) []).2.2 =
      ("GET / HT".toList, some Err.timeout) ∧
    siteServer.HandleClient specLib (fun _ => siteWorld) 1 0
        (peer [ReadEvent.data "GET / HT".toList, ReadEvent.timeout]) [] =
      ({ peer [] with
          sent := badRequestBytes "Mon, 02 Nov 2026 00:00:00 GMT".toList, closed := true },
        "GET / HT".toList, Exit.returned) ∧
    (siteServer.HandleClient specLib (fun _ => siteWorld) 1 0
        (peer [ReadEvent.data "GET / HT".toList, ReadEvent.timeout]) []).1.sent ≠ [] := by
  decide

/-- The method `ReadRequest` reports a bare timeout only from the read of the
start line, when that read timed out with nothing buffered. -/
theorem Server.ReadRequest_timeout_iff (s : Server) (lib : Lib) (w : World) (conn : Conn)
    (message : Str) (conn1 : Conn) (message1 : Str) (err : Err)
    (hread : s.ReadRequest lib w conn message = (conn1, ReadResult.fail message1 err)) :
    err = Err.timeout ↔ ReadLine conn message = (conn1, [], [], some Err.timeout) := by
  constructor
  · intro he
    subst he
    have hl := ReadLine_error_line conn message
    unfold Server.ReadRequest at hread
    revert hread hl
    rcases ReadLine conn message with ⟨c1, line, m1, e⟩
    cases e with
    | some e =>
      intro hread hl
      have hline : line = [] := hl e rfl
      subst hline
      dsimp only at hread
      split at hread
      · cases hread
      · rename_i hc
        simp only [Prod.mk.injEq, ReadResult.fail.injEq] at hread
        obtain ⟨h1, h2, h3⟩ := hread
        subst h1 h2 h3
        have : m1 = [] := by
          cases m1 with
          | nil => rfl
          | cons a as => exact absurd ⟨rfl, by simp⟩ hc
        subst this
        rfl
    | none =>
      intro hread _
      dsimp only at hread
      split at hread
      · split at hread
        · cases hread
        · split at hread
          · cases hread
          · split at hread
            · cases hread
            · have hn := readHeaders_no_timeout lib (m1.length + Conn.pending c1.reads + 1) c1 m1 []
              revert hread hn
              rcases readHeaders lib (m1.length + Conn.pending c1.reads + 1) c1 m1 [] with ⟨c2, r⟩
              intro hread hn
              cases r with
              | unfinished => cases hread
              | fail m e =>
                simp only [Prod.mk.injEq, ReadResult.fail.injEq] at hread
                obtain ⟨_, h2, h3⟩ := hread
                subst h3
                exact absurd rfl (hn m)
              | done hs m =>
                dsimp only at hread
                split at hread
                · rename_i hv
                  simp only [Prod.mk.injEq, ReadResult.fail.injEq] at hread
                  obtain ⟨_, _, h3⟩ := hread
                  subst h3
                  unfold ValidateRequestHeaders at hv
                  split at hv <;> cases hv
                · cases hread
      · cases hread
  · intro hl
    unfold Server.ReadRequest at hread
    rw [hl] at hread
    simp at hread
    exact hread.2.symm

/-! ## C7 to C9: a file that cannot be read, a failing flush, a root that is a file -/

/-- C7. The claim fails for `/locked.html`, which passes the existence check
and cannot be read: `HandleGoodRequest` returns a nil response with the error,
`HandleClient` goes on to call `Write` on the nil response and panics, with
nothing sent and the connection not closed. -/
theorem unreadable_file_panics :
    siteServer.FileExistsInDocRoot siteWorld
      { Method := "GET".toList, URL := "/locked.html".toList, Proto := "HTTP/1.1".toList,
        Headers := [("Host".toList, "site".toList)], Host := "site".toList, Close := false } = true ∧
    siteServer.HandleGoodRequest specLib siteWorld
      { Method := "GET".toList, URL := "/locked.html".toList, Proto := "HTTP/1.1".toList,
        Headers := [("Host".toList, "site".toList)], Host := "site".toList, Close := false } =
      (none, some Err.file) ∧
    siteServer.HandleClient specLib (fun _ => siteWorld) 1 0
        (peer [ReadEvent.data "GET /locked.html HTTP/1.1\r\nHost: site\r\n\r\n".toList]) [] =
      (peer [], [], Exit.panicked) := by
  decide

/-- C8. The claim fails for a 404 response written to a peer that accepts no
byte: the response fits the buffer, so the only write to the connection is the
final flush; the flush fails, and `Response.Write` returns nil. -/
theorem flush_failure_returns_nil :
    (bufio.Writer.Flush
      { err := none, buf := (Response.zero.HandleNotFound specLib siteWorld missingRequest).wire [],
        wr := deafPeer }).2 = some Err.write ∧
    (Response.zero.HandleNotFound specLib siteWorld missingRequest).Write siteWorld deafPeer =
      (deafPeer, none) := by
  decide

/-- C9. The claim fails for a document root that is a regular file:
`ValidateServerSetup` returns the error of `os.Stat`, which is nil, even when a
later root does not exist, and `ListenAndServe` goes on to listen. -/
theorem file_as_docroot_passes_validation :
    siteWorld.fs.Stat "/srv/www/index.html".toList = Except.ok fileInfo ∧
    fileInfo.isDir = false ∧
    siteWorld.fs.Stat "/nowhere".toList = Except.error Err.notExist ∧
    Server.ValidateServerSetup
      { VirtualHosts := [("site".toList, "/srv/www/index.html".toList)] } siteWorld =
      Outcome.ret none ∧
    Server.ValidateServerSetup
      { VirtualHosts := [("site".toList, "/srv/www/index.html".toList),
          ("gone".toList, "/nowhere".toList)] } siteWorld = Outcome.ret none ∧
    Server.ListenAndServe
      { VirtualHosts := [("site".toList, "/srv/www/index.html".toList)] } siteWorld none =
      Served.accepting := by
  decide

/-! ## C10: the Connection header and the decision to close -/

theorem Response.HandleNotFound_connection (lib : Lib) (w : World) (req : Request) :
    (Response.zero.HandleNotFound lib w req).StatusCode = statusNotFound ∧
    ((Response.zero.HandleNotFound lib w req).Headers.has "Connection".toList = true ↔
      req.Headers.get "Connection".toList = "close".toList) ∧
    ((Response.zero.HandleNotFound lib w req).Headers.get "Connection".toList =
        if req.Headers.get "Connection".toList = "close".toList then "close".toList else []) := by
  generalize hres : Response.zero.HandleNotFound lib w req = res
  unfold Response.HandleNotFound at hres
  by_cases h : req.Headers.get "Connection".toList = "close".toList
  · simp only [h, if_true] at hres
    subst hres
    rw [if_pos h]
    exact ⟨rfl, ⟨fun _ => h, fun _ => rfl⟩, rfl⟩
  · simp only [h, if_false] at hres
    subst hres
    rw [if_neg h]
    refine ⟨rfl, ⟨fun h2 => ?_, fun h2 => absurd h2 h⟩, rfl⟩
    exact absurd h2 (by show ¬ (false = true); exact Bool.false_ne_true)

theorem Server.HandleGoodRequest_connection (s : Server) (lib : Lib) (w : World) (req : Request)
    (res : Response) (err : Option Err) (h : s.HandleGoodRequest lib w req = (some res, err)) :
    res.StatusCode = statusOK ∧
    (res.Headers.has "Connection".toList = true ↔
      req.Headers.get "Connection".toList = "close".toList) ∧
    (res.Headers.get "Connection".toList =
        if req.Headers.get "Connection".toList = "close".toList then "close".toList else []) := by
  unfold Server.HandleGoodRequest at h
  by_cases hc : req.Headers.get "Connection".toList = "close".toList
  · simp only [hc, if_true] at h
    rw [if_pos hc]
    split at h
    · cases h
    · split at h
      · cases h
      · simp only [Prod.mk.injEq, Option.some.injEq] at h
        obtain ⟨h1, _⟩ := h
        subst h1
        exact ⟨rfl, ⟨fun _ => hc, fun _ => rfl⟩, rfl⟩
  · simp only [hc, if_false] at h
    rw [if_neg hc]
    split at h
    · cases h
    · split at h
      · cases h
      · simp only [Prod.mk.injEq, Option.some.injEq] at h
        obtain ⟨h1, _⟩ := h
        subst h1
        refine ⟨rfl, ⟨fun h2 => ?_, fun h2 => absurd h2 hc⟩, rfl⟩
        exact absurd h2 (by show ¬ (false = true); exact Bool.false_ne_true)

/-- C10. For a request that `ReadRequest` returns and that is answered with the
404 response of `HandleNotFound` or with the 200 response of
`HandleGoodRequest`: the response has a Connection header exactly when the
Connection header of the request is `close`, and its value is then `close`;
in that case `HandleClient` closes the connection after writing the response
and returns; otherwise the connection is not closed by this iteration and
`HandleClient` goes on with the next iteration of its loop. -/
theorem connection_close_iff_requested (s : Server) (lib : Lib) (ws : Nat → World)
    (fuel i : Nat) (conn : Conn) (message : Str) (conn1 : Conn) (req : Request) (message1 : Str)
    (res : Response) (hd : conn.deadlineOk = true)
    (hread : s.ReadRequest lib (ws i) conn message = (conn1, ReadResult.ok req message1))
    (hres : (s.FileExistsInDocRoot (ws i) req = false ∧
          res = Response.zero.HandleNotFound lib (ws i) req) ∨
        (s.FileExistsInDocRoot (ws i) req = true ∧
          s.HandleGoodRequest lib (ws i) req = (some res, none))) :
    (res.StatusCode = statusNotFound ∨ res.StatusCode = statusOK) ∧
    (res.Headers.has "Connection".toList = true ↔
      req.Headers.get "Connection".toList = "close".toList) ∧
    (res.Headers.has "Connection".toList = true →
      res.Headers.get "Connection".toList = "close".toList) ∧
    (res.Write (ws i) conn1).1.closed = conn.closed ∧
    s.HandleClient lib ws (fuel + 1) i conn message =
      if req.Headers.get "Connection".toList = "close".toList then
        ((res.Write (ws i) conn1).1.Close, message1, Exit.returned)
      else s.HandleClient lib ws fuel (i + 1) (res.Write (ws i) conn1).1 message1 := by
  have hso := s.ReadRequest_sameOut lib (ws i) conn message
  rw [hread] at hso
  have hclosed : (res.Write (ws i) conn1).1.closed = conn.closed :=
    (Response.respWrite_sameSide res (ws i) conn1).2.2.trans hso.2.2.2
  have key : res.Headers.get "Connection".toList =
        (if req.Headers.get "Connection".toList = "close".toList then "close".toList else []) →
      s.HandleClient lib ws (fuel + 1) i conn message =
        (if res.Headers.get "Connection".toList = "close".toList then
          ((res.Write (ws i) conn1).1.Close, message1, Exit.returned)
        else s.HandleClient lib ws fuel (i + 1) (res.Write (ws i) conn1).1 message1) →
      s.HandleClient lib ws (fuel + 1) i conn message =
        if req.Headers.get "Connection".toList = "close".toList then
          ((res.Write (ws i) conn1).1.Close, message1, Exit.returned)
        else s.HandleClient lib ws fuel (i + 1) (res.Write (ws i) conn1).1 message1 := by
    intro hg hh
    rw [hh, hg]
    by_cases hc : req.Headers.get "Connection".toList = "close".toList
    · simp [hc]
    · have : ¬ (([] : Str) = "close".toList) := by decide
      simp [hc, this]
  rcases hres with ⟨hex, hr⟩ | ⟨hex, hr⟩
  · subst hr
    obtain ⟨h1, h2, h3⟩ := Response.HandleNotFound_connection lib (ws i) req
    refine ⟨Or.inl h1, h2, ?_, hclosed, key h3 ?_⟩
    · intro hh; rw [h3, if_pos (h2.mp hh)]
    · rw [Server.HandleClient]
      simp only [hd, hread, hex, Bool.not_true, Bool.not_false, Bool.false_eq_true, if_false,
        if_true]
  · obtain ⟨h1, h2, h3⟩ := s.HandleGoodRequest_connection lib (ws i) req res none hr
    refine ⟨Or.inr h1, h2, ?_, hclosed, key h3 ?_⟩
    · intro hh; rw [h3, if_pos (h2.mp hh)]
    · rw [Server.HandleClient]
      simp only [hd, hread, hex, hr, Bool.not_true, Bool.false_eq_true, if_false]

/-- C10, at an instance: a request for a missing file without a Connection
header is answered 404 and the handler awaits the next request. -/
theorem connection_close_iff_requested_witness :
    ((Response.zero.HandleNotFound specLib siteWorld missingRequest).StatusCode = statusNotFound ∨
      (Response.zero.HandleNotFound specLib siteWorld missingRequest).StatusCode = statusOK) ∧
    ((Response.zero.HandleNotFound specLib siteWorld missingRequest).Headers.has
        "Connection".toList = true ↔
      missingRequest.Headers.get "Connection".toList = "close".toList) ∧
    ((Response.zero.HandleNotFound specLib siteWorld missingRequest).Headers.has
        "Connection".toList = true →
      (Response.zero.HandleNotFound specLib siteWorld missingRequest).Headers.get
        "Connection".toList = "close".toList) ∧
    ((Response.zero.HandleNotFound specLib siteWorld missingRequest).Write siteWorld
        (peer [])).1.closed =
      (peer [ReadEvent.data "GET /missing.html HTTP/1.1\r\nHost: site\r\n\r\n".toList]).closed ∧
    siteServer.HandleClient specLib (fun _ => siteWorld) (0 + 1) 0
        (peer [ReadEvent.data "GET /missing.html HTTP/1.1\r\nHost: site\r\n\r\n".toList]) [] =
      if missingRequest.Headers.get "Connection".toList = "close".toList then
        (((Response.zero.HandleNotFound specLib siteWorld missingRequest).Write siteWorld
          (peer [])).1.Close, [], Exit.returned)
      else siteServer.HandleClient specLib (fun _ => siteWorld) 0 (0 + 1)
        ((Response.zero.HandleNotFound specLib siteWorld missingRequest).Write siteWorld
          (peer [])).1 [] :=
  connection_close_iff_requested siteServer specLib (fun _ => siteWorld) 0 0
    (peer [ReadEvent.data "GET /missing.html HTTP/1.1\r\nHost: site\r\n\r\n".toList]) []
    (peer []) missingRequest [] (Response.zero.HandleNotFound specLib siteWorld missingRequest)
    (by decide) (by decide) (Or.inl ⟨by decide, rfl⟩)

/-! ## Lines in the buffer -/

theorem bytes.IndexCRLF_append_crlf (l rest : Str) (h : bytes.IndexCRLF l = none) :
    bytes.IndexCRLF (l ++ CRLF ++ rest) = some l.length := by
  induction l with
  | nil => simp [bytes.IndexCRLF, CRLF]
  | cons c cs ih =>
    unfold bytes.IndexCRLF at h
    split at h
    · cases h
    · rename_i hc
      have hcs : bytes.IndexCRLF cs = none := by
        cases hi : bytes.IndexCRLF cs with
        | none => rfl
        | some j => simp [hi] at h
      have hc2 : ¬ (c = '\r' ∧ (cs ++ CRLF ++ rest).head? = some '\n') := by
        rintro ⟨h1, h2⟩
        cases cs with
        | nil => simp [CRLF] at h2
        | cons d ds => exact hc ⟨h1, by simpa using h2⟩
      show bytes.IndexCRLF (c :: (cs ++ CRLF ++ rest)) = _
      unfold bytes.IndexCRLF
      rw [if_neg hc2, ih hcs]
      rfl

theorem bytes.IndexCRLF_append_right (m x : Str) (i : Nat) (h : bytes.IndexCRLF m = some i) :
    bytes.IndexCRLF (m ++ x) = some i := by
  induction m generalizing i with
  | nil => simp [bytes.IndexCRLF] at h
  | cons c cs ih =>
    unfold bytes.IndexCRLF at h
    show bytes.IndexCRLF (c :: (cs ++ x)) = _
    unfold bytes.IndexCRLF
    split at h
    · rename_i hc
      cases h
      have : c = '\r' ∧ (cs ++ x).head? = some '\n' := by
        refine ⟨hc.1, ?_⟩
        cases cs with
        | nil => simp at hc
        | cons d ds => simpa using hc.2
      rw [if_pos this]
    · rename_i hc
      cases hi : bytes.IndexCRLF cs with
      | none => simp [hi] at h
      | some j =>
        simp only [hi, Option.map_some', Option.some.injEq] at h
        have hc2 : ¬ (c = '\r' ∧ (cs ++ x).head? = some '\n') := by
          rintro ⟨h1, h2⟩
          cases cs with
          | nil => simp [bytes.IndexCRLF] at hi
          | cons d ds => exact hc ⟨h1, by simpa using h2⟩
        rw [if_neg hc2, ih j hi, ← h]
        rfl

/-- The buffer splits at the index of its first delimiter, and what comes
before that index holds no delimiter. -/
theorem bytes.IndexCRLF_split (m : Str) (i : Nat) (h : bytes.IndexCRLF m = some i) :
    m = m.take i ++ CRLF ++ m.drop (i + 2) ∧ bytes.IndexCRLF (m.take i) = none := by
  induction m generalizing i with
  | nil => simp [bytes.IndexCRLF] at h
  | cons c cs ih =>
    unfold bytes.IndexCRLF at h
    split at h
    · rename_i hc
      cases h
      cases cs with
      | nil => simp at hc
      | cons d ds =>
        simp only [List.head?_cons, Option.some.injEq] at hc
        obtain ⟨h1, h2⟩ := hc
        subst h1 h2
        exact ⟨rfl, rfl⟩
    · rename_i hc
      cases hi : bytes.IndexCRLF cs with
      | none => simp [hi] at h
      | some j =>
        simp only [hi, Option.map_some', Option.some.injEq] at h
        subst h
        obtain ⟨h1, h2⟩ := ih j hi
        refine ⟨?_, ?_⟩
        · show c :: cs = c :: (cs.take j ++ CRLF ++ cs.drop (j + 2))
          rw [← h1]
        · show bytes.IndexCRLF (c :: cs.take j) = none
          unfold bytes.IndexCRLF
          have hc2 : ¬ (c = '\r' ∧ (cs.take j).head? = some '\n') := by
            rintro ⟨h3, h4⟩
            apply hc
            refine ⟨h3, ?_⟩
            cases j with
            | zero => simp at h4
            | succ j =>
              cases cs with
              | nil => simp at h4
              | cons d ds => simpa using h4
          rw [if_neg hc2, h2]
          rfl

/-- A line that lies in the buffer with its delimiter is returned without a
read, and the buffer that is returned is what follows the delimiter. -/
theorem ReadLine_buffered (conn : Conn) (l rest : Str) (h : bytes.IndexCRLF l = none) :
    ReadLine conn (l ++ CRLF ++ rest) = (conn, l, rest, none) := by
  have hi := bytes.IndexCRLF_append_crlf l rest h
  unfold ReadLine
  rw [readUntilCRLF_found _ _ (by rw [hi]; rfl)]
  simp only [hi]
  have h1 : (l ++ CRLF ++ rest).take l.length = l := by
    rw [List.append_assoc, List.take_left]
  have h2 : (l ++ CRLF ++ rest).drop (l.length + 2) = rest := by
    have : l.length + 2 = (l ++ CRLF).length := by simp [CRLF]
    rw [this, List.drop_left]
  rw [h1, h2]
  have h3 : (if (l ++ CRLF ++ rest).length > l.length + 2 then rest else []) = rest := by
    by_cases hr : rest = []
    · simp [hr]
    · have : rest.length > 0 := List.length_pos.mpr hr
      rw [if_pos]
      simp [CRLF]
      omega
  rw [h3]

/-- The loop of `ReadLine` reads the chunks one by one as long as the message
holds no delimiter, and stops at the first chunk that brings one. -/
theorem readUntilCRLF_chunks (chunks : List Str) (rest : List ReadEvent) (message : Str)
    (hnone : ∀ j, j < chunks.length →
      bytes.IndexCRLF (message ++ concatChunks (chunks.take j)) = none)
    (hsome : (bytes.IndexCRLF (message ++ concatChunks chunks)).isSome = true) :
    readUntilCRLF (chunks.map ReadEvent.data ++ rest) message =
      (rest, message ++ concatChunks chunks, none) := by
  induction chunks generalizing message with
  | nil =>
    simp only [concatChunks, List.append_nil] at hsome
    simpa [concatChunks] using readUntilCRLF_found rest message hsome
  | cons c cs ih =>
    have h0 : bytes.IndexCRLF message = none := by
      simpa [concatChunks] using hnone 0 (by simp)
    show readUntilCRLF (ReadEvent.data c :: (cs.map ReadEvent.data ++ rest)) message = _
    unfold readUntilCRLF
    simp only [h0, Option.isSome_none, Bool.false_eq_true, if_false]
    rw [ih (message ++ c)]
    · simp [concatChunks]
    · intro j hj
      have := hnone (j + 1) (by simpa using hj)
      simpa [concatChunks] using this
    · simpa [concatChunks] using hsome

theorem ReadLine_of_found (conn : Conn) (message : Str) (evs : List ReadEvent) (M : Str)
    (i : Nat) (hr : readUntilCRLF conn.reads message = (evs, M, none))
    (hi : bytes.IndexCRLF M = some i) :
    ReadLine conn message = ({ conn with reads := evs }, M.take i, M.drop (i + 2), none) := by
  unfold ReadLine
  rw [hr]
  simp only [hi]
  have hb := bytes.IndexCRLF_bound M i hi
  by_cases hlen : M.length > i + 2
  · rw [if_pos hlen]
  · rw [if_neg hlen]
    have : M.drop (i + 2) = [] := List.drop_eq_nil_of_le (by omega)
    rw [this]

/-- C19. `ReadLine` splits at the first CRLF. If the connection delivers the
chunks `chunks` and then `rest`, the message extended by fewer than all of the
chunks holds no CRLF and extended by all of them holds one, then `ReadLine`
reads exactly these chunks and returns no error, the line before the first
CRLF, which holds no CRLF, and the remainder after it, so that the extended
message is line, CRLF, remainder. With no chunks this is the case of a message
that already holds a CRLF: nothing is read, the connection is returned as it
was. -/
theorem ReadLine_splits_at_first_CRLF (conn : Conn) (message : Str) (chunks : List Str)
    (rest : List ReadEvent) (hreads : conn.reads = chunks.map ReadEvent.data ++ rest)
    (hnone : ∀ j, j < chunks.length →
      bytes.IndexCRLF (message ++ concatChunks (chunks.take j)) = none)
    (hsome : (bytes.IndexCRLF (message ++ concatChunks chunks)).isSome = true) :
    ∃ line remainder,
      ReadLine conn message = ({ conn with reads := rest }, line, remainder, none) ∧
      message ++ concatChunks chunks = line ++ CRLF ++ remainder ∧
      bytes.IndexCRLF line = none ∧
      (chunks = [] → ReadLine conn message = (conn, line, remainder, none)) := by
  have hr := readUntilCRLF_chunks chunks rest message hnone hsome
  rw [← hreads] at hr
  obtain ⟨i, hi⟩ := Option.isSome_iff_exists.mp hsome
  have hl := ReadLine_of_found conn message rest _ i hr hi
  obtain ⟨h1, h2⟩ := bytes.IndexCRLF_split _ i hi
  refine ⟨_, _, hl, h1, h2, ?_⟩
  intro hc
  rw [hl]
  subst hc
  simp only [List.map_nil, List.nil_append] at hreads
  rw [← hreads]

/-- C19, at an instance: the line arrives in three chunks, the CRLF is split
between the second and the third, and a fourth chunk is left unread. -/
theorem ReadLine_splits_at_first_CRLF_witness :
    ∃ line remainder,
      ReadLine (peer [ReadEvent.data "T / HT".toList, ReadEvent.data "TP/1.1\r".toList,
          ReadEvent.data "\nHost: a\r\n".toList, ReadEvent.data "\r\n".toList]) "GE".toList =
        ({ peer [ReadEvent.data "T / HT".toList, ReadEvent.data "TP/1.1\r".toList,
            ReadEvent.data "\nHost: a\r\n".toList, ReadEvent.data "\r\n".toList] with
            reads := [ReadEvent.data "\r\n".toList] }, line, remainder, none) ∧
      "GE".toList ++ concatChunks ["T / HT".toList, "TP/1.1\r".toList, "\nHost: a\r\n".toList] =
        line ++ CRLF ++ remainder ∧
      bytes.IndexCRLF line = none ∧
      (["T / HT".toList, "TP/1.1\r".toList, "\nHost: a\r\n".toList] = [] →
        ReadLine (peer [ReadEvent.data "T / HT".toList, ReadEvent.data "TP/1.1\r".toList,
          ReadEvent.data "\nHost: a\r\n".toList, ReadEvent.data "\r\n".toList]) "GE".toList =
        (peer [ReadEvent.data "T / HT".toList, ReadEvent.data "TP/1.1\r".toList,
          ReadEvent.data "\nHost: a\r\n".toList, ReadEvent.data "\r\n".toList], line, remainder,
          none)) :=
  ReadLine_splits_at_first_CRLF
    (peer [ReadEvent.data "T / HT".toList, ReadEvent.data "TP/1.1\r".toList,
      ReadEvent.data "\nHost: a\r\n".toList, ReadEvent.data "\r\n".toList]) "GE".toList
    ["T / HT".toList, "TP/1.1\r".toList, "\nHost: a\r\n".toList] [ReadEvent.data "\r\n".toList]
    (by decide) (by decide) (by decide)

/-! ## Lines in the stream of the connection -/

theorem readUntilCRLF_stream (evs : List ReadEvent) (message line tail : Str)
    (hs : message ++ Conn.stream evs = line ++ CRLF ++ tail)
    (hl : bytes.IndexCRLF line = none) :
    ∃ evs1 M, readUntilCRLF evs message = (evs1, M, none) ∧
      M ++ Conn.stream evs1 = line ++ CRLF ++ tail ∧ (bytes.IndexCRLF M).isSome = true := by
  have hnot : ∀ m : Str, m = line ++ CRLF ++ tail → bytes.IndexCRLF m ≠ none := by
    intro m hm hn
    rw [hm, bytes.IndexCRLF_append_crlf line tail hl] at hn
    cases hn
  induction evs generalizing message with
  | nil =>
    by_cases hm : (bytes.IndexCRLF message).isSome = true
    · exact ⟨[], message, readUntilCRLF_found _ _ hm, hs, hm⟩
    · exfalso
      simp only [Conn.stream, List.append_nil] at hs
      apply hnot message hs
      simpa using hm
  | cons ev evs ih =>
    by_cases hm : (bytes.IndexCRLF message).isSome = true
    · exact ⟨ev :: evs, message, readUntilCRLF_found _ _ hm, hs, hm⟩
    · have hmn : bytes.IndexCRLF message = none := by simpa using hm
      cases ev with
      | data chunk =>
        obtain ⟨evs1, M, h1, h2, h3⟩ := ih (message ++ chunk)
          (by simpa [Conn.stream] using hs)
        refine ⟨evs1, M, ?_, h2, h3⟩
        unfold readUntilCRLF
        simp only [hmn, Option.isSome_none, Bool.false_eq_true, if_false]
        exact h1
      | EOF =>
        exfalso
        simp only [Conn.stream, List.append_nil] at hs
        exact hnot message hs hmn
      | timeout =>
        exfalso
        simp only [Conn.stream, List.append_nil] at hs
        exact hnot message hs hmn
      | failure =>
        exfalso
        simp only [Conn.stream, List.append_nil] at hs
        exact hnot message hs hmn

/-- A line that the message and the coming chunks hold together, with its
delimiter, is returned by `ReadLine`, and what follows the delimiter is still
held by the message and the coming chunks. -/
theorem ReadLine_stream (conn : Conn) (message line tail : Str)
    (hs : message ++ Conn.stream conn.reads = line ++ CRLF ++ tail)
    (hl : bytes.IndexCRLF line = none) :
    ∃ conn1 m1, ReadLine conn message = (conn1, line, m1, none) ∧
      m1 ++ Conn.stream conn1.reads = tail ∧ conn1.SameOut conn := by
  obtain ⟨evs1, M, h1, h2, h3⟩ := readUntilCRLF_stream conn.reads message line tail hs hl
  obtain ⟨i, hi⟩ := Option.isSome_iff_exists.mp h3
  have hrl := ReadLine_of_found conn message evs1 M i h1 hi
  obtain ⟨h4, _⟩ := bytes.IndexCRLF_split M i hi
  have hb := bytes.IndexCRLF_bound M i hi
  have hi2 : bytes.IndexCRLF (M ++ Conn.stream evs1) = some i := bytes.IndexCRLF_append_right _ _ _ hi
  rw [h2, bytes.IndexCRLF_append_crlf line tail hl] at hi2
  have hlen : line.length = i := by simpa using hi2
  have h5 : M.take i ++ (CRLF ++ (M.drop (i + 2) ++ Conn.stream evs1)) =
      line ++ (CRLF ++ tail) := by
    rw [← List.append_assoc, ← List.append_assoc, ← h4, h2, List.append_assoc]
  have h6 := List.append_inj h5 (by rw [List.length_take]; omega)
  have h7 := List.append_cancel_left h6.2
  refine ⟨{ conn with reads := evs1 }, M.drop (i + 2), ?_, h7, ⟨rfl, rfl, rfl, rfl⟩⟩
  rw [hrl, h6.1]

/-! ## White space: `unicode/utf8` and `strings.TrimSpace` -/

theorem mem_spaceEncodings (e : Str) (h : e.map Char.toNat ∈ spaceCodes) : e ∈ spaceEncodings := by
  have he : e = (e.map Char.toNat).map Char.ofNat := by
    rw [List.map_map]
    conv_lhs => rw [← List.map_id e]
    apply List.map_congr_left
    intro c _
    simp [Char.ofNat_toNat]
  rw [he]
  exact List.mem_map_of_mem _ h

/-- The values of the table `first`, by the range of the byte. -/
theorem utf8.first_cases (b : Nat) :
    (b < 0x80 ∧ utf8.first b = 0xF0) ∨
    ((0x80 ≤ b ∧ b < 0xC2 ∨ 0xF5 ≤ b) ∧ utf8.first b = 0xF1) ∨
    (0xC2 ≤ b ∧ b < 0xE0 ∧ utf8.first b = 0x02) ∨ (b = 0xE0 ∧ utf8.first b = 0x13) ∨
    (0xE1 ≤ b ∧ b < 0xF0 ∧ b ≠ 0xED ∧ utf8.first b = 0x03) ∨ (b = 0xED ∧ utf8.first b = 0x23) ∨
    (b = 0xF0 ∧ utf8.first b = 0x34) ∨ (0xF1 ≤ b ∧ b < 0xF4 ∧ utf8.first b = 0x04) ∨
    (b = 0xF4 ∧ utf8.first b = 0x44) := by
  by_cases h1 : b < 0x80
  · exact Or.inl ⟨h1, by unfold utf8.first; rw [if_pos h1]⟩
  by_cases h2 : b < 0xC2
  · exact Or.inr (Or.inl ⟨by omega, by unfold utf8.first; rw [if_neg h1, if_pos h2]⟩)
  by_cases h3 : b < 0xE0
  · exact Or.inr (Or.inr (Or.inl ⟨by omega, h3,
      by unfold utf8.first; rw [if_neg h1, if_neg h2, if_pos h3]⟩))
  by_cases h4 : b = 0xE0
  · exact Or.inr (Or.inr (Or.inr (Or.inl ⟨h4, by subst h4; rfl⟩)))
  by_cases h5 : b < 0xED
  · exact Or.inr (Or.inr (Or.inr (Or.inr (Or.inl ⟨by omega, by omega, by omega,
      by unfold utf8.first; rw [if_neg h1, if_neg h2, if_neg h3, if_neg h4, if_pos h5]⟩))))
  by_cases h6 : b = 0xED
  · exact Or.inr (Or.inr (Or.inr (Or.inr (Or.inr (Or.inl ⟨h6, by subst h6; rfl⟩)))))
  by_cases h7 : b < 0xF0
  · exact Or.inr (Or.inr (Or.inr (Or.inr (Or.inl ⟨by omega, by omega, by omega,
      by unfold utf8.first
         rw [if_neg h1, if_neg h2, if_neg h3, if_neg h4, if_neg h5, if_neg h6, if_pos h7]⟩))))
  by_cases h8 : b = 0xF0
  · exact Or.inr (Or.inr (Or.inr (Or.inr (Or.inr (Or.inr (Or.inl ⟨h8, by subst h8; rfl⟩))))))
  by_cases h9 : b < 0xF4
  · exact Or.inr (Or.inr (Or.inr (Or.inr (Or.inr (Or.inr (Or.inr (Or.inl ⟨by omega, h9,
      by unfold utf8.first
         rw [if_neg h1, if_neg h2, if_neg h3, if_neg h4, if_neg h5, if_neg h6, if_neg h7,
           if_neg h8, if_pos h9]⟩)))))))
  by_cases h10 : b = 0xF4
  · exact Or.inr (Or.inr (Or.inr (Or.inr (Or.inr (Or.inr (Or.inr (Or.inr
      ⟨h10, by subst h10; rfl⟩)))))))
  · exact Or.inr (Or.inl ⟨by omega, by
      unfold utf8.first
      rw [if_neg h1, if_neg h2, if_neg h3, if_neg h4, if_neg h5, if_neg h6, if_neg h7,
        if_neg h8, if_neg h9, if_neg h10]⟩)

theorem unicode.IsSpace_iff (r : Nat) :
    unicode.IsSpace r = true ↔
      ((9 ≤ r ∧ r ≤ 13) ∨ r = 0x20 ∨ r = 0x85 ∨ r = 0xA0 ∨ r = 0x1680 ∨
        (0x2000 ≤ r ∧ r ≤ 0x200A) ∨ r = 0x2028 ∨ r = 0x2029 ∨ r = 0x202F ∨ r = 0x205F ∨
        r = 0x3000) := by
  unfold unicode.IsSpace
  split_ifs with h
  · simp only [Bool.decide_or, Bool.or_eq_true, decide_eq_true_eq]
    omega
  · simp only [Bool.decide_or, Bool.decide_and, Bool.or_eq_true, Bool.and_eq_true,
      decide_eq_true_eq]
    omega

theorem spaceCodes_one (s0 : Nat) (h : (9 ≤ s0 ∧ s0 ≤ 13) ∨ s0 = 32) : [s0] ∈ spaceCodes := by
  rcases h with ⟨h1, h2⟩ | h
  · interval_cases s0 <;> decide
  · subst h; decide

theorem spaceCodes_two (s0 s1 : Nat) (h : s0 = 0xC2 ∧ (s1 = 0x85 ∨ s1 = 0xA0)) :
    [s0, s1] ∈ spaceCodes := by
  obtain ⟨h0, h1 | h1⟩ := h <;> subst h0 <;> subst h1 <;> decide

theorem spaceCodes_three (s0 s1 s2 : Nat)
    (h : (s0 = 0xE1 ∧ s1 = 0x9A ∧ s2 = 0x80) ∨
      (s0 = 0xE2 ∧ s1 = 0x80 ∧ ((0x80 ≤ s2 ∧ s2 ≤ 0x8A) ∨ s2 = 0xA8 ∨ s2 = 0xA9 ∨ s2 = 0xAF)) ∨
      (s0 = 0xE2 ∧ s1 = 0x81 ∧ s2 = 0x9F) ∨ (s0 = 0xE3 ∧ s1 = 0x80 ∧ s2 = 0x80)) :
    [s0, s1, s2] ∈ spaceCodes := by
  rcases h with ⟨h0, h1, h2⟩ | ⟨h0, h1, ⟨h2, h3⟩ | h2 | h2 | h2⟩ | ⟨h0, h1, h2⟩ | ⟨h0, h1, h2⟩
  · subst h0 h1 h2; decide
  · subst h0 h1; interval_cases s2 <;> decide
  · subst h0 h1 h2; decide
  · subst h0 h1 h2; decide
  · subst h0 h1 h2; decide
  · subst h0 h1 h2; decide
  · subst h0 h1 h2; decide

namespace utf8

theorem decodeBytes_one (n s0 s1 s2 s3 : Nat) (hn : 1 ≤ n) (h0 : s0 < 0x80) :
    decodeBytes n s0 s1 s2 s3 = (s0, 1) := by
  have hf : first s0 = 0xF0 := by unfold first; rw [if_pos h0]
  unfold decodeBytes
  rw [if_neg (by omega)]
  simp only [hf, Nat.le_refl, if_true, Nat.reduceMod]

theorem decodeBytes_invalid (n s0 s1 s2 s3 : Nat) (hn : 1 ≤ n)
    (h0 : (0x80 ≤ s0 ∧ s0 < 0xC2) ∨ 0xF5 ≤ s0) :
    decodeBytes n s0 s1 s2 s3 = (RuneError, 1) := by
  have hf : first s0 = 0xF1 := by
    rcases first_cases s0 with hf | hf | hf | hf | hf | hf | hf | hf | hf <;> omega
  unfold decodeBytes
  rw [if_neg (by omega)]
  simp only [hf, Nat.reduceLeDiff, if_true, Nat.reduceMod, Nat.one_ne_zero, OfNat.ofNat_ne_zero,
    if_false]

theorem decodeBytes_two (n s0 s1 s2 s3 : Nat) (hn : 2 ≤ n) (h0 : 0xC2 ≤ s0 ∧ s0 < 0xE0)
    (h1 : 0x80 ≤ s1 ∧ s1 ≤ 0xBF) :
    decodeBytes n s0 s1 s2 s3 = (s0 % 32 * 64 + s1 % 64, 2) := by
  have hf : first s0 = 0x02 := by
    rcases first_cases s0 with hf | hf | hf | hf | hf | hf | hf | hf | hf <;> omega
  unfold decodeBytes
  rw [if_neg (by omega)]
  simp only [hf, acceptRanges, Nat.reduceMod, Nat.reduceDiv, Nat.reduceLeDiff, if_true, if_false]
  rw [if_neg (by omega), if_neg (by omega)]

theorem decodeBytes_three (n s0 s1 s2 s3 : Nat) (hn : 3 ≤ n) (h0 : 0xE0 ≤ s0 ∧ s0 < 0xF0)
    (h1 : 0x80 ≤ s1 ∧ s1 ≤ 0xBF) (hE0 : s0 = 0xE0 → 0xA0 ≤ s1) (hED : s0 = 0xED → s1 ≤ 0x9F)
    (h2 : 0x80 ≤ s2 ∧ s2 ≤ 0xBF) :
    decodeBytes n s0 s1 s2 s3 = (s0 % 16 * 4096 + s1 % 64 * 64 + s2 % 64, 3) := by
  unfold decodeBytes
  rw [if_neg (by omega)]
  rcases first_cases s0 with hf | hf | hf | hf | hf | hf | hf | hf | hf
  · omega
  · omega
  · omega
  · obtain ⟨h, hf⟩ := hf
    simp only [hf, acceptRanges, Nat.reduceMod, Nat.reduceDiv, Nat.reduceLeDiff, if_true,
      if_false, Nat.one_ne_zero, OfNat.ofNat_ne_zero, Nat.reduceEqDiff]
    rw [if_neg (by omega), if_neg (by omega), if_neg (by omega)]
  · obtain ⟨_, _, _, hf⟩ := hf
    simp only [hf, acceptRanges, Nat.reduceMod, Nat.reduceDiv, Nat.reduceLeDiff, if_true,
      if_false, Nat.one_ne_zero, OfNat.ofNat_ne_zero, Nat.reduceEqDiff]
    rw [if_neg (by omega), if_neg (by omega), if_neg (by omega)]
  · obtain ⟨h, hf⟩ := hf
    simp only [hf, acceptRanges, Nat.reduceMod, Nat.reduceDiv, Nat.reduceLeDiff, if_true,
      if_false, Nat.one_ne_zero, OfNat.ofNat_ne_zero, Nat.reduceEqDiff]
    rw [if_neg (by omega), if_neg (by omega), if_neg (by omega)]
  · omega
  · omega
  · omega

theorem decodeBytes_four (n s0 s1 s2 s3 : Nat) (hn : 4 ≤ n) (h0 : 0xF0 ≤ s0 ∧ s0 < 0xF5)
    (h1 : 0x80 ≤ s1 ∧ s1 ≤ 0xBF) (hF0 : s0 = 0xF0 → 0x90 ≤ s1) (hF4 : s0 = 0xF4 → s1 ≤ 0x8F)
    (h2 : 0x80 ≤ s2 ∧ s2 ≤ 0xBF) (h3 : 0x80 ≤ s3 ∧ s3 ≤ 0xBF) :
    decodeBytes n s0 s1 s2 s3 =
      (s0 % 8 * 262144 + s1 % 64 * 4096 + s2 % 64 * 64 + s3 % 64, 4) := by
  unfold decodeBytes
  rw [if_neg (by omega)]
  rcases first_cases s0 with hf | hf | hf | hf | hf | hf | hf | hf | hf
  · omega
  · omega
  · omega
  · omega
  · omega
  · omega
  · obtain ⟨h, hf⟩ := hf
    simp only [hf, acceptRanges, Nat.reduceMod, Nat.reduceDiv, Nat.reduceLeDiff, if_true,
      if_false, Nat.one_ne_zero, OfNat.ofNat_ne_zero, Nat.reduceEqDiff]
    rw [if_neg (by omega), if_neg (by omega), if_neg (by omega), if_neg (by omega)]
  · obtain ⟨_, _, hf⟩ := hf
    simp only [hf, acceptRanges, Nat.reduceMod, Nat.reduceDiv, Nat.reduceLeDiff, if_true,
      if_false, Nat.one_ne_zero, OfNat.ofNat_ne_zero, Nat.reduceEqDiff]
    rw [if_neg (by omega), if_neg (by omega), if_neg (by omega), if_neg (by omega)]
  · obtain ⟨h, hf⟩ := hf
    simp only [hf, acceptRanges, Nat.reduceMod, Nat.reduceDiv, Nat.reduceLeDiff, if_true,
      if_false, Nat.one_ne_zero, OfNat.ofNat_ne_zero, Nat.reduceEqDiff]
    rw [if_neg (by omega), if_neg (by omega), if_neg (by omega), if_neg (by omega)]

/-- What `decodeBytes` returns on a string that is not empty: an ASCII byte, or
the error rune with the width one for a first byte that is not ASCII, or a
rune of two, three or four bytes. -/
theorem decodeBytes_cases (n s0 s1 s2 s3 : Nat) (hn : 1 ≤ n) :
    (s0 < 0x80 ∧ decodeBytes n s0 s1 s2 s3 = (s0, 1)) ∨
    (0x80 ≤ s0 ∧ decodeBytes n s0 s1 s2 s3 = (RuneError, 1)) ∨
    (2 ≤ n ∧ (0xC2 ≤ s0 ∧ s0 < 0xE0) ∧ (0x80 ≤ s1 ∧ s1 ≤ 0xBF) ∧
      decodeBytes n s0 s1 s2 s3 = (s0 % 32 * 64 + s1 % 64, 2)) ∨
    (3 ≤ n ∧ (0xE0 ≤ s0 ∧ s0 < 0xF0) ∧ (0x80 ≤ s1 ∧ s1 ≤ 0xBF) ∧ (s0 = 0xE0 → 0xA0 ≤ s1) ∧
      (s0 = 0xED → s1 ≤ 0x9F) ∧ (0x80 ≤ s2 ∧ s2 ≤ 0xBF) ∧
      decodeBytes n s0 s1 s2 s3 = (s0 % 16 * 4096 + s1 % 64 * 64 + s2 % 64, 3)) ∨
    (4 ≤ n ∧ (0xF0 ≤ s0 ∧ s0 < 0xF5) ∧ (0x80 ≤ s1 ∧ s1 ≤ 0xBF) ∧ (s0 = 0xF0 → 0x90 ≤ s1) ∧
      (s0 = 0xF4 → s1 ≤ 0x8F) ∧ (0x80 ≤ s2 ∧ s2 ≤ 0xBF) ∧ (0x80 ≤ s3 ∧ s3 ≤ 0xBF) ∧
      decodeBytes n s0 s1 s2 s3 =
        (s0 % 8 * 262144 + s1 % 64 * 4096 + s2 % 64 * 64 + s3 % 64, 4)) := by
  by_cases a0 : s0 < 0x80
  · exact Or.inl ⟨a0, decodeBytes_one n s0 s1 s2 s3 hn a0⟩
  by_cases ax : (0x80 ≤ s0 ∧ s0 < 0xC2) ∨ 0xF5 ≤ s0
  · exact Or.inr (Or.inl ⟨by omega, decodeBytes_invalid n s0 s1 s2 s3 hn ax⟩)
  have hbad : ∀ (h : first s0 < 0xF0), (n < first s0 % 8 ∨
      (s1 < (acceptRanges (first s0 / 16)).1 ∨ (acceptRanges (first s0 / 16)).2 < s1) ∨
      (2 < first s0 % 8 ∧ (s2 < 0x80 ∨ 0xBF < s2)) ∨
      (3 < first s0 % 8 ∧ (s3 < 0x80 ∨ 0xBF < s3))) →
      decodeBytes n s0 s1 s2 s3 = (RuneError, 1) := by
    intro h hb
    unfold decodeBytes
    rw [if_neg (by omega)]
    simp only []
    rw [if_neg (by omega)]
    split_ifs <;> first | rfl | omega
  have h80 : 0x80 ≤ s0 := by omega
  rcases first_cases s0 with hf | hf | hf | hf | hf | hf | hf | hf | hf
  · exfalso; omega
  · exfalso; omega
  · obtain ⟨f0, f1, hf⟩ := hf
    by_cases hc : 2 ≤ n ∧ (0x80 ≤ s1 ∧ s1 ≤ 0xBF)
    · exact Or.inr (Or.inr (Or.inl ⟨hc.1, ⟨f0, f1⟩, hc.2, decodeBytes_two n s0 s1 s2 s3 hc.1
        ⟨f0, f1⟩ hc.2⟩))
    · refine Or.inr (Or.inl ⟨h80, hbad (by omega) ?_⟩)
      simp only [hf, acceptRanges, Nat.reduceMod, Nat.reduceDiv, Nat.reduceLeDiff, if_true,
        if_false, Nat.one_ne_zero, OfNat.ofNat_ne_zero, Nat.reduceEqDiff]
      omega
  · obtain ⟨f0, hf⟩ := hf
    by_cases hc : 3 ≤ n ∧ (0xA0 ≤ s1 ∧ s1 ≤ 0xBF) ∧ (0x80 ≤ s2 ∧ s2 ≤ 0xBF)
    · exact Or.inr (Or.inr (Or.inr (Or.inl ⟨hc.1, by omega, by omega, by omega, by omega, hc.2.2,
        decodeBytes_three n s0 s1 s2 s3 hc.1 (by omega) (by omega) (by omega) (by omega)
          hc.2.2⟩)))
    · refine Or.inr (Or.inl ⟨h80, hbad (by omega) ?_⟩)
      simp only [hf, acceptRanges, Nat.reduceMod, Nat.reduceDiv, Nat.reduceLeDiff, if_true,
        if_false, Nat.one_ne_zero, OfNat.ofNat_ne_zero, Nat.reduceEqDiff]
      omega
  · obtain ⟨f0, f1, f2, hf⟩ := hf
    by_cases hc : 3 ≤ n ∧ (0x80 ≤ s1 ∧ s1 ≤ 0xBF) ∧ (0x80 ≤ s2 ∧ s2 ≤ 0xBF)
    · exact Or.inr (Or.inr (Or.inr (Or.inl ⟨hc.1, by omega, by omega, by omega, by omega, hc.2.2,
        decodeBytes_three n s0 s1 s2 s3 hc.1 (by omega) (by omega) (by omega) (by omega)
          hc.2.2⟩)))
    · refine Or.inr (Or.inl ⟨h80, hbad (by omega) ?_⟩)
      simp only [hf, acceptRanges, Nat.reduceMod, Nat.reduceDiv, Nat.reduceLeDiff, if_true,
        if_false, Nat.one_ne_zero, OfNat.ofNat_ne_zero, Nat.reduceEqDiff]
      omega
  · obtain ⟨f0, hf⟩ := hf
    by_cases hc : 3 ≤ n ∧ (0x80 ≤ s1 ∧ s1 ≤ 0x9F) ∧ (0x80 ≤ s2 ∧ s2 ≤ 0xBF)
    · exact Or.inr (Or.inr (Or.inr (Or.inl ⟨hc.1, by omega, by omega, by omega, by omega, hc.2.2,
        decodeBytes_three n s0 s1 s2 s3 hc.1 (by omega) (by omega) (by omega) (by omega)
          hc.2.2⟩)))
    · refine Or.inr (Or.inl ⟨h80, hbad (by omega) ?_⟩)
      simp only [hf, acceptRanges, Nat.reduceMod, Nat.reduceDiv, Nat.reduceLeDiff, if_true,
        if_false, Nat.one_ne_zero, OfNat.ofNat_ne_zero, Nat.reduceEqDiff]
      omega
  · obtain ⟨f0, hf⟩ := hf
    by_cases hc : 4 ≤ n ∧ (0x90 ≤ s1 ∧ s1 ≤ 0xBF) ∧ (0x80 ≤ s2 ∧ s2 ≤ 0xBF) ∧
        (0x80 ≤ s3 ∧ s3 ≤ 0xBF)
    · exact Or.inr (Or.inr (Or.inr (Or.inr ⟨hc.1, by omega, by omega, by omega, by omega,
        hc.2.2.1, hc.2.2.2,
        decodeBytes_four n s0 s1 s2 s3 hc.1 (by omega) (by omega) (by omega) (by omega)
          hc.2.2.1 hc.2.2.2⟩)))
    · refine Or.inr (Or.inl ⟨h80, hbad (by omega) ?_⟩)
      simp only [hf, acceptRanges, Nat.reduceMod, Nat.reduceDiv, Nat.reduceLeDiff, if_true,
        if_false, Nat.one_ne_zero, OfNat.ofNat_ne_zero, Nat.reduceEqDiff]
      omega
  · obtain ⟨f0, f1, hf⟩ := hf
    by_cases hc : 4 ≤ n ∧ (0x80 ≤ s1 ∧ s1 ≤ 0xBF) ∧ (0x80 ≤ s2 ∧ s2 ≤ 0xBF) ∧
        (0x80 ≤ s3 ∧ s3 ≤ 0xBF)
    · exact Or.inr (Or.inr (Or.inr (Or.inr ⟨hc.1, by omega, by omega, by omega, by omega,
        hc.2.2.1, hc.2.2.2,
        decodeBytes_four n s0 s1 s2 s3 hc.1 (by omega) (by omega) (by omega) (by omega)
          hc.2.2.1 hc.2.2.2⟩)))
    · refine Or.inr (Or.inl ⟨h80, hbad (by omega) ?_⟩)
      simp only [hf, acceptRanges, Nat.reduceMod, Nat.reduceDiv, Nat.reduceLeDiff, if_true,
        if_false, Nat.one_ne_zero, OfNat.ofNat_ne_zero, Nat.reduceEqDiff]
      omega
  · obtain ⟨f0, hf⟩ := hf
    by_cases hc : 4 ≤ n ∧ (0x80 ≤ s1 ∧ s1 ≤ 0x8F) ∧ (0x80 ≤ s2 ∧ s2 ≤ 0xBF) ∧
        (0x80 ≤ s3 ∧ s3 ≤ 0xBF)
    · exact Or.inr (Or.inr (Or.inr (Or.inr ⟨hc.1, by omega, by omega, by omega, by omega,
        hc.2.2.1, hc.2.2.2,
        decodeBytes_four n s0 s1 s2 s3 hc.1 (by omega) (by omega) (by omega) (by omega)
          hc.2.2.1 hc.2.2.2⟩)))
    · refine Or.inr (Or.inl ⟨h80, hbad (by omega) ?_⟩)
      simp only [hf, acceptRanges, Nat.reduceMod, Nat.reduceDiv, Nat.reduceLeDiff, if_true,
        if_false, Nat.one_ne_zero, OfNat.ofNat_ne_zero, Nat.reduceEqDiff]
      omega


theorem byteAt_zero (c : Char) (t : Str) : byteAt (c :: t) 0 = c.toNat := rfl

theorem byteAt_succ (c : Char) (t : Str) (i : Nat) : byteAt (c :: t) (i + 1) = byteAt t i := rfl

theorem byteAt_append (a t : Str) (i : Nat) (h : i < a.length) :
    byteAt (a ++ t) i = byteAt a i := by
  unfold byteAt
  rw [List.getD_append _ _ _ _ h]

theorem three_byte_space (s0 s1 s2 r : Nat) (h0 : 0xE0 ≤ s0 ∧ s0 < 0xF0)
    (h1 : 0x80 ≤ s1 ∧ s1 ≤ 0xBF) (hE0 : s0 = 0xE0 → 0xA0 ≤ s1) (h2 : 0x80 ≤ s2 ∧ s2 ≤ 0xBF)
    (hr : r = s0 % 16 * 4096 + s1 % 64 * 64 + s2 % 64)
    (hs : (9 ≤ r ∧ r ≤ 13) ∨ r = 0x20 ∨ r = 0x85 ∨ r = 0xA0 ∨ r = 0x1680 ∨
        (0x2000 ≤ r ∧ r ≤ 0x200A) ∨ r = 0x2028 ∨ r = 0x2029 ∨ r = 0x202F ∨ r = 0x205F ∨
        r = 0x3000) :
    [s0, s1, s2] ∈ spaceCodes := by
  obtain ⟨a, ha⟩ : ∃ a, s0 = 0xE0 + a := ⟨s0 - 0xE0, by omega⟩
  obtain ⟨b, hb⟩ : ∃ b, s1 = 0x80 + b := ⟨s1 - 0x80, by omega⟩
  obtain ⟨c, hc⟩ : ∃ c, s2 = 0x80 + c := ⟨s2 - 0x80, by omega⟩
  have ea : s0 % 16 = a := by omega
  have eb : s1 % 64 = b := by omega
  have ec : s2 % 64 = c := by omega
  rw [ea, eb, ec] at hr
  have la : a < 16 := by omega
  have lb : b < 64 := by omega
  have lc : c < 64 := by omega
  have hb0 : a = 0 → 32 ≤ b := by omega
  clear ea eb ec h0 h1 h2 hE0
  subst ha hb hc hr
  apply spaceCodes_three
  rcases hs with h | h | h | h | h | h | h | h | h | h | h
  · exfalso; omega
  · exfalso; omega
  · exfalso; omega
  · exfalso; omega
  · exact Or.inl (by omega)
  · have : a = 2 ∧ b = 0 ∧ c ≤ 10 := by omega
    exact Or.inr (Or.inl ⟨by omega, by omega, Or.inl (by omega)⟩)
  · have : a = 2 ∧ b = 0 ∧ c = 0x28 := by omega
    exact Or.inr (Or.inl ⟨by omega, by omega, Or.inr (Or.inl (by omega))⟩)
  · have : a = 2 ∧ b = 0 ∧ c = 0x29 := by omega
    exact Or.inr (Or.inl ⟨by omega, by omega, Or.inr (Or.inr (Or.inl (by omega)))⟩)
  · have : a = 2 ∧ b = 0 ∧ c = 0x2F := by omega
    exact Or.inr (Or.inl ⟨by omega, by omega, Or.inr (Or.inr (Or.inr (by omega)))⟩)
  · exact Or.inr (Or.inr (Or.inl (by omega)))
  · exact Or.inr (Or.inr (Or.inr (by omega)))

/-- A white space rune that `decodeBytes` returns comes from one of the
encodings of white space. -/
theorem decodeBytes_space (n s0 s1 s2 s3 : Nat)
    (hs : unicode.IsSpace (decodeBytes n s0 s1 s2 s3).1 = true) :
    (decodeBytes n s0 s1 s2 s3).2 ≤ n ∧
      (((decodeBytes n s0 s1 s2 s3).2 = 1 ∧ [s0] ∈ spaceCodes) ∨
        ((decodeBytes n s0 s1 s2 s3).2 = 2 ∧ [s0, s1] ∈ spaceCodes) ∨
        ((decodeBytes n s0 s1 s2 s3).2 = 3 ∧ [s0, s1, s2] ∈ spaceCodes)) := by
  rw [unicode.IsSpace_iff] at hs
  by_cases hn : n < 1
  · exfalso
    unfold decodeBytes at hs
    rw [if_pos hn] at hs
    simp only [RuneError] at hs
    omega
  rcases decodeBytes_cases n s0 s1 s2 s3 (by omega) with h | h | h | h | h
  · obtain ⟨h0, h⟩ := h
    rw [h] at hs ⊢
    exact ⟨by show 1 ≤ n; omega, Or.inl ⟨rfl, spaceCodes_one _ (by simp only at hs; omega)⟩⟩
  · obtain ⟨h0, h⟩ := h
    rw [h] at hs
    simp only [RuneError] at hs
    exfalso; omega
  · obtain ⟨hn2, h0, h1, h⟩ := h
    rw [h] at hs ⊢
    simp only at hs
    refine ⟨hn2, Or.inr (Or.inl ⟨rfl, spaceCodes_two _ _ ?_⟩)⟩
    obtain ⟨a, ha⟩ : ∃ a, s0 = 0xC0 + a := ⟨s0 - 0xC0, by omega⟩
    obtain ⟨b, hb⟩ : ∃ b, s1 = 0x80 + b := ⟨s1 - 0x80, by omega⟩
    have ea : s0 % 32 = a := by omega
    have eb : s1 % 64 = b := by omega
    rw [ea, eb] at hs
    have la : 2 ≤ a ∧ a < 32 := by omega
    have lb : b < 64 := by omega
    clear ea eb h0 h1 h
    subst ha hb
    have hr : a * 64 + b = 0x85 ∨ a * 64 + b = 0xA0 := by
      have hb2 : 128 ≤ a * 64 + b ∧ a * 64 + b < 2048 := by omega
      generalize a * 64 + b = r at hs hb2 ⊢
      omega
    rcases hr with hr | hr
    · exact ⟨by omega, Or.inl (by omega)⟩
    · exact ⟨by omega, Or.inr (by omega)⟩
  · obtain ⟨hn3, h0, h1, hE0, hED, h2, h⟩ := h
    rw [h] at hs ⊢
    simp only at hs
    exact ⟨hn3, Or.inr (Or.inr ⟨rfl, three_byte_space s0 s1 s2 _ h0 h1 hE0 h2 rfl hs⟩)⟩
  · obtain ⟨hn4, h0, h1, hF0, hF4, h2, h3, h⟩ := h
    rw [h] at hs
    simp only at hs
    exfalso
    have hbig : 0x10000 ≤ s0 % 8 * 262144 + s1 % 64 * 4096 + s2 % 64 * 64 + s3 % 64 := by
      omega
    generalize s0 % 8 * 262144 + s1 % 64 * 4096 + s2 % 64 * 64 + s3 % 64 = r at hs hbig
    omega


/-- A white space rune at the start of a string is there in one of the
encodings of white space, and its width is the length of the encoding. -/
theorem DecodeRuneInString_space (s : Str)
    (hs : unicode.IsSpace (DecodeRuneInString s).1 = true) :
    ∃ e t, e ∈ spaceEncodings ∧ s = e ++ t ∧ (DecodeRuneInString s).2 = e.length := by
  obtain ⟨hle, h⟩ := decodeBytes_space s.length (byteAt s 0) (byteAt s 1) (byteAt s 2)
    (byteAt s 3) hs
  change (DecodeRuneInString s).2 ≤ s.length at hle
  change ((DecodeRuneInString s).2 = 1 ∧ _) ∨ ((DecodeRuneInString s).2 = 2 ∧ _) ∨
    ((DecodeRuneInString s).2 = 3 ∧ _) at h
  rcases h with ⟨hsz, hm⟩ | ⟨hsz, hm⟩ | ⟨hsz, hm⟩
  · rw [hsz] at hle ⊢
    match s, hle, hm with
    | c0 :: t, _, hm => exact ⟨[c0], t, mem_spaceEncodings _ hm, rfl, rfl⟩
  · rw [hsz] at hle ⊢
    match s, hle, hm with
    | c0 :: c1 :: t, _, hm => exact ⟨[c0, c1], t, mem_spaceEncodings _ hm, rfl, rfl⟩
  · rw [hsz] at hle ⊢
    match s, hle, hm with
    | c0 :: c1 :: c2 :: t, _, hm => exact ⟨[c0, c1, c2], t, mem_spaceEncodings _ hm, rfl, rfl⟩

theorem decodeBytes_width_one (n s0 s1 s2 s3 : Nat) (hn : 1 ≤ n)
    (h : n < 2 ∨ s1 < 0x80 ∨ 0xBF < s1) : (decodeBytes n s0 s1 s2 s3).2 = 1 := by
  rcases decodeBytes_cases n s0 s1 s2 s3 hn with h1 | h1 | h1 | h1 | h1
  · rw [h1.2]
  · rw [h1.2]
  · exfalso; omega
  · exfalso; omega
  · exfalso; omega

/-- The decoder reads no further than the rune it returns: a string that is one
rune of two bytes or more decodes the same with anything after it. -/
theorem decodeBytes_ext (n m s0 s1 s2 s3 t1 t2 t3 : Nat) (hn : 1 ≤ n) (hm : n ≤ m)
    (hfull : (decodeBytes n s0 s1 s2 s3).2 = n) (h2 : 2 ≤ n)
    (e1 : t1 = s1) (e2 : 3 ≤ n → t2 = s2) (e3 : 4 ≤ n → t3 = s3) :
    decodeBytes m s0 t1 t2 t3 = decodeBytes n s0 s1 s2 s3 := by
  subst e1
  rcases decodeBytes_cases n s0 t1 s2 s3 hn with h1 | h1 | h1 | h1 | h1
  · rw [h1.2] at hfull; simp only at hfull; omega
  · rw [h1.2] at hfull; simp only at hfull; omega
  · obtain ⟨_, a0, a1, h⟩ := h1
    rw [h, decodeBytes_two m s0 t1 t2 t3 (by omega) a0 a1]
  · obtain ⟨_, a0, a1, aE0, aED, a2, h⟩ := h1
    rw [h] at hfull ⊢
    simp only at hfull
    rw [e2 (by omega), decodeBytes_three m s0 t1 s2 t3 (by omega) a0 a1 aE0 aED a2]
  · obtain ⟨_, a0, a1, aF0, aF4, a2, a3, h⟩ := h1
    rw [h] at hfull ⊢
    simp only at hfull
    rw [e2 (by omega), e3 (by omega),
      decodeBytes_four m s0 t1 s2 s3 (by omega) a0 a1 aF0 aF4 a2 a3]

theorem DecodeRuneInString_append (a t : Str) (hfull : (DecodeRuneInString a).2 = a.length)
    (h2 : 2 ≤ a.length) : DecodeRuneInString (a ++ t) = DecodeRuneInString a := by
  unfold DecodeRuneInString at hfull ⊢
  rw [byteAt_append a t 0 (by omega)]
  apply decodeBytes_ext a.length (a ++ t).length _ _ _ _ _ _ _ (by omega)
    (by rw [List.length_append]; omega) hfull h2
  · exact byteAt_append a t 1 (by omega)
  · intro h; exact byteAt_append a t 2 (by omega)
  · intro h; exact byteAt_append a t 3 (by omega)

theorem DecodeRuneInString_ascii (c : Char) (t : Str) (h : c.toNat < 0x80) :
    DecodeRuneInString (c :: t) = (c.toNat, 1) := by
  unfold DecodeRuneInString
  exact decodeBytes_one _ _ _ _ _ (by simp) h

/-- An encoding of white space at the start of a string decodes to a white
space rune, with the length of the encoding as the width. -/
theorem DecodeRuneInString_of_space (e t : Str) (he : e ∈ spaceEncodings) :
    unicode.IsSpace (DecodeRuneInString (e ++ t)).1 = true ∧
      (DecodeRuneInString (e ++ t)).2 = e.length := by
  have hall : ∀ e ∈ spaceEncodings,
      unicode.IsSpace (DecodeRuneInString e).1 = true ∧ (DecodeRuneInString e).2 = e.length ∧
        ((2 ≤ e.length) ∨ (e.length = 1 ∧ byteAt e 0 < 0x80)) := by
    decide
  obtain ⟨h1, h2, h3⟩ := hall e he
  rcases h3 with h3 | ⟨hl, h3⟩
  · rw [DecodeRuneInString_append e t h2 h3]
    exact ⟨h1, h2⟩
  · match e, hl, h1, h3 with
    | [c], _, h1, h3 =>
      rw [DecodeRuneInString_ascii c [] h3] at h1
      show unicode.IsSpace (DecodeRuneInString (c :: t)).1 = true ∧
        (DecodeRuneInString (c :: t)).2 = 1
      rw [DecodeRuneInString_ascii c t h3]
      exact ⟨h1, rfl⟩


theorem byteAt_append_right (u e : Str) (i : Nat) :
    byteAt (u ++ e) (u.length + i) = byteAt e i := by
  unfold byteAt
  rw [List.getD_append_right _ _ _ _ (by omega)]
  simp

theorem lastStart_le (s : Str) (lim k : Nat) : lastStart s lim k ≤ k := by
  induction k with
  | zero => simp [lastStart]
  | succ k ih =>
    unfold lastStart
    split_ifs
    · exact Nat.le_refl _
    · omega
    · exact Nat.le_refl _

/-- The loop of `DecodeLastRuneInString` stops at the first byte of an encoding
when the bytes after it are continuation bytes. -/
theorem lastStart_found (s : Str) (lim k j : Nat) (hl : lim ≤ k)
    (hk : RuneStart (byteAt s k) = true)
    (hj : ∀ i, k < i → i ≤ k + j → RuneStart (byteAt s i) = false) :
    lastStart s lim (k + j + 1) = k + 1 := by
  induction j with
  | zero =>
    show lastStart s lim (k + 1) = k + 1
    unfold lastStart
    rw [if_pos hl, if_pos hk]
  | succ j ih =>
    show lastStart s lim ((k + j + 1) + 1) = k + 1
    unfold lastStart
    rw [if_pos (by omega), if_neg (by rw [hj (k + j + 1) (by omega) (by omega)]; decide)]
    exact ih (fun i h1 h2 => hj i h1 (by omega))

theorem DecodeLastRuneInString_ascii (u : Str) (c : Char) (h : c.toNat < 0x80) :
    DecodeLastRuneInString (u ++ [c]) = (c.toNat, 1) := by
  unfold DecodeLastRuneInString
  have hb : byteAt (u ++ [c]) ((u ++ [c]).length - 1) = c.toNat := by
    have : (u ++ [c]).length - 1 = u.length + 0 := by simp
    rw [this, byteAt_append_right]
    rfl
  simp only [hb, RuneSelf]
  rw [if_neg (by simp), if_pos h]

/-- The last rune of a string that ends with a rune of two to four bytes: the
first byte starts a rune, the others do not. -/
theorem DecodeLastRuneInString_of_valid (u e : Str) (h2 : 2 ≤ e.length ∧ e.length ≤ 4)
    (h0 : RuneStart (byteAt e 0) = true)
    (ht : ∀ i, 0 < i → i < e.length → RuneStart (byteAt e i) = false)
    (hlast : 0x80 ≤ byteAt e (e.length - 1))
    (hfull : (DecodeRuneInString e).2 = e.length) :
    DecodeLastRuneInString (u ++ e) = DecodeRuneInString e := by
  unfold DecodeLastRuneInString
  have hlen : (u ++ e).length = u.length + e.length := List.length_append _ _
  have hb : byteAt (u ++ e) ((u ++ e).length - 1) = byteAt e (e.length - 1) := by
    have : (u ++ e).length - 1 = u.length + (e.length - 1) := by omega
    rw [this, byteAt_append_right]
  have hs : lastStart (u ++ e) ((u ++ e).length - UTFMax) ((u ++ e).length - 1) = u.length + 1 := by
    have : (u ++ e).length - 1 = u.length + (e.length - 2) + 1 := by omega
    rw [this]
    apply lastStart_found
    · unfold UTFMax; omega
    · have := byteAt_append_right u e 0
      rw [Nat.add_zero] at this
      rw [this]; exact h0
    · intro i hi1 hi2
      have : i = u.length + (i - u.length) := by omega
      rw [this, byteAt_append_right]
      exact ht _ (by omega) (by omega)
  simp only [hb, hs, RuneSelf, List.take_length, Nat.add_sub_cancel, List.drop_left]
  rw [if_neg (by omega), if_neg (by omega), if_neg (by rw [hfull]; omega)]

/-- An encoding of white space at the end of a string decodes, from the end, to
a white space rune, with the length of the encoding as the width. -/
theorem DecodeLastRuneInString_of_space (u e : Str) (he : e ∈ spaceEncodings) :
    unicode.IsSpace (DecodeLastRuneInString (u ++ e)).1 = true ∧
      (DecodeLastRuneInString (u ++ e)).2 = e.length := by
  have hall : ∀ e ∈ spaceEncodings,
      unicode.IsSpace (DecodeRuneInString e).1 = true ∧ (DecodeRuneInString e).2 = e.length ∧
        ((e.length = 1 ∧ byteAt e 0 < 0x80) ∨
          ((2 ≤ e.length ∧ e.length ≤ 4) ∧ RuneStart (byteAt e 0) = true ∧
            (∀ i, i < 4 → 0 < i → i < e.length → RuneStart (byteAt e i) = false) ∧
            0x80 ≤ byteAt e (e.length - 1))) := by
    decide
  obtain ⟨h1, h2, h3⟩ := hall e he
  rcases h3 with ⟨hl, h3⟩ | ⟨hl, h3, h4, h5⟩
  · match e, hl, h1, h3 with
    | [c], _, h1, h3 =>
      rw [DecodeRuneInString_ascii c [] h3] at h1
      rw [DecodeLastRuneInString_ascii u c h3]
      exact ⟨h1, rfl⟩
  · rw [DecodeLastRuneInString_of_valid u e hl h3 (fun i a b => h4 i (by omega) a b) h5 h2]
    exact ⟨h1, h2⟩


theorem DecodeRuneInString_width (s : Str) (h : s ≠ []) :
    1 ≤ (DecodeRuneInString s).2 ∧ (DecodeRuneInString s).2 ≤ s.length := by
  have hn : 1 ≤ s.length := by
    cases s with
    | nil => exact absurd rfl h
    | cons c t => simp
  unfold DecodeRuneInString
  rcases decodeBytes_cases s.length (byteAt s 0) (byteAt s 1) (byteAt s 2) (byteAt s 3) hn with
    h1 | h1 | h1 | h1 | h1
  · rw [h1.2]; exact ⟨Nat.le_refl _, hn⟩
  · rw [h1.2]; exact ⟨Nat.le_refl _, hn⟩
  · rw [h1.2.2.2]; exact ⟨by show 1 ≤ 2; omega, h1.1⟩
  · rw [h1.2.2.2.2.2.2]; exact ⟨by show 1 ≤ 3; omega, h1.1⟩
  · rw [h1.2.2.2.2.2.2.2]; exact ⟨by show 1 ≤ 4; omega, h1.1⟩

theorem DecodeRuneInString_lead (s : Str) (h : 2 ≤ (DecodeRuneInString s).2) :
    0x80 ≤ byteAt s 0 := by
  have hn : 1 ≤ s.length := by
    cases s with
    | nil => revert h; decide
    | cons c t => simp
  unfold DecodeRuneInString at h
  rcases decodeBytes_cases s.length (byteAt s 0) (byteAt s 1) (byteAt s 2) (byteAt s 3) hn with
    h1 | h1 | h1 | h1 | h1
  · rw [h1.2] at h; simp at h
  · exact h1.1
  · omega
  · omega
  · omega

/-- What `DecodeLastRuneInString` returns on a string `a ++ [c]`: the byte `c`
if it is ASCII; else the rune that `DecodeRuneInString` finds in some last
bytes that are that one rune; else the error rune with the width one. -/
theorem DecodeLastRuneInString_cases (a : Str) (c : Char) :
    (c.toNat < 0x80 ∧ DecodeLastRuneInString (a ++ [c]) = (c.toNat, 1)) ∨
    (0x80 ≤ c.toNat ∧ DecodeLastRuneInString (a ++ [c]) = (RuneError, 1)) ∨
    (0x80 ≤ c.toNat ∧ ∃ u e, a ++ [c] = u ++ e ∧ e ≠ [] ∧
      DecodeLastRuneInString (a ++ [c]) = DecodeRuneInString e ∧
      (DecodeRuneInString e).2 = e.length) := by
  by_cases hc : c.toNat < 0x80
  · exact Or.inl ⟨hc, DecodeLastRuneInString_ascii a c hc⟩
  · right
    have hb : byteAt (a ++ [c]) ((a ++ [c]).length - 1) = c.toNat := by
      have : (a ++ [c]).length - 1 = a.length + 0 := by simp
      rw [this, byteAt_append_right]
      rfl
    have hlen : (a ++ [c]).length = a.length + 1 := by simp
    generalize hst : lastStart (a ++ [c]) ((a ++ [c]).length - UTFMax) ((a ++ [c]).length - 1) - 1
      = start
    have hstart : start < (a ++ [c]).length := by
      have := lastStart_le (a ++ [c]) ((a ++ [c]).length - UTFMax) ((a ++ [c]).length - 1)
      omega
    have hdl : DecodeLastRuneInString (a ++ [c]) =
        if start + (DecodeRuneInString ((a ++ [c]).drop start)).2 ≠ (a ++ [c]).length then
          (RuneError, 1)
        else DecodeRuneInString ((a ++ [c]).drop start) := by
      unfold DecodeLastRuneInString
      simp only [hb, RuneSelf, List.take_length, hst]
      rw [if_neg (by omega), if_neg hc]
    by_cases hfit : start + (DecodeRuneInString ((a ++ [c]).drop start)).2 ≠ (a ++ [c]).length
    · rw [if_pos hfit] at hdl
      exact Or.inl ⟨by omega, hdl⟩
    · rw [if_neg hfit] at hdl
      refine Or.inr ⟨by omega, (a ++ [c]).take start, (a ++ [c]).drop start,
        (List.take_append_drop _ _).symm, ?_, hdl, ?_⟩
      · intro h
        have := congrArg List.length h
        simp only [List.length_drop, List.length_nil] at this
        omega
      · simp only [List.length_drop]
        omega

/-- A white space rune at the end of a string is there in one of the encodings
of white space, and its width is the length of the encoding. -/
theorem DecodeLastRuneInString_space (s : Str)
    (hs : unicode.IsSpace (DecodeLastRuneInString s).1 = true) :
    ∃ u e, e ∈ spaceEncodings ∧ s = u ++ e ∧ (DecodeLastRuneInString s).2 = e.length := by
  rcases List.eq_nil_or_concat s with h | ⟨a, c, h⟩
  · subst h
    exact absurd hs (by decide)
  · rw [List.concat_eq_append] at h
    subst h
    rcases DecodeLastRuneInString_cases a c with ⟨hc, h⟩ | ⟨hc, h⟩ | ⟨hc, u, e, h1, h2, h3, h4⟩
    · rw [h] at hs ⊢
      have := DecodeRuneInString_ascii c [] hc
      obtain ⟨e, t, he, het, hsz⟩ := DecodeRuneInString_space [c] (by rw [this]; exact hs)
      rw [this] at hsz
      have : e = [c] := by
        cases e with
        | nil => simp at hsz
        | cons x xs =>
          cases xs with
          | nil => simp at het; rw [het.1]
          | cons y ys => simp at hsz
      subst this
      exact ⟨a, [c], he, rfl, rfl⟩
    · rw [h] at hs
      exact absurd hs (by decide)
    · rw [h3] at hs ⊢
      obtain ⟨e1, t, he, het, hsz⟩ := DecodeRuneInString_space e hs
      have : t = [] := by
        have := congrArg List.length het
        rw [List.length_append] at this
        exact List.length_eq_zero.mp (by omega)
      subst this
      rw [List.append_nil] at het
      subst het
      exact ⟨u, e, he, h1, h4⟩

end utf8

theorem spaceEncodings_ne_nil (e : Str) (he : e ∈ spaceEncodings) : e ≠ [] := by
  have hall : ∀ e ∈ spaceEncodings, e ≠ [] := by decide
  exact hall e he

theorem spaceEncodings_length (e : Str) (he : e ∈ spaceEncodings) : 1 ≤ e.length := by
  have hall : ∀ e ∈ spaceEncodings, 1 ≤ e.length := by decide
  exact hall e he

theorem whiteSpace_nil : whiteSpace [] := ⟨[], by simp, rfl⟩

theorem whiteSpace_cons (e t : Str) (he : e ∈ spaceEncodings) (ht : whiteSpace t) :
    whiteSpace (e ++ t) := by
  obtain ⟨parts, hp, rfl⟩ := ht
  refine ⟨e :: parts, ?_, rfl⟩
  intro p hmem
  rcases List.mem_cons.mp hmem with h | h
  · rw [h]; exact he
  · exact hp p h

theorem whiteSpace_one (e : Str) (he : e ∈ spaceEncodings) : whiteSpace e := by
  have := whiteSpace_cons e [] he whiteSpace_nil
  rwa [List.append_nil] at this

theorem whiteSpace_append (a b : Str) (ha : whiteSpace a) (hb : whiteSpace b) :
    whiteSpace (a ++ b) := by
  obtain ⟨parts, hp, rfl⟩ := ha
  induction parts with
  | nil => exact hb
  | cons e ps ih =>
    show whiteSpace (e ++ concatChunks ps ++ b)
    rw [List.append_assoc]
    exact whiteSpace_cons e _ (hp e (List.mem_cons_self _ _))
      (ih (fun p h => hp p (List.mem_cons_of_mem _ h)))

/-- White space starts with no continuation byte. -/
theorem whiteSpace_head (s : Str) (h : whiteSpace s) :
    s = [] ∨ ∃ c t, s = c :: t ∧ (c.toNat < 0x80 ∨ 0xBF < c.toNat) := by
  obtain ⟨parts, hp, rfl⟩ := h
  induction parts with
  | nil => exact Or.inl rfl
  | cons e ps ih =>
    right
    have hall : ∀ e ∈ spaceEncodings, utf8.byteAt e 0 < 0x80 ∨ 0xBF < utf8.byteAt e 0 := by decide
    have he := hp e (List.mem_cons_self _ _)
    have h1 := hall e he
    have h2 := spaceEncodings_ne_nil e he
    cases e with
    | nil => exact absurd rfl h2
    | cons c t => exact ⟨c, t ++ concatChunks ps, rfl, h1⟩

namespace strings

theorem asciiSpace_mem (c : Char) (h : asciiSpace c.toNat = true) : [c] ∈ spaceEncodings := by
  apply mem_spaceEncodings
  apply spaceCodes_one
  unfold asciiSpace at h
  simp only [Bool.decide_or, Bool.or_eq_true, decide_eq_true_eq] at h
  omega

/-- The loop of `indexFunc` over the runes of `rest` passes white space and
stops at the first rune that is none. -/
theorem indexFunc_space (fuel i : Nat) (rest : Str) (hf : rest.length ≤ fuel) :
    (indexFunc unicode.IsSpace false fuel i rest = none ∧ whiteSpace rest) ∨
    (∃ pre t, rest = pre ++ t ∧ whiteSpace pre ∧ t ≠ [] ∧
      unicode.IsSpace (utf8.DecodeRuneInString t).1 = false ∧
      indexFunc unicode.IsSpace false fuel i rest = some (i + pre.length)) := by
  induction fuel generalizing i rest with
  | zero =>
    have : rest = [] := List.length_eq_zero.mp (by omega)
    subst this
    exact Or.inl ⟨rfl, whiteSpace_nil⟩
  | succ fuel ih =>
    by_cases hr : rest = []
    · subst hr
      exact Or.inl ⟨rfl, whiteSpace_nil⟩
    · unfold indexFunc
      rw [if_neg hr]
      by_cases hsp : unicode.IsSpace (utf8.DecodeRuneInString rest).1 = false
      · simp only [hsp, if_true]
        exact Or.inr ⟨[], rest, rfl, whiteSpace_nil, hr, hsp, rfl⟩
      · have hsp1 : unicode.IsSpace (utf8.DecodeRuneInString rest).1 = true := by
          simpa using hsp
        obtain ⟨e, t, he, het, hsz⟩ := utf8.DecodeRuneInString_space rest hsp1
        simp only [hsp1, Bool.true_eq_false, if_false, hsz]
        have hdrop : rest.drop e.length = t := by rw [het, List.drop_left]
        rw [hdrop]
        have hlen : t.length ≤ fuel := by
          have := congrArg List.length het
          rw [List.length_append] at this
          have := spaceEncodings_length e he
          omega
        rcases ih (i + e.length) t hlen with ⟨h1, h2⟩ | ⟨pre, t1, h1, h2, h3, h4, h5⟩
        · exact Or.inl ⟨h1, by rw [het]; exact whiteSpace_cons e t he h2⟩
        · refine Or.inr ⟨e ++ pre, t1, by rw [het, h1, List.append_assoc],
            whiteSpace_cons e pre he h2, h3, h4, ?_⟩
          rw [h5, List.length_append, Nat.add_assoc]

theorem indexFunc_whiteSpace (parts : List Str) (hp : ∀ p ∈ parts, p ∈ spaceEncodings)
    (fuel i : Nat) (hf : (concatChunks parts).length ≤ fuel) :
    indexFunc unicode.IsSpace false fuel i (concatChunks parts) = none := by
  induction parts generalizing fuel i with
  | nil => cases fuel <;> rfl
  | cons e ps ih =>
    have he := hp e (List.mem_cons_self _ _)
    have h1 := spaceEncodings_length e he
    have hlen : (concatChunks (e :: ps)).length = e.length + (concatChunks ps).length :=
      List.length_append _ _
    cases fuel with
    | zero => omega
    | succ fuel =>
      obtain ⟨h2, h3⟩ := utf8.DecodeRuneInString_of_space e (concatChunks ps) he
      have hne : concatChunks (e :: ps) ≠ [] := by
        intro h
        exact spaceEncodings_ne_nil e he (List.append_eq_nil.mp h).1
      unfold indexFunc
      rw [if_neg hne]
      show (if unicode.IsSpace (utf8.DecodeRuneInString (e ++ concatChunks ps)).1 = false then _
        else indexFunc unicode.IsSpace false fuel
          (i + (utf8.DecodeRuneInString (e ++ concatChunks ps)).2)
          ((e ++ concatChunks ps).drop (utf8.DecodeRuneInString (e ++ concatChunks ps)).2)) = none
      rw [h2, h3, if_neg (by decide), List.drop_left]
      exact ih (fun p h => hp p (List.mem_cons_of_mem _ h)) fuel _ (by omega)

/-- The string `TrimLeftFunc(s, unicode.IsSpace)` is `s` after some white space,
and starts with no white space rune. -/
theorem TrimLeftFunc_space (s : Str) :
    ∃ pre, s = pre ++ TrimLeftFunc s unicode.IsSpace ∧ whiteSpace pre ∧
      unicode.IsSpace (utf8.DecodeRuneInString (TrimLeftFunc s unicode.IsSpace)).1 = false := by
  unfold TrimLeftFunc
  rcases indexFunc_space s.length 0 s (Nat.le_refl _) with ⟨h1, h2⟩ | ⟨pre, t, h1, h2, h3, h4, h5⟩
  · rw [h1]
    exact ⟨s, by simp, h2, rfl⟩
  · rw [h5]
    simp only [Nat.zero_add]
    have : s.drop pre.length = t := by rw [h1, List.drop_left]
    rw [this]
    exact ⟨pre, h1, h2, h4⟩

theorem TrimLeftFunc_whiteSpace (s : Str) (h : whiteSpace s) :
    TrimLeftFunc s unicode.IsSpace = [] := by
  obtain ⟨parts, hp, rfl⟩ := h
  unfold TrimLeftFunc
  rw [indexFunc_whiteSpace parts hp _ 0 (Nat.le_refl _)]

end strings

namespace utf8

/-- A byte that is not ASCII, followed by white space, is decoded as one byte
unless the white space completes it; it never does after a rune found from the
end. -/
theorem DecodeRuneInString_before_space (c : Char) (post : Str) (hp : whiteSpace post) :
    (DecodeRuneInString (c :: post)).2 = 1 := by
  unfold DecodeRuneInString
  apply decodeBytes_width_one _ _ _ _ _ (by simp)
  rcases whiteSpace_head post hp with h | ⟨c1, t, h, hc⟩
  · subst h; left; simp
  · subst h; right; exact hc

/-- The step of `TrimRightFunc` after `lastIndexFunc`: from the index where the
last rune of `a` starts, the width of the rune read forwards in `a ++ post`,
for white space `post`, leads to the end of `a`. -/
theorem width_after_last (a post : Str) (ha : a ≠ []) (hp : whiteSpace post) :
    1 ≤ (DecodeLastRuneInString a).2 ∧ (DecodeLastRuneInString a).2 ≤ a.length ∧
    (if RuneSelf ≤ byteAt (a ++ post) (a.length - (DecodeLastRuneInString a).2) then
        a.length - (DecodeLastRuneInString a).2 +
          (DecodeRuneInString ((a ++ post).drop (a.length - (DecodeLastRuneInString a).2))).2
      else a.length - (DecodeLastRuneInString a).2 + 1) = a.length := by
  rcases List.eq_nil_or_concat a with h | ⟨a1, c, h⟩
  · exact absurd h ha
  rw [List.concat_eq_append] at h
  subst h
  have hlen : (a1 ++ [c]).length = a1.length + 1 := by simp
  have hbyte : byteAt (a1 ++ [c] ++ post) a1.length = c.toNat := by
    rw [List.append_assoc]
    have := byteAt_append_right a1 ([c] ++ post) 0
    rw [Nat.add_zero] at this
    rw [this]; rfl
  have hdrop : (a1 ++ [c] ++ post).drop a1.length = c :: post := by
    rw [List.append_assoc, List.drop_left]; rfl
  rcases DecodeLastRuneInString_cases a1 c with ⟨hc, h⟩ | ⟨hc, h⟩ | ⟨hc, u, e, h1, h2, h3, h4⟩
  · rw [h, hlen]
    simp only [Nat.add_sub_cancel, hbyte, RuneSelf]
    rw [if_neg (by omega)]
    exact ⟨Nat.le_refl _, by omega, rfl⟩
  · rw [h, hlen]
    simp only [Nat.add_sub_cancel, hbyte, RuneSelf, hdrop]
    rw [if_pos hc, DecodeRuneInString_before_space c post hp]
    exact ⟨Nat.le_refl _, by omega, rfl⟩
  · rw [h3, h4]
    have hw := DecodeRuneInString_width e h2
    have hl : (a1 ++ [c]).length = u.length + e.length := by rw [h1, List.length_append]
    have hk : (a1 ++ [c]).length - e.length = u.length := by omega
    rw [hk]
    refine ⟨hw.1.trans (Nat.le_of_eq h4), by omega, ?_⟩
    have hd : (a1 ++ [c] ++ post).drop u.length = e ++ post := by
      rw [h1, List.append_assoc, List.drop_left]
    have hb : byteAt (a1 ++ [c] ++ post) u.length = byteAt e 0 := by
      rw [h1, List.append_assoc]
      have := byteAt_append_right u (e ++ post) 0
      rw [Nat.add_zero] at this
      rw [this]
      exact byteAt_append e post 0 (by omega)
    rw [hd, hb]
    by_cases h1e : e.length = 1
    · -- the rune is the last byte alone
      have hec : e = [c] := by
        match e, h1e with
        | [x], _ =>
          have := congrArg List.getLast? h1
          simp at this
          rw [this]
      subst hec
      have : byteAt [c] 0 = c.toNat := rfl
      rw [this, if_pos (by unfold RuneSelf; exact hc)]
      show u.length + (DecodeRuneInString (c :: post)).2 = _
      rw [DecodeRuneInString_before_space c post hp]
      omega
    · have h2e : 2 ≤ e.length := by omega
      have hlead := DecodeRuneInString_lead e (by omega)
      rw [if_pos (by unfold RuneSelf; exact hlead), DecodeRuneInString_append e post h4 h2e, h4]
      omega

end utf8

namespace strings

/-- The loop of `lastIndexFunc` over the runes of `s[0:i]`, from the last one,
passes white space and stops at the first rune that is none. -/
theorem lastIndexFunc_space (s : Str) (fuel i : Nat) (hi : i ≤ s.length) (hf : i ≤ fuel) :
    (lastIndexFunc unicode.IsSpace false s fuel i = none ∧ whiteSpace (s.take i)) ∨
    (∃ j, 0 < j ∧ j ≤ i ∧ whiteSpace ((s.take i).drop j) ∧
      unicode.IsSpace (utf8.DecodeLastRuneInString (s.take j)).1 = false ∧
      lastIndexFunc unicode.IsSpace false s fuel i =
        some (j - (utf8.DecodeLastRuneInString (s.take j)).2)) := by
  induction fuel generalizing i with
  | zero =>
    have : i = 0 := by omega
    subst this
    exact Or.inl ⟨rfl, whiteSpace_nil⟩
  | succ fuel ih =>
    by_cases h0 : 0 < i
    · unfold lastIndexFunc
      rw [if_pos h0]
      by_cases hsp : unicode.IsSpace (utf8.DecodeLastRuneInString (s.take i)).1 = false
      · simp only [hsp, if_true]
        refine Or.inr ⟨i, h0, Nat.le_refl _, ?_, hsp, rfl⟩
        have : (s.take i).drop i = [] := by
          apply List.drop_eq_nil_of_le
          simp
        rw [this]
        exact whiteSpace_nil
      · have hsp1 : unicode.IsSpace (utf8.DecodeLastRuneInString (s.take i)).1 = true := by
          simpa using hsp
        obtain ⟨u, e, he, hue, hsz⟩ := utf8.DecodeLastRuneInString_space (s.take i) hsp1
        simp only [hsp1, Bool.true_eq_false, if_false, hsz]
        have hlen : i = u.length + e.length := by
          have := congrArg List.length hue
          rw [List.length_append, List.length_take, Nat.min_eq_left hi] at this
          exact this
        have h1 := spaceEncodings_length e he
        have hk : i - e.length = u.length := by omega
        have htake : s.take u.length = u := by
          have : s.take u.length = (s.take i).take u.length := by
            rw [List.take_take, Nat.min_eq_left (by omega)]
          rw [this, hue, List.take_left]
        rw [hk]
        rcases ih u.length (by omega) (by omega) with ⟨h2, h3⟩ | ⟨j, j0, j1, h3, h4, h5⟩
        · refine Or.inl ⟨h2, ?_⟩
          rw [hue]
          rw [htake] at h3
          exact whiteSpace_append u e h3 (whiteSpace_one e he)
        · refine Or.inr ⟨j, j0, by omega, ?_, h4, h5⟩
          rw [hue, List.drop_append_of_le_length j1]
          rw [htake] at h3
          exact whiteSpace_append _ e h3 (whiteSpace_one e he)
    · have : i = 0 := by omega
      subst this
      refine Or.inl ⟨?_, whiteSpace_nil⟩
      unfold lastIndexFunc
      rw [if_neg h0]

/-- The string `TrimRightFunc(s, unicode.IsSpace)` is `s` before some white
space, and ends with no white space rune. -/
theorem TrimRightFunc_space (s : Str) :
    ∃ post, s = TrimRightFunc s unicode.IsSpace ++ post ∧ whiteSpace post ∧
      unicode.IsSpace (utf8.DecodeLastRuneInString (TrimRightFunc s unicode.IsSpace)).1 =
        false := by
  unfold TrimRightFunc
  rcases lastIndexFunc_space s s.length s.length (Nat.le_refl _) (Nat.le_refl _) with
    ⟨h1, h2⟩ | ⟨j, j0, j1, h2, h3, h4⟩
  · rw [h1]
    rw [List.take_length] at h2
    exact ⟨s, by simp, h2, rfl⟩
  · rw [h4]
    rw [List.take_length] at h2
    have hne : s.take j ≠ [] := by
      intro h
      have := congrArg List.length h
      rw [List.length_take, Nat.min_eq_left j1] at this
      simp at this
      omega
    obtain ⟨w1, w2, w3⟩ := utf8.width_after_last (s.take j) (s.drop j) hne h2
    rw [List.take_append_drop, List.length_take, Nat.min_eq_left j1] at w3
    have hres : (if utf8.RuneSelf ≤
          utf8.byteAt s (j - (utf8.DecodeLastRuneInString (s.take j)).2) then
        s.take (j - (utf8.DecodeLastRuneInString (s.take j)).2 +
          (utf8.DecodeRuneInString
            (s.drop (j - (utf8.DecodeLastRuneInString (s.take j)).2))).2)
        else s.take (j - (utf8.DecodeLastRuneInString (s.take j)).2 + 1)) = s.take j := by
      split_ifs with hb
      · rw [if_pos hb] at w3; rw [w3]
      · rw [if_neg hb] at w3; rw [w3]
    simp only [hres]
    exact ⟨s.drop j, (List.take_append_drop _ _).symm, h2, h3⟩


/-- A string whose first rune is not white space starts with no encoding of
white space. -/
theorem no_space_first (t : Str) (h : unicode.IsSpace (utf8.DecodeRuneInString t).1 = false) :
    ∀ e ∈ spaceEncodings, ¬ e <+: t := by
  intro e he hpre
  obtain ⟨u, hu⟩ := hpre
  rw [← hu, (utf8.DecodeRuneInString_of_space e u he).1] at h
  cases h

/-- A string whose last rune is not white space ends with no encoding of white
space. -/
theorem no_space_last (t : Str) (h : unicode.IsSpace (utf8.DecodeLastRuneInString t).1 = false) :
    ∀ e ∈ spaceEncodings, ¬ e <:+ t := by
  intro e he hsuf
  obtain ⟨u, hu⟩ := hsuf
  rw [← hu, (utf8.DecodeLastRuneInString_of_space u e he).1] at h
  cases h

/-- The second loop of `TrimSpace`: what it leaves is the string before some
white space, and ends with no encoding of white space. -/
theorem trimSpaceStop_space (r : Str) :
    ∃ post, r.reverse = (trimSpaceStop r).reverse ++ post ∧ whiteSpace post ∧
      ∀ e ∈ spaceEncodings, ¬ e <:+ (trimSpaceStop r).reverse := by
  induction r with
  | nil =>
    refine ⟨[], rfl, whiteSpace_nil, ?_⟩
    intro e he hsuf
    exact spaceEncodings_ne_nil e he (List.eq_nil_of_suffix_nil hsuf)
  | cons c front ih =>
    unfold trimSpaceStop
    by_cases h80 : utf8.RuneSelf ≤ c.toNat
    · rw [if_pos h80, List.reverse_reverse]
      obtain ⟨post, h1, h2, h3⟩ := TrimRightFunc_space (c :: front).reverse
      exact ⟨post, h1, h2, no_space_last _ h3⟩
    · rw [if_neg h80]
      by_cases hsp : asciiSpace c.toNat = true
      · rw [if_pos hsp]
        obtain ⟨post, h1, h2, h3⟩ := ih
        refine ⟨post ++ [c], ?_, whiteSpace_append _ _ h2 (whiteSpace_one _ (asciiSpace_mem c hsp)),
          h3⟩
        rw [List.reverse_cons, h1, List.append_assoc]
      · rw [if_neg hsp]
        refine ⟨[], by simp, whiteSpace_nil, ?_⟩
        intro e he hsuf
        have h25 : ∀ e ∈ spaceEncodings,
            (e.reverse.head?.map (fun x => asciiSpace x.toNat || decide (0x80 ≤ x.toNat))) =
              some true := by decide
        obtain ⟨u, hu⟩ := hsuf
        have hne := spaceEncodings_ne_nil e he
        have hrev : e.reverse ++ u.reverse = c :: front := by
          have := congrArg List.reverse hu
          rwa [List.reverse_append, List.reverse_reverse] at this
        have h1 := h25 e he
        cases hr : e.reverse with
        | nil => exact hne (List.reverse_eq_nil_iff.mp hr)
        | cons x xs =>
          rw [hr] at hrev h1
          simp only [List.cons_append, List.cons.injEq] at hrev
          rw [hrev.1] at h1
          simp only [List.head?_cons, Option.map_some', Option.some.injEq, Bool.or_eq_true,
            decide_eq_true_eq] at h1
          rcases h1 with h | h
          · exact hsp h
          · exact h80 h

/-- The string `TrimSpace(s)` is `s` without its leading and trailing white
space. -/
theorem TrimSpace_trimmed (s : Str) : Trimmed s (TrimSpace s) := by
  induction s with
  | nil =>
    refine ⟨[], [], rfl, whiteSpace_nil, whiteSpace_nil, ?_, ?_⟩
    · intro e he hpre
      exact spaceEncodings_ne_nil e he (List.eq_nil_of_prefix_nil hpre)
    · intro e he hsuf
      exact spaceEncodings_ne_nil e he (List.eq_nil_of_suffix_nil hsuf)
  | cons c rest ih =>
    unfold TrimSpace
    by_cases h80 : utf8.RuneSelf ≤ c.toNat
    · rw [if_pos h80]
      unfold TrimFunc
      obtain ⟨pre, h1, h2, h3⟩ := TrimLeftFunc_space (c :: rest)
      obtain ⟨post, h4, h5, h6⟩ := TrimRightFunc_space (TrimLeftFunc (c :: rest) unicode.IsSpace)
      refine ⟨pre, post, ?_, h2, h5, ?_, no_space_last _ h6⟩
      · rw [List.append_assoc, ← h4, ← h1]
      · intro e he hpre
        apply no_space_first _ h3 e he
        rw [h4]
        exact hpre.trans (List.prefix_append _ _)
    · rw [if_neg h80]
      by_cases hsp : asciiSpace c.toNat = true
      · rw [if_pos hsp]
        obtain ⟨pre, post, h1, h2, h3, h4, h5⟩ := ih
        refine ⟨[c] ++ pre, post, ?_, whiteSpace_cons _ _ (asciiSpace_mem c hsp) h2, h3, h4, h5⟩
        conv_lhs => rw [h1]
        simp
      · rw [if_neg hsp]
        obtain ⟨post, h1, h2, h3⟩ := trimSpaceStop_space (c :: rest).reverse
        rw [List.reverse_reverse] at h1
        refine ⟨[], post, by rw [List.nil_append]; exact h1, whiteSpace_nil, h2, ?_, h3⟩
        intro e he hpre
        have hall : ∀ e ∈ spaceEncodings,
            (e.head?.map (fun x => asciiSpace x.toNat || decide (0x80 ≤ x.toNat))) =
              some true := by decide
        have hpre2 : e <+: c :: rest := by
          rw [h1]
          exact hpre.trans (List.prefix_append _ _)
        obtain ⟨u, hu⟩ := hpre2
        have h25 := hall e he
        cases e with
        | nil => exact spaceEncodings_ne_nil _ he rfl
        | cons x xs =>
          simp only [List.cons_append, List.cons.injEq] at hu
          rw [hu.1] at h25
          simp only [List.head?_cons, Option.map_some', Option.some.injEq, Bool.or_eq_true,
            decide_eq_true_eq] at h25
          rcases h25 with h | h
          · exact hsp h
          · exact h80 h

/-- The string `TrimSpace(s)` is empty exactly when `s` is white space and
nothing else. -/
theorem TrimSpace_eq_nil (s : Str) : TrimSpace s = [] ↔ whiteSpace s := by
  constructor
  · intro h
    obtain ⟨pre, post, h1, h2, h3, _, _⟩ := TrimSpace_trimmed s
    rw [h, List.append_nil] at h1
    rw [h1]
    exact whiteSpace_append pre post h2 h3
  · intro h
    obtain ⟨parts, hp, hs⟩ := h
    induction parts generalizing s with
    | nil => subst hs; rfl
    | cons e ps ih =>
      have he := hp e (List.mem_cons_self _ _)
      have hps := fun p h => hp p (List.mem_cons_of_mem _ h)
      have hall : ∀ e ∈ spaceEncodings,
          (e.length = 1 ∧ asciiSpace (utf8.byteAt e 0) = true ∧ utf8.byteAt e 0 < 0x80) ∨
            0x80 ≤ utf8.byteAt e 0 := by decide
      have hne := spaceEncodings_ne_nil e he
      rcases hall e he with ⟨hl, hsp, hlt⟩ | h80
      · match e, hl, hsp, hlt with
        | [c], _, hsp, hlt =>
          subst hs
          show TrimSpace (c :: concatChunks ps) = []
          unfold TrimSpace
          have hsp1 : asciiSpace c.toNat = true := hsp
          have hlt1 : c.toNat < 0x80 := hlt
          rw [if_neg (by unfold utf8.RuneSelf; omega), if_pos hsp1]
          exact ih _ hps rfl
      · cases e with
        | nil => exact absurd rfl hne
        | cons c t =>
          have hws : whiteSpace s := ⟨(c :: t) :: ps, hp, hs⟩
          subst hs
          show TrimSpace (c :: (t ++ concatChunks ps)) = []
          have hc : utf8.RuneSelf ≤ c.toNat := h80
          unfold TrimSpace
          rw [if_pos hc]
          unfold TrimFunc
          have : TrimLeftFunc (c :: (t ++ concatChunks ps)) unicode.IsSpace = [] :=
            TrimLeftFunc_whiteSpace _ hws
          rw [this]
          rfl

/-- A string that starts and ends with ASCII bytes that are not white space is
left as it is. -/
theorem TrimSpace_of_ends (s : Str)
    (h1 : ∀ a t, s = a :: t → a.toNat < 0x80 ∧ asciiSpace a.toNat = false)
    (h2 : ∀ b u, s.reverse = b :: u → b.toNat < 0x80 ∧ asciiSpace b.toNat = false) :
    TrimSpace s = s := by
  cases s with
  | nil => rfl
  | cons a t =>
    obtain ⟨ha, hsa⟩ := h1 a t rfl
    unfold TrimSpace
    rw [if_neg (by unfold utf8.RuneSelf; omega), if_neg (by rw [hsa]; decide)]
    cases hr : (a :: t).reverse with
    | nil => simp at hr
    | cons b u =>
      obtain ⟨hb, hsb⟩ := h2 b u hr
      unfold trimSpaceStop
      rw [if_neg (by unfold utf8.RuneSelf; omega), if_neg (by rw [hsb]; decide), ← hr,
        List.reverse_reverse]

theorem TrimSpace_cons_space (v : Str) : TrimSpace (' ' :: v) = TrimSpace v := by
  show (if utf8.RuneSelf ≤ ' '.toNat then _ else if asciiSpace ' '.toNat = true then TrimSpace v
    else _) = _
  rw [if_neg (by decide), if_pos (by decide)]

end strings

/-! ## The loops over runes have rounds enough -/

namespace strings

/-- The loop of `indexFunc` needs no more rounds than the string has bytes:
with that many it gives what it gives with any more. -/
theorem indexFunc_enough (f : Nat → Bool) (truth : Bool) (fuel more i : Nat) (rest : Str)
    (h : rest.length ≤ fuel) :
    indexFunc f truth (fuel + more) i rest = indexFunc f truth fuel i rest := by
  induction fuel generalizing i rest with
  | zero =>
    have : rest = [] := List.length_eq_zero.mp (by omega)
    subst this
    cases more <;> rfl
  | succ fuel ih =>
    have e : fuel + 1 + more = (fuel + more) + 1 := by omega
    rw [e]
    unfold indexFunc
    by_cases hr : rest = []
    · rw [if_pos hr, if_pos hr]
    · rw [if_neg hr, if_neg hr]
      dsimp only
      have hw := utf8.DecodeRuneInString_width rest hr
      rw [ih (i + (utf8.DecodeRuneInString rest).2) (rest.drop (utf8.DecodeRuneInString rest).2)
        (by rw [List.length_drop]; omega)]

/-- The loop of `lastIndexFunc` needs no more rounds than the index it starts
from: with that many it gives what it gives with any more. -/
theorem lastIndexFunc_enough (f : Nat → Bool) (truth : Bool) (s : Str) (fuel more i : Nat)
    (hi : i ≤ s.length) (h : i ≤ fuel) :
    lastIndexFunc f truth s (fuel + more) i = lastIndexFunc f truth s fuel i := by
  induction fuel generalizing i with
  | zero =>
    have : i = 0 := by omega
    subst this
    cases more <;> rfl
  | succ fuel ih =>
    have e : fuel + 1 + more = (fuel + more) + 1 := by omega
    rw [e]
    unfold lastIndexFunc
    by_cases h0 : 0 < i
    · rw [if_pos h0, if_pos h0]
      dsimp only
      have hne : s.take i ≠ [] := by
        intro hn
        have := congrArg List.length hn
        rw [List.length_take, Nat.min_eq_left hi] at this
        simp at this
        omega
      obtain ⟨w1, _, _⟩ := utf8.width_after_last (s.take i) [] hne whiteSpace_nil
      rw [ih (i - (utf8.DecodeLastRuneInString (s.take i)).2) (by omega) (by omega)]
    · rw [if_neg h0, if_neg h0]

end strings

/-! ## The trimmed string is determined -/

/-- Of two strings that start the same string, one starts the other. -/
theorem append_eq_append_cases (a b x y : Str) (h : a ++ x = b ++ y) :
    (∃ d, b = a ++ d ∧ x = d ++ y) ∨ (∃ d, a = b ++ d ∧ y = d ++ x) := by
  rcases List.append_eq_append_iff.mp h with ⟨d, h1, h2⟩ | ⟨d, h1, h2⟩
  · exact Or.inl ⟨d, h1, h2⟩
  · exact Or.inr ⟨d, h1, h2⟩

/-- The bytes of an encoding of white space after the first are continuation
bytes, and the first is none. -/
theorem spaceEncodings_bytes (e : Str) (he : e ∈ spaceEncodings) (a b : Str) (c : Char)
    (h : e = a ++ c :: b) :
    (a = [] → c.toNat < 0x80 ∨ 0xBF < c.toNat) ∧ (a ≠ [] → 0x80 ≤ c.toNat ∧ c.toNat ≤ 0xBF) := by
  have hall : ∀ e ∈ spaceEncodings, ∀ i, i < 3 →
      (i = 0 → utf8.byteAt e 0 < 0x80 ∨ 0xBF < utf8.byteAt e 0) ∧
      (0 < i → i < e.length → 0x80 ≤ utf8.byteAt e i ∧ utf8.byteAt e i ≤ 0xBF) := by decide
  have hlen : ∀ e ∈ spaceEncodings, e.length ≤ 3 := by decide
  have hl := hlen e he
  have hb : utf8.byteAt e a.length = c.toNat := by
    rw [h]
    have := utf8.byteAt_append_right a (c :: b) 0
    rw [Nat.add_zero] at this
    rw [this]; rfl
  have hla : a.length < e.length := by rw [h]; simp
  obtain ⟨h1, h2⟩ := hall e he a.length (by omega)
  constructor
  · intro ha
    subst ha
    have := h1 rfl
    rw [← hb]
    exact this
  · intro ha
    have hpos : 0 < a.length := List.length_pos.mpr ha
    rw [← hb]
    exact h2 hpos hla

/-- What is left of white space after white space is white space. -/
theorem whiteSpace_of_append_left (a d : Str) (ha : whiteSpace a) (h : whiteSpace (a ++ d)) :
    whiteSpace d := by
  obtain ⟨parts, hp, rfl⟩ := ha
  induction parts with
  | nil => exact h
  | cons e ps ih =>
    apply ih (fun p hm => hp p (List.mem_cons_of_mem _ hm))
    have he := hp e (List.mem_cons_self _ _)
    obtain ⟨qs, hq, hqs⟩ := h
    have hne := spaceEncodings_ne_nil e he
    cases qs with
    | nil =>
      exfalso
      have : e = [] := by
        have h1 : e ++ (concatChunks ps ++ d) = [] := by
          rw [← List.append_assoc]; exact hqs
        exact (List.append_eq_nil.mp h1).1
      exact hne this
    | cons e2 qs =>
      have he2 := hq e2 (List.mem_cons_self _ _)
      have hfree : ∀ e ∈ spaceEncodings, ∀ e2 ∈ spaceEncodings, e <+: e2 → e = e2 := by decide
      have heq : e ++ (concatChunks ps ++ d) = e2 ++ concatChunks qs := by
        rw [← List.append_assoc]; exact hqs
      have hee : e = e2 := by
        rcases append_eq_append_cases e e2 _ _ heq with ⟨x, hx, _⟩ | ⟨x, hx, _⟩
        · exact hfree e he e2 he2 ⟨x, hx.symm⟩
        · exact (hfree e2 he2 e he ⟨x, hx.symm⟩).symm
      subst hee
      have := List.append_cancel_left heq
      exact ⟨qs, fun p hm => hq p (List.mem_cons_of_mem _ hm), this⟩

/-- What comes before white space in white space is white space. -/
theorem whiteSpace_of_append_right (d b : Str) (hb : whiteSpace b) (h : whiteSpace (d ++ b)) :
    whiteSpace d := by
  obtain ⟨parts, hp, hs⟩ := h
  induction parts generalizing d with
  | nil =>
    have : d = [] := (List.append_eq_nil.mp hs).1
    rw [this]
    exact whiteSpace_nil
  | cons e ps ih =>
    have he := hp e (List.mem_cons_self _ _)
    have hps := fun p hm => hp p (List.mem_cons_of_mem _ hm)
    have heq : d ++ b = e ++ concatChunks ps := hs
    rcases append_eq_append_cases d e _ _ heq with ⟨x, hx, hb2⟩ | ⟨x, hx, hb2⟩
    · -- `d` ends inside `e`
      cases x with
      | nil =>
        rw [List.append_nil] at hx
        rw [← hx]
        exact whiteSpace_one e he
      | cons c x =>
        by_cases hd : d = []
        · rw [hd]; exact whiteSpace_nil
        · exfalso
          obtain ⟨_, h2⟩ := spaceEncodings_bytes e he d x c hx
          have hc := h2 hd
          rcases whiteSpace_head b hb with h0 | ⟨c1, t, h1, h3⟩
          · rw [h0] at hb2; cases hb2
          · rw [h1] at hb2
            simp only [List.cons_append, List.cons.injEq] at hb2
            rw [hb2.1] at h3
            omega
    · rw [hx]
      exact whiteSpace_append e x (whiteSpace_one e he) (ih x hps hb2.symm)

theorem whiteSpace_first (d : Str) (hd : whiteSpace d) (hne : d ≠ []) :
    ∃ e ∈ spaceEncodings, e <+: d := by
  obtain ⟨parts, hp, rfl⟩ := hd
  cases parts with
  | nil => exact absurd rfl hne
  | cons e ps => exact ⟨e, hp e (List.mem_cons_self _ _), List.prefix_append _ _⟩

theorem whiteSpace_last (d : Str) (hd : whiteSpace d) (hne : d ≠ []) :
    ∃ e ∈ spaceEncodings, e <:+ d := by
  obtain ⟨parts, hp, rfl⟩ := hd
  induction parts with
  | nil => exact absurd rfl hne
  | cons e ps ih =>
    have he := hp e (List.mem_cons_self _ _)
    by_cases hps : concatChunks ps = []
    · refine ⟨e, he, ?_⟩
      show e <:+ e ++ concatChunks ps
      rw [hps, List.append_nil]
    · obtain ⟨e1, h1, h2⟩ := ih (fun p hm => hp p (List.mem_cons_of_mem _ hm)) hps
      exact ⟨e1, h1, h2.trans (List.suffix_append _ _)⟩

/-- The trimmed string is determined: a string has one string that is it
without its leading and trailing white space. -/
theorem Trimmed_unique (s t u : Str) (ht : Trimmed s t) (hu : Trimmed s u) : t = u := by
  obtain ⟨p1, q1, hs1, hp1, hq1, hpre1, hsuf1⟩ := ht
  obtain ⟨p2, q2, hs2, hp2, hq2, hpre2, hsuf2⟩ := hu
  -- a step that both halves use: no white space can come before a trimmed string that is not empty
  have hleft : ∀ (t q d x : Str), t ≠ [] → whiteSpace q → whiteSpace d →
      (∀ e ∈ spaceEncodings, ¬ e <+: t) → t ++ q = d ++ x → d = [] := by
    intro t q d x htne hq hd hpre h
    obtain ⟨parts, hp, rfl⟩ := hd
    cases parts with
    | nil => rfl
    | cons e ps =>
      exfalso
      have he := hp e (List.mem_cons_self _ _)
      have heq : t ++ q = e ++ (concatChunks ps ++ x) := by
        rw [h]; exact List.append_assoc _ _ _
      rcases append_eq_append_cases t e _ _ heq with ⟨y, hy, hq2⟩ | ⟨y, hy, _⟩
      · cases y with
        | nil =>
          rw [List.append_nil] at hy
          exact hpre e he ⟨[], by rw [List.append_nil, hy]⟩
        | cons c y =>
          obtain ⟨_, h2⟩ := spaceEncodings_bytes e he t y c hy
          have hc := h2 htne
          rcases whiteSpace_head q hq with h0 | ⟨c1, r, h1, h3⟩
          · rw [h0] at hq2; cases hq2
          · rw [h1] at hq2
            simp only [List.cons_append, List.cons.injEq] at hq2
            rw [hq2.1] at h3
            omega
      · exact hpre e he ⟨y, hy.symm⟩
  -- and none after it
  have hright : ∀ (t u d q1 q2 : Str), whiteSpace q1 → whiteSpace q2 →
      (∀ e ∈ spaceEncodings, ¬ e <:+ u) → u = t ++ d → q1 = d ++ q2 → d = [] := by
    intro t u d q1 q2 hq1 hq2 hsuf hu hq
    by_contra hne
    have hd : whiteSpace d := whiteSpace_of_append_right d q2 hq2 (by rw [← hq]; exact hq1)
    obtain ⟨e, he, hsf⟩ := whiteSpace_last d hd hne
    exact hsuf e he (by rw [hu]; exact hsf.trans (List.suffix_append _ _))
  have hnil : ∀ (p1 q1 p2 q2 u : Str), whiteSpace p1 → whiteSpace q1 → whiteSpace p2 →
      whiteSpace q2 → (∀ e ∈ spaceEncodings, ¬ e <+: u) → p1 ++ [] ++ q1 = p2 ++ u ++ q2 →
      u = [] := by
    intro p1 q1 p2 q2 u hp1 hq1 hp2 hq2 hpre h
    by_contra hne
    have hws : whiteSpace (p2 ++ (u ++ q2)) := by
      rw [← List.append_assoc, ← h, List.append_nil]
      exact whiteSpace_append p1 q1 hp1 hq1
    have h1 := whiteSpace_of_append_left p2 (u ++ q2) hp2 hws
    have h2 := whiteSpace_of_append_right u q2 hq2 h1
    obtain ⟨e, he, hpf⟩ := whiteSpace_first u h2 hne
    exact hpre e he hpf
  by_cases ht0 : t = []
  · subst ht0
    exact (hnil p1 q1 p2 q2 u hp1 hq1 hp2 hq2 hpre2 (by rw [← hs1, ← hs2])).symm
  by_cases hu0 : u = []
  · subst hu0
    exact hnil p2 q2 p1 q1 t hp2 hq2 hp1 hq1 hpre1 (by rw [← hs1, ← hs2])
  have heq : p1 ++ (t ++ q1) = p2 ++ (u ++ q2) := by
    rw [← List.append_assoc, ← List.append_assoc, ← hs1, ← hs2]
  have hmid : t ++ q1 = u ++ q2 := by
    rcases append_eq_append_cases p1 p2 _ _ heq with ⟨d, hd, hx⟩ | ⟨d, hd, hx⟩
    · have hwd : whiteSpace d := whiteSpace_of_append_left p1 d hp1 (by rw [← hd]; exact hp2)
      have := hleft t q1 d (u ++ q2) ht0 hq1 hwd hpre1 hx
      rw [this, List.nil_append] at hx
      exact hx
    · have hwd : whiteSpace d := whiteSpace_of_append_left p2 d hp2 (by rw [← hd]; exact hp1)
      have := hleft u q2 d (t ++ q1) hu0 hq2 hwd hpre2 hx
      rw [this, List.nil_append] at hx
      exact hx.symm
  rcases append_eq_append_cases t u _ _ hmid with ⟨d, hd, hx⟩ | ⟨d, hd, hx⟩
  · have := hright t u d q1 q2 hq1 hq2 hsuf2 hd hx
    rw [this, List.append_nil] at hd
    exact hd.symm
  · have := hright u t d q2 q1 hq2 hq1 hsuf1 hd hx
    rw [this, List.append_nil] at hd
    exact hd

/-- The string `TrimSpace(s)` is the one string that is `s` without its leading
and trailing white space. -/
theorem strings.TrimSpace_unique (s t : Str) (h : Trimmed s t) : t = strings.TrimSpace s :=
  Trimmed_unique s t _ h (strings.TrimSpace_trimmed s)

/-! ## C18: the header line parser -/

theorem strings.cut_colon (line : Str) :
    strings.cut ':' line = if ':' ∈ line then some (beforeColon line, afterColon line) else none := by
  induction line with
  | nil => rfl
  | cons c cs ih =>
    unfold strings.cut
    by_cases hc : c = ':'
    · subst hc
      simp [beforeColon, afterColon]
    · rw [if_neg hc, ih]
      have hc2 : ¬ (':' = c) := fun h => hc h.symm
      by_cases hm : ':' ∈ cs
      · simp [hm, hc, hc2, beforeColon, afterColon]
      · simp [hm, hc, hc2, beforeColon, afterColon]

theorem beforeColon_no_colon (line : Str) : ':' ∉ beforeColon line := by
  intro h
  have := List.mem_takeWhile_imp h
  simp at this

theorem beforeColon_afterColon (line : Str) :
    if ':' ∈ line then line = beforeColon line ++ ':' :: afterColon line
    else beforeColon line = line ∧ afterColon line = [] := by
  induction line with
  | nil => simp [beforeColon, afterColon]
  | cons c cs ih =>
    by_cases hc : c = ':'
    · subst hc
      simp [beforeColon, afterColon]
    · have hc2 : ¬ (':' = c) := fun h => hc h.symm
      have hne : (c != ':') = true := by simpa using hc
      have e1 : beforeColon (c :: cs) = c :: beforeColon cs := by
        unfold beforeColon
        exact @List.takeWhile_cons_of_pos Char (fun x => x != ':') c cs hne
      have e2 : afterColon (c :: cs) = afterColon cs := by
        unfold afterColon
        exact congrArg (List.drop 1) (@List.dropWhile_cons_of_pos Char (fun x => x != ':') c cs hne)
      by_cases hm : ':' ∈ cs
      · rw [if_pos hm] at ih
        rw [if_pos (List.mem_cons_of_mem _ hm)]
        rw [e1, e2, List.cons_append, ← ih]
      · rw [if_neg hm] at ih
        rw [if_neg (by simp [hm, hc2])]
        rw [e1, e2, ih.1, ih.2]
        exact ⟨rfl, rfl⟩

/-- The model of `strings.TrimSpace` on bytes that are not ASCII: the two bytes
of U+00A0 are white space, a lone byte `0xA0` or `0x85` is not, a lead byte
without its continuation is kept, and a key that is U+00A0 alone is empty. -/
theorem strings.TrimSpace_bytes (lib : Lib) :
    strings.TrimSpace ([0xC2, 0xA0, 0x78, 0xE2, 0x80, 0x83, 0x20].map Char.ofNat) =
      [0x78].map Char.ofNat ∧
    strings.TrimSpace ([0xA0, 0x78, 0x85].map Char.ofNat) = [0xA0, 0x78, 0x85].map Char.ofNat ∧
    strings.TrimSpace ([0x20, 0xC2, 0x20].map Char.ofNat) = [0xC2].map Char.ofNat ∧
    ParseRequestHeader lib ([0xC2, 0xA0, 0x3A, 0x20, 0x76].map Char.ofNat) =
      Except.error Err.headerKey :=
  ⟨by decide, by decide, by decide, rfl⟩

/-- C18. `ParseRequestHeader` splits a line on its first colon. When the line
has a colon and the text before the first colon does not trim to the empty
string, it returns the canonical form of the trimmed text before the first
colon as key and the trimmed text after the first colon, further colons
included, as value; otherwise it returns an error, "Could not parse request
header" for a line without colon and "Invalid key in header" for an empty
trimmed key. The text before the first colon holds no colon, and with the
colon and the text after it makes up the line. The text before the colon trims
to the empty string exactly when it is white space and nothing else, and each
trimmed text is the text without its leading and trailing white space: the
text is the trimmed text between two strings of white space, and the trimmed
text neither starts nor ends with the UTF-8 encoding of a white space rune;
no other string is so. -/
theorem ParseRequestHeader_splits_on_first_colon (lib : Lib) (line : Str) :
    ParseRequestHeader lib line =
      (if ':' ∈ line ∧ strings.TrimSpace (beforeColon line) ≠ [] then
        Except.ok (lib.CanonicalHeaderKey (strings.TrimSpace (beforeColon line)),
          strings.TrimSpace (afterColon line))
      else if ':' ∈ line then Except.error Err.headerKey
      else Except.error Err.headerSyntax) ∧
    ':' ∉ beforeColon line ∧
    (if ':' ∈ line then line = beforeColon line ++ ':' :: afterColon line
      else beforeColon line = line ∧ afterColon line = []) ∧
    (strings.TrimSpace (beforeColon line) = [] ↔ whiteSpace (beforeColon line)) ∧
    Trimmed (beforeColon line) (strings.TrimSpace (beforeColon line)) ∧
    Trimmed (afterColon line) (strings.TrimSpace (afterColon line)) ∧
    (∀ t, Trimmed (beforeColon line) t → t = strings.TrimSpace (beforeColon line)) ∧
    (∀ t, Trimmed (afterColon line) t → t = strings.TrimSpace (afterColon line)) := by
  refine ⟨?_, beforeColon_no_colon line, beforeColon_afterColon line,
    strings.TrimSpace_eq_nil _, strings.TrimSpace_trimmed _, strings.TrimSpace_trimmed _,
    strings.TrimSpace_unique _, strings.TrimSpace_unique _⟩
  unfold ParseRequestHeader
  have hs : strings.SplitN ':' 2 line =
      if ':' ∈ line then [beforeColon line, afterColon line] else [line] := by
    show (match strings.cut ':' line with
      | none => [line]
      | some (a, b) => a :: strings.SplitN ':' 1 b) = _
    rw [strings.cut_colon]
    by_cases hm : ':' ∈ line
    · simp [hm, strings.SplitN]
    · simp [hm]
  rw [hs]
  by_cases hm : ':' ∈ line
  · simp only [hm, if_true, true_and]
    by_cases hk : strings.TrimSpace (beforeColon line) = []
    · simp [hk]
    · simp [hk]
  · simp [hm]

/-! ## A request in the buffer, a request in the stream -/

theorem GoMap.find?_set (m : GoMap) (k v k1 : Str) :
    (m.set k v).find? k1 = if k = k1 then some v else m.find? k1 := by
  induction m with
  | nil => simp [GoMap.set, GoMap.find?]
  | cons kv m ih =>
    obtain ⟨k0, v0⟩ := kv
    unfold GoMap.set
    by_cases h0 : k0 = k
    · subst h0
      by_cases h1 : k0 = k1
      · simp [GoMap.find?, h1]
      · simp [GoMap.find?, h1]
    · rw [if_neg h0]
      by_cases h1 : k0 = k1
      · subst h1
        have : ¬ k = k0 := fun h => h0 h.symm
        simp [GoMap.find?, this]
      · simp only [GoMap.find?, h1, if_false]
        exact ih

theorem GoMap.has_set (m : GoMap) (k v k1 : Str) :
    (m.set k v).has k1 = (decide (k = k1) || m.has k1) := by
  unfold GoMap.has
  rw [GoMap.find?_set]
  by_cases h : k = k1 <;> simp [h]

theorem ParseRequestHeader_nil (lib : Lib) : ParseRequestHeader lib [] = Except.error Err.headerSyntax :=
  rfl

theorem headerBlock_length (lines : List Str) : lines.length ≤ (headerBlock lines).length := by
  induction lines with
  | nil => simp
  | cons l ls ih => simp [headerBlock, CRLF]; omega

theorem Conn.stream_le_pending (evs : List ReadEvent) :
    (Conn.stream evs).length ≤ Conn.pending evs := by
  induction evs with
  | nil => simp [Conn.stream, Conn.pending]
  | cons ev evs ih => cases ev <;> simp [Conn.stream, Conn.pending]; omega

/-- The header loop on a header block that lies in the buffer with its empty
line: no read, every line is parsed, what follows the empty line is returned. -/
theorem readHeaders_buffered (lib : Lib) (lines : List Str) (fuel : Nat) (conn : Conn)
    (rest : Str) (headers : GoMap)
    (hl : ∀ l ∈ lines, bytes.IndexCRLF l = none ∧ ∃ kv, ParseRequestHeader lib l = Except.ok kv)
    (hf : lines.length < fuel) :
    readHeaders lib fuel conn (headerBlock lines ++ CRLF ++ rest) headers =
      (conn, HeaderResult.done (parsedHeaders lib lines headers) rest) := by
  induction lines generalizing fuel headers with
  | nil =>
    cases fuel with
    | zero => simp at hf
    | succ fuel =>
      unfold readHeaders
      have := ReadLine_buffered conn [] rest rfl
      simp only [List.nil_append] at this
      simp only [headerBlock, List.nil_append, this]
      simp [parsedHeaders]
  | cons l ls ih =>
    cases fuel with
    | zero => simp at hf
    | succ fuel =>
      obtain ⟨hl1, kv, hl2⟩ := hl l (by simp)
      have hne : l ≠ [] := by
        intro h
        rw [h, ParseRequestHeader_nil] at hl2
        cases hl2
      unfold readHeaders
      have hm : headerBlock (l :: ls) ++ CRLF ++ rest = l ++ CRLF ++ (headerBlock ls ++ CRLF ++ rest) := by
        simp [headerBlock, List.append_assoc]
      rw [hm, ReadLine_buffered conn l _ hl1]
      have hlen : ¬ (l.length = 0 ∨ l = []) := by
        rintro (h | h)
        · exact hne (List.length_eq_zero.mp h)
        · exact hne h
      simp only [hlen, if_false, hl2]
      obtain ⟨k, v⟩ := kv
      simp only
      rw [ih fuel (headers.set k v) (fun l1 h1 => hl l1 (by simp [h1]))
        (by simpa using hf)]
      simp [parsedHeaders, hl2]

/-- The header loop on a header block that the message and the coming chunks
hold together: every line is parsed, and what follows the empty line is still
held by the message and the coming chunks. -/
theorem readHeaders_stream (lib : Lib) (lines : List Str) (fuel : Nat) (conn : Conn)
    (message tail : Str) (headers : GoMap)
    (hs : message ++ Conn.stream conn.reads = headerBlock lines ++ CRLF ++ tail)
    (hl : ∀ l ∈ lines, bytes.IndexCRLF l = none ∧ ∃ kv, ParseRequestHeader lib l = Except.ok kv)
    (hf : lines.length < fuel) :
    ∃ conn1 m1, readHeaders lib fuel conn message headers =
        (conn1, HeaderResult.done (parsedHeaders lib lines headers) m1) ∧
      m1 ++ Conn.stream conn1.reads = tail ∧ conn1.SameOut conn := by
  induction lines generalizing fuel headers conn message with
  | nil =>
    cases fuel with
    | zero => simp at hf
    | succ fuel =>
      simp only [headerBlock, List.nil_append] at hs
      obtain ⟨conn1, m1, h1, h2, h3⟩ := ReadLine_stream conn message [] tail (by simpa using hs) rfl
      refine ⟨conn1, m1, ?_, h2, h3⟩
      unfold readHeaders
      rw [h1]
      simp [parsedHeaders]
  | cons l ls ih =>
    cases fuel with
    | zero => simp at hf
    | succ fuel =>
      obtain ⟨hl1, kv, hl2⟩ := hl l (by simp)
      have hne : l ≠ [] := by
        intro h
        rw [h, ParseRequestHeader_nil] at hl2
        cases hl2
      have hm : headerBlock (l :: ls) ++ CRLF ++ tail = l ++ CRLF ++ (headerBlock ls ++ CRLF ++ tail) := by
        simp [headerBlock, List.append_assoc]
      rw [hm] at hs
      obtain ⟨conn1, m1, h1, h2, h3⟩ := ReadLine_stream conn message l _ hs hl1
      obtain ⟨k, v⟩ := kv
      obtain ⟨conn2, m2, h4, h5, h6⟩ := ih fuel conn1 m1 (headers.set k v) h2
        (fun l1 hl1 => hl l1 (by simp [hl1])) (by simpa using hf)
      refine ⟨conn2, m2, ?_, h5, Conn.sameOut_trans h6 h3⟩
      unfold readHeaders
      rw [h1]
      have hlen : ¬ (l.length = 0 ∨ l = []) := by
        rintro (h | h)
        · exact hne (List.length_eq_zero.mp h)
        · exact hne h
      simp only [hlen, if_false, hl2]
      rw [h4]
      simp [parsedHeaders, hl2]

theorem strings.cut_append (sep : Char) (a b : Str) (h : sep ∉ a) :
    strings.cut sep (a ++ sep :: b) = some (a, b) := by
  induction a with
  | nil => simp [strings.cut]
  | cons c cs ih =>
    have hc : ¬ c = sep := fun hh => h (by simp [hh])
    have hcs : sep ∉ cs := fun hh => h (by simp [hh])
    show strings.cut sep (c :: (cs ++ sep :: b)) = _
    unfold strings.cut
    rw [if_neg hc, ih hcs]

theorem strings.SplitN_cut (sep : Char) (n : Nat) (a b : Str) (h : sep ∉ a) :
    strings.SplitN sep (n + 2) (a ++ sep :: b) = a :: strings.SplitN sep (n + 1) b := by
  rw [strings.SplitN, strings.cut_append sep a b h]

theorem strings.SplitN_startLine (target : Str) (h : ' ' ∉ target) :
    strings.SplitN ' ' 3 (startLine target) = ["GET".toList, target, "HTTP/1.1".toList] := by
  have h1 : startLine target = "GET".toList ++ ' ' :: (target ++ ' ' :: "HTTP/1.1".toList) := by
    simp [startLine]
  rw [h1, strings.SplitN_cut ' ' 1 _ _ (by decide), strings.SplitN_cut ' ' 0 _ _ h]
  rfl

/-- What `ReadRequest` returns once the start line of a request for `target`
has been read and the header loop has come to the empty line. -/
theorem Server.ReadRequest_of_headers (s : Server) (lib : Lib) (w : World) (conn : Conn)
    (message target : Str) (c0 : Conn) (m0 : Str) (c1 : Conn) (headers : GoMap) (m1 : Str)
    (ht : target.head? = some '/') (hsp : ' ' ∉ target)
    (hline : ReadLine conn message = (c0, startLine target, m0, none))
    (hhead : readHeaders lib (m0.length + Conn.pending c0.reads + 1) c0 m0 [] =
      (c1, HeaderResult.done headers m1)) :
    (headers.has "Host".toList = false →
      s.ReadRequest lib w conn message = (c1, ReadResult.fail m1 Err.noHost)) ∧
    (headers.has "Host".toList = true →
      ∃ req, s.ReadRequest lib w conn message = (c1, ReadResult.ok req m1) ∧
        req.Headers = headers ∧ req.Method = "GET".toList ∧ req.Proto = "HTTP/1.1".toList) := by
  unfold Server.ReadRequest
  rw [hline]
  simp only
  rw [strings.SplitN_startLine target hsp]
  constructor
  · intro hh
    have hv : ValidateRequestHeaders headers = some Err.noHost := by
      unfold ValidateRequestHeaders
      rw [hh]
      rfl
    simp only [ne_eq, not_true_eq_false, if_false, ht, or_self, hhead, hv]
  · intro hh
    have hv : ValidateRequestHeaders headers = none := by
      unfold ValidateRequestHeaders
      rw [hh]
      rfl
    simp only [ne_eq, not_true_eq_false, if_false, ht, or_self, hhead, hv]
    exact ⟨_, rfl, rfl, rfl, rfl⟩

theorem parsedHeaders_has (lib : Lib) (lines : List Str) (headers : GoMap) (k : Str) :
    (parsedHeaders lib lines headers).has k =
      (headers.has k || lines.any (fun l =>
        match ParseRequestHeader lib l with
        | Except.ok (k1, _) => decide (k1 = k)
        | Except.error _ => false)) := by
  induction lines generalizing headers with
  | nil => simp [parsedHeaders]
  | cons l ls ih =>
    unfold parsedHeaders
    cases hp : ParseRequestHeader lib l with
    | error e => simp [ih, hp]
    | ok kv =>
      obtain ⟨k1, v1⟩ := kv
      simp only [ih, GoMap.has_set, List.any_cons, hp]
      cases headers.has k <;> cases decide (k1 = k) <;> simp

/-- C20. `ReadRequest` consumes exactly one request. When the buffer holds a
complete valid request (the start line of a GET for a target that begins with
a slash and has no space, header lines that hold no CRLF and parse, one of
them with the key Host, then the empty line, each ended by CRLF) followed by
any trailing bytes, `ReadRequest` returns a request and no error, hands back
the connection as it was, so without a read, and returns exactly the trailing
bytes as the remaining buffer. -/
theorem ReadRequest_consumes_one_request (s : Server) (lib : Lib) (w : World) (conn : Conn)
    (target : Str) (lines : List Str) (trailing : Str)
    (ht : target.head? = some '/') (hsp : ' ' ∉ target)
    (hcr : bytes.IndexCRLF (startLine target) = none)
    (hl : ∀ l ∈ lines, bytes.IndexCRLF l = none ∧ ∃ kv, ParseRequestHeader lib l = Except.ok kv)
    (hhost : ∃ l ∈ lines, ∃ v, ParseRequestHeader lib l = Except.ok ("Host".toList, v)) :
    ∃ req,
      s.ReadRequest lib w conn
          (startLine target ++ CRLF ++ (headerBlock lines ++ CRLF ++ trailing)) =
        (conn, ReadResult.ok req trailing) ∧
      req.Headers = parsedHeaders lib lines [] ∧ req.Method = "GET".toList ∧
      req.Proto = "HTTP/1.1".toList := by
  have hline := ReadLine_buffered conn (startLine target) (headerBlock lines ++ CRLF ++ trailing) hcr
  have hhead := readHeaders_buffered lib lines
    ((headerBlock lines ++ CRLF ++ trailing).length + Conn.pending conn.reads + 1) conn trailing []
    hl (by have := headerBlock_length lines; simp only [List.length_append]; omega)
  have hhas : (parsedHeaders lib lines []).has "Host".toList = true := by
    rw [parsedHeaders_has]
    obtain ⟨l, hmem, v, hp⟩ := hhost
    simp only [Bool.or_eq_true, List.any_eq_true]
    right
    exact ⟨l, hmem, by simp [hp]⟩
  exact (s.ReadRequest_of_headers lib w conn _ target conn _ conn _ trailing ht hsp hline
    hhead).2 hhas

/-- C20, at an instance: a request with two header lines, followed by the
start of the next request. -/
theorem ReadRequest_consumes_one_request_witness :
    ∃ req,
      siteServer.ReadRequest specLib siteWorld (peer [ReadEvent.data "never read".toList])
          (startLine "/index.html".toList ++ CRLF ++
            (headerBlock ["host: site".toList, "Accept: text/html".toList] ++ CRLF ++
              "GET /next".toList)) =
        (peer [ReadEvent.data "never read".toList], ReadResult.ok req "GET /next".toList) ∧
      req.Headers = parsedHeaders specLib ["host: site".toList, "Accept: text/html".toList] [] ∧
      req.Method = "GET".toList ∧ req.Proto = "HTTP/1.1".toList :=
  ReadRequest_consumes_one_request siteServer specLib siteWorld
    (peer [ReadEvent.data "never read".toList]) "/index.html".toList
    ["host: site".toList, "Accept: text/html".toList] "GET /next".toList
    (by decide) (by decide) (by decide)
    (by
      intro l hl
      simp only [List.mem_cons, List.mem_singleton, List.not_mem_nil, or_false] at hl
      rcases hl with rfl | rfl
      · exact ⟨by decide, ("Host".toList, "site".toList), by decide⟩
      · exact ⟨by decide, ("Accept".toList, "text/html".toList), by decide⟩)
    ⟨"host: site".toList, by decide, "site".toList, by decide⟩

/-- C17. A request with a valid start line and header lines that all parse,
none of them to the key Host, followed by the empty line, however it is
divided between the buffer and the coming chunks: `ReadRequest` returns the
error "Host header not found" and no request, and what follows the request is
still held by the buffer and the coming chunks. And every request that
`ReadRequest` returns has a Host header, whose value is its `Host` field. -/
theorem missing_host_is_rejected (s : Server) (lib : Lib) (w : World) (conn : Conn)
    (message target : Str) (lines : List Str) (tail : Str)
    (hs : message ++ Conn.stream conn.reads =
      startLine target ++ CRLF ++ (headerBlock lines ++ CRLF ++ tail))
    (ht : target.head? = some '/') (hsp : ' ' ∉ target)
    (hcr : bytes.IndexCRLF (startLine target) = none)
    (hl : ∀ l ∈ lines, bytes.IndexCRLF l = none ∧
      ∃ k v, ParseRequestHeader lib l = Except.ok (k, v) ∧ k ≠ "Host".toList) :
    (∃ conn1 m1, s.ReadRequest lib w conn message = (conn1, ReadResult.fail m1 Err.noHost) ∧
      m1 ++ Conn.stream conn1.reads = tail) ∧
    (∀ (c : Conn) (m : Str) (c1 : Conn) (req : Request) (m1 : Str),
      s.ReadRequest lib w c m = (c1, ReadResult.ok req m1) →
        req.Headers.has "Host".toList = true ∧ req.Host = req.Headers.get "Host".toList) := by
  constructor
  · obtain ⟨c0, m0, h1, h2, _⟩ := ReadLine_stream conn message (startLine target) _ hs hcr
    have hl2 : ∀ l ∈ lines, bytes.IndexCRLF l = none ∧
        ∃ kv, ParseRequestHeader lib l = Except.ok kv := by
      intro l hmem
      obtain ⟨h3, k, v, h4, _⟩ := hl l hmem
      exact ⟨h3, (k, v), h4⟩
    have hfuel : lines.length < m0.length + Conn.pending c0.reads + 1 := by
      have e1 := congrArg List.length h2
      have e2 := headerBlock_length lines
      have e3 := Conn.stream_le_pending c0.reads
      simp only [List.length_append] at e1
      omega
    obtain ⟨c1, m1, h5, h6, _⟩ := readHeaders_stream lib lines _ c0 m0 tail [] h2 hl2 hfuel
    have hhas : (parsedHeaders lib lines []).has "Host".toList = false := by
      rw [parsedHeaders_has]
      simp only [GoMap.has, GoMap.find?, Option.isSome_none, Bool.false_or, List.any_eq_false]
      intro l hmem
      obtain ⟨_, k, v, h4, h7⟩ := hl l hmem
      rw [h4]
      show ¬ (decide (k = "Host".toList) = true)
      rw [decide_eq_false h7]
      exact Bool.false_ne_true
    exact ⟨c1, m1, (s.ReadRequest_of_headers lib w conn message target c0 m0 c1 _ m1 ht hsp
      h1 h5).1 hhas, h6⟩
  · intro c m c1 req m1 h
    unfold Server.ReadRequest at h
    revert h
    rcases ReadLine c m with ⟨c0, line, m0, e⟩
    cases e with
    | some e => dsimp only; intro h; split at h <;> cases h
    | none =>
      dsimp only
      intro h
      split at h
      · split at h
        · cases h
        · split at h
          · cases h
          · split at h
            · cases h
            · revert h
              rcases readHeaders lib (m0.length + Conn.pending c0.reads + 1) c0 m0 [] with ⟨c2, r⟩
              cases r with
              | unfinished => intro h; cases h
              | fail m e => intro h; cases h
              | done hdrs m2 =>
                dsimp only
                intro h
                split at h
                · cases h
                · rename_i hv
                  simp only [Prod.mk.injEq, ReadResult.ok.injEq] at h
                  obtain ⟨_, h2, _⟩ := h
                  subst h2
                  refine ⟨?_, rfl⟩
                  unfold ValidateRequestHeaders at hv
                  split at hv
                  · cases hv
                  · rename_i hh
                    simpa using hh
      · cases h

/-- C17, at an instance: the start line is in the buffer, the header lines and
the empty line come in two chunks. -/
theorem missing_host_is_rejected_witness :
    (∃ conn1 m1,
      siteServer.ReadRequest specLib siteWorld
          (peer [ReadEvent.data "Accept: */*\r\nConnec".toList,
            ReadEvent.data "tion: close\r\n\r\nGET".toList])
          "GET / HTTP/1.1\r\n".toList =
        (conn1, ReadResult.fail m1 Err.noHost) ∧
      m1 ++ Conn.stream conn1.reads = "GET".toList) ∧
    (∀ (c : Conn) (m : Str) (c1 : Conn) (req : Request) (m1 : Str),
      siteServer.ReadRequest specLib siteWorld c m = (c1, ReadResult.ok req m1) →
        req.Headers.has "Host".toList = true ∧ req.Host = req.Headers.get "Host".toList) :=
  missing_host_is_rejected siteServer specLib siteWorld
    (peer [ReadEvent.data "Accept: */*\r\nConnec".toList,
      ReadEvent.data "tion: close\r\n\r\nGET".toList])
    "GET / HTTP/1.1\r\n".toList "/".toList ["Accept: */*".toList, "Connection: close".toList]
    "GET".toList (by decide) (by decide) (by decide) (by decide)
    (by
      intro l hl
      simp only [List.mem_cons, List.mem_singleton, List.not_mem_nil, or_false] at hl
      rcases hl with rfl | rfl
      · exact ⟨by decide, "Accept".toList, "*/*".toList, by decide, by decide⟩
      · exact ⟨by decide, "Connection".toList, "close".toList, by decide, by decide⟩)

/-! ## C12: what `Response.Write` emits -/

theorem Char.toNat_eq_imp (a b : Char) (h : a.toNat = b.toNat) : a = b := by
  rw [← Char.ofNat_toNat a, ← Char.ofNat_toNat b, h]

theorem sort.le_total (a b : Str) : sort.le a b = true ∨ sort.le b a = true := by
  induction a generalizing b with
  | nil => left; rfl
  | cons x xs ih =>
    cases b with
    | nil => right; rfl
    | cons y ys =>
      unfold sort.le
      by_cases h : x = y
      · subst h
        simpa using ih ys
      · have h2 : ¬ y = x := fun hh => h hh.symm
        have h3 : x.toNat ≠ y.toNat := fun hh => h (Char.toNat_eq_imp x y hh)
        simp only [h, h2, if_false, decide_eq_true_eq]
        omega

theorem sort.le_trans (a b c : Str) (h1 : sort.le a b = true) (h2 : sort.le b c = true) :
    sort.le a c = true := by
  induction a generalizing b c with
  | nil => rfl
  | cons x xs ih =>
    cases b with
    | nil => simp [sort.le] at h1
    | cons y ys =>
      cases c with
      | nil => simp [sort.le] at h2
      | cons z zs =>
        unfold sort.le at h1 h2 ⊢
        by_cases hxy : x = y
        · subst hxy
          by_cases hxz : x = z
          · subst hxz
            simp only [if_true] at h1 h2 ⊢
            exact ih ys zs h1 h2
          · simp only [if_true, hxz, if_false] at h1 h2 ⊢
            exact h2
        · by_cases hyz : y = z
          · subst hyz
            simp only [hxy, if_false, if_true] at h1 h2 ⊢
            exact h1
          · simp only [hxy, hyz, if_false, decide_eq_true_eq] at h1 h2
            have hxz : ¬ x = z := by
              intro hh
              subst hh
              omega
            simp only [hxz, if_false, decide_eq_true_eq]
            omega

theorem sort.le_antisymm (a b : Str) (h1 : sort.le a b = true) (h2 : sort.le b a = true) :
    a = b := by
  induction a generalizing b with
  | nil =>
    cases b with
    | nil => rfl
    | cons y ys => simp [sort.le] at h2
  | cons x xs ih =>
    cases b with
    | nil => simp [sort.le] at h1
    | cons y ys =>
      unfold sort.le at h1 h2
      by_cases hxy : x = y
      · subst hxy
        simp only [if_true] at h1 h2
        rw [ih ys h1 h2]
      · have hyx : ¬ y = x := fun hh => hxy hh.symm
        simp only [hxy, hyx, if_false, decide_eq_true_eq] at h1 h2
        omega

theorem sort.insert_perm (k : Str) (xs : List Str) : (sort.insert k xs).Perm (k :: xs) := by
  induction xs with
  | nil => exact List.Perm.refl _
  | cons x xs ih =>
    unfold sort.insert
    split
    · exact List.Perm.refl _
    · exact (List.Perm.cons x ih).trans (List.Perm.swap k x xs)

theorem sort.insert_pairwise (k : Str) (xs : List Str)
    (h : xs.Pairwise (fun a b => sort.le a b = true)) :
    (sort.insert k xs).Pairwise (fun a b => sort.le a b = true) := by
  induction xs with
  | nil => simp [sort.insert]
  | cons x xs ih =>
    rw [List.pairwise_cons] at h
    unfold sort.insert
    split
    · rename_i hkx
      rw [List.pairwise_cons]
      refine ⟨?_, List.pairwise_cons.mpr h⟩
      intro y hy
      rcases List.mem_cons.mp hy with hy | hy
      · rw [hy]; exact hkx
      · exact sort.le_trans k x y hkx (h.1 y hy)
    · rename_i hkx
      have hxk : sort.le x k = true := by
        rcases sort.le_total k x with h1 | h1
        · exact absurd h1 hkx
        · exact h1
      rw [List.pairwise_cons]
      refine ⟨?_, ih h.2⟩
      intro y hy
      rcases List.mem_cons.mp ((sort.insert_perm k xs).mem_iff.mp hy) with hy | hy
      · rw [hy]; exact hxk
      · exact h.1 y hy

theorem sort.Strings_perm (keys : List Str) : (sort.Strings keys).Perm keys := by
  induction keys with
  | nil => exact List.Perm.refl _
  | cons k ks ih =>
    show (sort.insert k (sort.Strings ks)).Perm (k :: ks)
    exact (sort.insert_perm k _).trans (List.Perm.cons k ih)

theorem sort.Strings_pairwise (keys : List Str) :
    (sort.Strings keys).Pairwise (fun a b => sort.le a b = true) := by
  induction keys with
  | nil => exact List.Pairwise.nil
  | cons k ks ih => exact sort.insert_pairwise k _ ih

/-- C12. On a connection that accepts every byte, and with the file readable
when the status is 200, `Response.Write` returns nil and sends exactly: the
status line of protocol, code and the fixed text of the code, ended by CRLF;
the header lines `key: value` CRLF in the order of the sorted keys, which are
the keys of the map, each as often as in the map (once, as the keys of a map
are distinct), in ascending order; the empty line; and then the bytes of the
file when the status is 200 and nothing otherwise. -/
theorem write_emits_status_headers_body (res : Response) (w : World) (c : Conn) (body : Str)
    (hc : c.room = none) (hk : res.Headers.keys.Nodup)
    (hbody : if res.StatusCode = statusOK then w.fs.ReadFile res.FilePath = some body
      else body = []) :
    res.Write w c =
      ({ c with sent := c.sent ++
          (res.Proto ++ " ".toList ++ strconv.Itoa res.StatusCode ++ " ".toList ++
            statusText res.StatusCode ++ CRLF ++
            headerLines res.Headers (sort.Strings res.Headers.keys) ++ CRLF ++ body) }, none) ∧
    (sort.Strings res.Headers.keys).Perm res.Headers.keys ∧
    (sort.Strings res.Headers.keys).Nodup ∧
    (sort.Strings res.Headers.keys).Pairwise (fun a b => sort.le a b = true) ∧
    (∀ k rest, headerLines res.Headers (k :: rest) =
      k ++ ": ".toList ++ res.Headers.get k ++ CRLF ++ headerLines res.Headers rest) ∧
    statusText 200 = "OK".toList ∧ statusText 400 = "Bad Request".toList ∧
    statusText 404 = "Not Found".toList := by
  refine ⟨?_, sort.Strings_perm _, (sort.Strings_perm _).nodup_iff.mpr hk,
    sort.Strings_pairwise _, fun _ _ => rfl, rfl, rfl, rfl⟩
  by_cases hs : res.StatusCode = statusOK
  · rw [if_pos hs] at hbody
    exact Response.Write_ok res w c body hc hs hbody
  · rw [if_neg hs] at hbody
    subst hbody
    exact Response.Write_other res w c hc hs

/-- C12, at an instance: a 404 response whose map yields its keys in the order
Date, Connection. -/
theorem write_emits_status_headers_body_witness :
    Response.Write
        { Proto := responseProto, StatusCode := statusNotFound, StatusText := [],
          Headers := [("Date".toList, "today".toList), ("Connection".toList, "close".toList)],
          Req := none, FilePath := [] } siteWorld (peer []) =
      ({ peer [] with sent := (peer []).sent ++
          (responseProto ++ " ".toList ++ strconv.Itoa statusNotFound ++ " ".toList ++
            statusText statusNotFound ++ CRLF ++
            headerLines [("Date".toList, "today".toList), ("Connection".toList, "close".toList)]
              (sort.Strings
                (GoMap.keys
                  [("Date".toList, "today".toList), ("Connection".toList, "close".toList)])) ++
            CRLF ++ []) }, none) ∧
    (sort.Strings
      (GoMap.keys [("Date".toList, "today".toList), ("Connection".toList, "close".toList)])).Perm
      (GoMap.keys [("Date".toList, "today".toList), ("Connection".toList, "close".toList)]) ∧
    (sort.Strings
      (GoMap.keys
        [("Date".toList, "today".toList), ("Connection".toList, "close".toList)])).Nodup ∧
    (sort.Strings
      (GoMap.keys
        [("Date".toList, "today".toList), ("Connection".toList, "close".toList)])).Pairwise
      (fun a b => sort.le a b = true) ∧
    (∀ k rest,
      headerLines [("Date".toList, "today".toList), ("Connection".toList, "close".toList)]
          (k :: rest) =
        k ++ ": ".toList ++
          GoMap.get [("Date".toList, "today".toList), ("Connection".toList, "close".toList)] k ++
          CRLF ++
          headerLines [("Date".toList, "today".toList), ("Connection".toList, "close".toList)]
            rest) ∧
    statusText 200 = "OK".toList ∧ statusText 400 = "Bad Request".toList ∧
    statusText 404 = "Not Found".toList :=
  write_emits_status_headers_body
    { Proto := responseProto, StatusCode := statusNotFound, StatusText := [],
      Headers := [("Date".toList, "today".toList), ("Connection".toList, "close".toList)],
      Req := none, FilePath := [] } siteWorld (peer []) [] (by decide) (by decide) (by decide)

/-! ## C11: the stream ends or the deadline expires with nothing buffered -/

/-- C11. When the read of the start line fails with nothing buffered, the peer
having closed the stream (`io.EOF`) or the deadline having expired (timeout),
`HandleClient` closes the connection and returns, and what was sent on the
connection is what was sent before. -/
theorem silent_close_when_nothing_buffered (s : Server) (lib : Lib) (ws : Nat → World)
    (fuel i : Nat) (conn : Conn) (message : Str) (conn1 : Conn) (line : Str) (err : Err)
    (hd : conn.deadlineOk = true)
    (hline : ReadLine conn message = (conn1, line, [], some err))
    (herr : err = Err.EOF ∨ err = Err.timeout) :
    s.HandleClient lib ws (fuel + 1) i conn message =
      ({ conn1 with sent := conn.sent, closed := true }, [], Exit.returned) := by
  have hread : s.ReadRequest lib (ws i) conn message = (conn1, ReadResult.fail [] err) := by
    unfold Server.ReadRequest
    rw [hline]
    simp
  exact s.HandleClient_of_silent lib ws fuel i conn message conn1 [] err hd hread herr

/-- C11, at an instance: the peer closes the stream before sending a byte. -/
theorem silent_close_when_nothing_buffered_witness :
    siteServer.HandleClient specLib (fun _ => siteWorld) (0 + 1) 0 (peer [ReadEvent.EOF]) [] =
      ({ peer [] with sent := (peer [ReadEvent.EOF]).sent, closed := true }, [],
        Exit.returned) :=
  silent_close_when_nothing_buffered siteServer specLib (fun _ => siteWorld) 0 0
    (peer [ReadEvent.EOF]) [] (peer []) [] Err.EOF (by decide) (by decide) (by decide)

/-! ## C16: the headers that every response carries -/

/-- What a response of `HandleGoodRequest` is made of: the file was read and
inspected, and the header map holds, after the Connection header if the
request asked to close, the four headers of a success response in this order. -/
theorem Server.HandleGoodRequest_some (s : Server) (lib : Lib) (w : World) (req : Request)
    (res : Response) (err : Option Err) (h : s.HandleGoodRequest lib w req = (some res, err)) :
    ∃ body fileStat,
      w.fs.ReadFile res.FilePath = some body ∧ w.fs.Stat res.FilePath = Except.ok fileStat ∧
      res.FilePath = filepath.Join (s.VirtualHosts.get (req.Headers.get "Host".toList)) req.URL ∧
      res.Proto = responseProto ∧ res.StatusCode = statusOK ∧ err = none ∧
      res.Headers =
        (if req.Headers.get "Connection".toList = "close".toList then
          [("Connection".toList, "close".toList)] else []) ++
        [("Content-Length".toList, strconv.Itoa body.length),
         ("Content-Type".toList, lib.MIMETypeByExtension (filepath.Ext res.FilePath)),
         ("Date".toList, lib.FormatTime w.now),
         ("Last-Modified".toList, lib.FormatTime fileStat.modTime)] := by
  unfold Server.HandleGoodRequest at h
  by_cases hc : req.Headers.get "Connection".toList = "close".toList
  · simp only [hc, if_true] at h
    rw [if_pos hc]
    split at h
    · cases h
    · rename_i body hb
      split at h
      · cases h
      · rename_i fi hst
        simp only [Prod.mk.injEq, Option.some.injEq] at h
        obtain ⟨h1, h2⟩ := h
        subst h1
        exact ⟨body, fi, hb, hst, rfl, rfl, rfl, h2.symm, rfl⟩
  · simp only [hc, if_false] at h
    rw [if_neg hc]
    split at h
    · cases h
    · rename_i body hb
      split at h
      · cases h
      · rename_i fi hst
        simp only [Prod.mk.injEq, Option.some.injEq] at h
        obtain ⟨h1, h2⟩ := h
        subst h1
        exact ⟨body, fi, hb, hst, rfl, rfl, rfl, h2.symm, rfl⟩

/-- C16. Every response that `HandleGoodRequest` returns has status 200 and the
headers Content-Length, Content-Type, Date and Last-Modified. Every response
that `HandleBadRequest` or `HandleNotFound` prepares, from any response value
and for any request, in any world, has status 400 or 404, a Date header and an
empty file path, and on a connection that accepts every byte `Response.Write`
sends for it the status line, the header lines and the empty line, and nothing
after the empty line. -/
theorem responses_carry_their_headers (s : Server) (lib : Lib) (w : World) (req : Request)
    (res : Response) (err : Option Err) (res0 : Response) (req0 : Request) (c : Conn) :
    (s.HandleGoodRequest lib w req = (some res, err) →
      res.StatusCode = statusOK ∧ res.Headers.has "Content-Length".toList = true ∧
      res.Headers.has "Content-Type".toList = true ∧ res.Headers.has "Date".toList = true ∧
      res.Headers.has "Last-Modified".toList = true) ∧
    ((res0.HandleBadRequest lib w).StatusCode = statusBadRequest ∧
      (res0.HandleBadRequest lib w).Headers.has "Date".toList = true ∧
      (res0.HandleBadRequest lib w).FilePath = [] ∧
      (c.room = none →
        (res0.HandleBadRequest lib w).Write w c =
          ({ c with sent := c.sent ++
              ((res0.HandleBadRequest lib w).Proto ++ " ".toList ++
                strconv.Itoa statusBadRequest ++ " ".toList ++ statusText statusBadRequest ++
                CRLF ++
                headerLines (res0.HandleBadRequest lib w).Headers
                  (sort.Strings (res0.HandleBadRequest lib w).Headers.keys) ++ CRLF) }, none))) ∧
    ((res0.HandleNotFound lib w req0).StatusCode = statusNotFound ∧
      (res0.HandleNotFound lib w req0).Headers.has "Date".toList = true ∧
      (res0.HandleNotFound lib w req0).FilePath = [] ∧
      (c.room = none →
        (res0.HandleNotFound lib w req0).Write w c =
          ({ c with sent := c.sent ++
              ((res0.HandleNotFound lib w req0).Proto ++ " ".toList ++
                strconv.Itoa statusNotFound ++ " ".toList ++ statusText statusNotFound ++ CRLF ++
                headerLines (res0.HandleNotFound lib w req0).Headers
                  (sort.Strings (res0.HandleNotFound lib w req0).Headers.keys) ++ CRLF) },
            none))) := by
  refine ⟨?_, ?_, ?_⟩
  · intro hgood
    obtain ⟨body, fi, _, _, _, _, h5, _, h7⟩ := s.HandleGoodRequest_some lib w req res err hgood
    rw [h7]
    refine ⟨h5, ?_⟩
    by_cases hcl : req.Headers.get "Connection".toList = "close".toList
    · rw [if_pos hcl]; exact ⟨rfl, rfl, rfl, rfl⟩
    · rw [if_neg hcl]; exact ⟨rfl, rfl, rfl, rfl⟩
  · have hst : (res0.HandleBadRequest lib w).StatusCode = statusBadRequest := rfl
    refine ⟨hst, rfl, rfl, ?_⟩
    intro hc
    rw [Response.Write_other _ w c hc (by rw [hst]; decide)]
    simp [Response.wire, hst]
  · have hall : (res0.HandleNotFound lib w req0).StatusCode = statusNotFound ∧
        (res0.HandleNotFound lib w req0).Headers.has "Date".toList = true ∧
        (res0.HandleNotFound lib w req0).FilePath = [] := by
      generalize hr : res0.HandleNotFound lib w req0 = r
      unfold Response.HandleNotFound at hr
      by_cases hcl : req0.Headers.get "Connection".toList = "close".toList
      · simp only [hcl, if_true] at hr; subst hr; exact ⟨rfl, rfl, rfl⟩
      · simp only [hcl, if_false] at hr; subst hr; exact ⟨rfl, rfl, rfl⟩
    obtain ⟨hst, hdate, hpath⟩ := hall
    refine ⟨hst, hdate, hpath, ?_⟩
    intro hc
    rw [Response.Write_other _ w c hc (by rw [hst]; decide)]
    simp [Response.wire, hst]

/-- C16, at an instance: the response to a request for `/index.html`, and the
400 and 404 responses in a world without any file. -/
theorem responses_carry_their_headers_witness :
    ((indexResponse "Mon, 02 Nov 2026 00:00:00 GMT".toList).StatusCode = statusOK ∧
      (indexResponse "Mon, 02 Nov 2026 00:00:00 GMT".toList).Headers.has
        "Content-Length".toList = true ∧
      (indexResponse "Mon, 02 Nov 2026 00:00:00 GMT".toList).Headers.has
        "Content-Type".toList = true ∧
      (indexResponse "Mon, 02 Nov 2026 00:00:00 GMT".toList).Headers.has "Date".toList = true ∧
      (indexResponse "Mon, 02 Nov 2026 00:00:00 GMT".toList).Headers.has
        "Last-Modified".toList = true) ∧
    ((Response.zero.HandleBadRequest specLib { fs := emptyFS, now := 0 }).StatusCode =
        statusBadRequest ∧
      (Response.zero.HandleBadRequest specLib { fs := emptyFS, now := 0 }).Write
          { fs := emptyFS, now := 0 } (peer []) =
        ({ peer [] with sent := badRequestBytes "Thu, 01 Jan 1970 00:00:00 GMT".toList }, none)) ∧
    ((Response.zero.HandleNotFound specLib { fs := emptyFS, now := 0 } missingRequest).StatusCode =
        statusNotFound ∧
      (Response.zero.HandleNotFound specLib { fs := emptyFS, now := 0 } missingRequest).Write
          { fs := emptyFS, now := 0 } (peer []) =
        ({ peer [] with sent := notFoundBytes "Thu, 01 Jan 1970 00:00:00 GMT".toList }, none)) :=
  ⟨(responses_carry_their_headers siteServer specLib siteWorld indexRequest
      (indexResponse "Mon, 02 Nov 2026 00:00:00 GMT".toList) none Response.zero missingRequest
      (peer [])).1 (by decide),
    ⟨(responses_carry_their_headers siteServer specLib { fs := emptyFS, now := 0 }
        indexRequest Response.zero none Response.zero missingRequest (peer [])).2.1.1,
      ((responses_carry_their_headers siteServer specLib { fs := emptyFS, now := 0 }
        indexRequest Response.zero none Response.zero missingRequest (peer [])).2.1.2.2.2
          (by decide)).trans (by decide)⟩,
    ⟨(responses_carry_their_headers siteServer specLib { fs := emptyFS, now := 0 }
        indexRequest Response.zero none Response.zero missingRequest (peer [])).2.2.1,
      ((responses_carry_their_headers siteServer specLib { fs := emptyFS, now := 0 }
        indexRequest Response.zero none Response.zero missingRequest (peer [])).2.2.2.2.2
          (by decide)).trans (by decide)⟩⟩

/-! ## C13: the same request twice -/

theorem Server.HandleGoodRequest_congr (s : Server) (lib : Lib) (w1 w2 : World) (req : Request)
    (hfs : w2.fs = w1.fs) (hclock : lib.FormatTime w2.now = lib.FormatTime w1.now) :
    s.HandleGoodRequest lib w2 req = s.HandleGoodRequest lib w1 req := by
  unfold Server.HandleGoodRequest
  simp only [hfs, hclock]

theorem Server.FileExistsInDocRoot_congr (s : Server) (w1 w2 : World) (req : Request)
    (hfs : w2.fs = w1.fs) : s.FileExistsInDocRoot w2 req = s.FileExistsInDocRoot w1 req := by
  unfold Server.FileExistsInDocRoot
  simp only [hfs]

/-- When `ReadRequest` returns a request that passes the existence check, for
which `HandleGoodRequest` succeeds and which does not ask to close, one
iteration of `HandleClient` on a connection that accepts every byte sends the
bytes of the response and goes on with the next iteration. -/
theorem Server.HandleClient_of_served (s : Server) (lib : Lib) (ws : Nat → World)
    (fuel i : Nat) (conn : Conn) (message : Str) (conn1 : Conn) (req : Request) (message1 : Str)
    (res : Response) (body : Str) (hd : conn.deadlineOk = true) (hroom : conn.room = none)
    (hread : s.ReadRequest lib (ws i) conn message = (conn1, ReadResult.ok req message1))
    (hex : s.FileExistsInDocRoot (ws i) req = true)
    (hres : s.HandleGoodRequest lib (ws i) req = (some res, none))
    (hbody : (ws i).fs.ReadFile res.FilePath = some body)
    (hopen : req.Headers.get "Connection".toList ≠ "close".toList) :
    (res.Write (ws i) conn1).1 = { conn1 with sent := conn.sent ++ res.wire body } ∧
    s.HandleClient lib ws (fuel + 1) i conn message =
      s.HandleClient lib ws fuel (i + 1) { conn1 with sent := conn.sent ++ res.wire body }
        message1 := by
  have hso := s.ReadRequest_sameOut lib (ws i) conn message
  rw [hread] at hso
  obtain ⟨_, hr, hs, _⟩ := hso
  simp only at hr hs
  obtain ⟨h1, _, h3⟩ := s.HandleGoodRequest_connection lib (ws i) req res none hres
  rw [if_neg hopen] at h3
  have hw := Response.Write_ok res (ws i) conn1 body (hr.trans hroom) h1 hbody
  rw [hs] at hw
  refine ⟨by rw [hw], ?_⟩
  rw [Server.HandleClient]
  have hne : ¬ (([] : Str) = "close".toList) := by decide
  simp only [hd, hread, hex, hres, hw, h3, hne, Bool.not_true, Bool.false_eq_true, if_false]

/-- C13. The claim fails when the clock moves on between the two requests: the
same request for `/index.html`, twice in the buffer of one connection, with
the same files, is answered a second later the second time, and the two
responses differ in their Date header. -/
theorem repeated_request_differs_in_date :
    (siteServer.HandleClient specLib tickingWorld 2 0
        (peer [ReadEvent.data (indexRequestBytes ++ indexRequestBytes)]) []).1.sent =
      indexResponseBytes "Mon, 02 Nov 2026 00:00:00 GMT".toList ++
        indexResponseBytes "Mon, 02 Nov 2026 00:00:01 GMT".toList ∧
    (tickingWorld 1).fs.ReadFile "/srv/www/index.html".toList =
      (tickingWorld 0).fs.ReadFile "/srv/www/index.html".toList ∧
    indexResponseBytes "Mon, 02 Nov 2026 00:00:00 GMT".toList ≠
      indexResponseBytes "Mon, 02 Nov 2026 00:00:01 GMT".toList := by
  refine ⟨?_, by decide, by decide⟩
  have h1 := siteServer.HandleClient_of_served specLib tickingWorld 1 0
    (peer [ReadEvent.data (indexRequestBytes ++ indexRequestBytes)]) [] (peer []) indexRequest
    indexRequestBytes (indexResponse "Mon, 02 Nov 2026 00:00:00 GMT".toList)
    "<h1>hi</h1>".toList (by decide) (by decide) (by decide) (by decide) (by decide) (by decide)
    (by decide)
  have h2 := siteServer.HandleClient_of_served specLib tickingWorld 0 1
    { peer [] with sent := indexResponseBytes "Mon, 02 Nov 2026 00:00:00 GMT".toList }
    indexRequestBytes
    { peer [] with sent := indexResponseBytes "Mon, 02 Nov 2026 00:00:00 GMT".toList }
    indexRequest [] (indexResponse "Mon, 02 Nov 2026 00:00:01 GMT".toList)
    "<h1>hi</h1>".toList (by decide) (by decide) (by decide) (by decide) (by decide) (by decide)
    (by decide)
  have e1 : ({ peer [] with sent :=
        (peer [ReadEvent.data (indexRequestBytes ++ indexRequestBytes)]).sent ++
          (indexResponse "Mon, 02 Nov 2026 00:00:00 GMT".toList).wire "<h1>hi</h1>".toList } :
        Conn) =
      { peer [] with sent := indexResponseBytes "Mon, 02 Nov 2026 00:00:00 GMT".toList } := by
    decide
  rw [h1.2, e1, h2.2]
  decide

/-- The response of `HandleGoodRequest` in a world with the same filesystem is
the same response with its Date header set to the time of that world. -/
theorem Server.HandleGoodRequest_later (s : Server) (lib : Lib) (w1 w2 : World) (req : Request)
    (res : Response) (hfs : w2.fs = w1.fs)
    (hres : s.HandleGoodRequest lib w1 req = (some res, none)) :
    s.HandleGoodRequest lib w2 req =
      (some { res with Headers := res.Headers.set "Date".toList (lib.FormatTime w2.now) },
        none) := by
  obtain ⟨body, fi, hb, hst, hpath, hproto, hcode, _, hhdr⟩ :=
    s.HandleGoodRequest_some lib w1 req res none hres
  rw [hpath] at hb hst
  unfold Server.HandleGoodRequest at hres ⊢
  by_cases hcl : req.Headers.get "Connection".toList = "close".toList
  · simp only [hcl, if_true] at hres ⊢
    dsimp only [Response.zero, Response.HandleOK] at hres ⊢
    rw [hb, hst] at hres
    rw [hfs, hb, hst]
    simp only [Prod.mk.injEq, Option.some.injEq, and_true] at hres
    subst hres
    rfl
  · simp only [hcl, if_false] at hres ⊢
    dsimp only [Response.zero, Response.HandleOK] at hres ⊢
    rw [hb, hst] at hres
    rw [hfs, hb, hst]
    simp only [Prod.mk.injEq, Option.some.injEq, and_true] at hres
    subst hres
    rfl

/-- The bytes of two success responses that differ in the Date header alone
are the same exactly when the two values of the header are. -/
theorem Response.wire_date (res : Response) (req : Request) (body cl ct d1 lm d2 : Str)
    (hh : res.Headers =
      (if req.Headers.get "Connection".toList = "close".toList then
        [("Connection".toList, "close".toList)] else []) ++
      [("Content-Length".toList, cl), ("Content-Type".toList, ct), ("Date".toList, d1),
        ("Last-Modified".toList, lm)]) :
    (({ res with Headers := res.Headers.set "Date".toList d2 } : Response).wire body =
      res.wire body) ↔ d2 = d1 := by
  have hw : ∀ d, (({ res with Headers :=
        (if req.Headers.get "Connection".toList = "close".toList then
          [("Connection".toList, "close".toList)] else []) ++
        [("Content-Length".toList, cl), ("Content-Type".toList, ct), ("Date".toList, d),
          ("Last-Modified".toList, lm)] } : Response).wire body) =
      (res.Proto ++ " ".toList ++ strconv.Itoa res.StatusCode ++ " ".toList ++
        statusText res.StatusCode ++ CRLF ++
        ((if req.Headers.get "Connection".toList = "close".toList then
          "Connection: close\r\n".toList else []) ++
        ("Content-Length: ".toList ++ cl ++ CRLF) ++ ("Content-Type: ".toList ++ ct ++ CRLF) ++
        "Date: ".toList)) ++ d ++
        (CRLF ++ ("Last-Modified: ".toList ++ lm ++ CRLF) ++ CRLF ++ body) := by
    intro d
    by_cases hcl : req.Headers.get "Connection".toList = "close".toList
    · simp only [hcl, if_true, Response.wire]
      have hkeys : GoMap.keys ([("Connection".toList, "close".toList)] ++
          [("Content-Length".toList, cl), ("Content-Type".toList, ct), ("Date".toList, d),
            ("Last-Modified".toList, lm)]) =
          ["Connection".toList, "Content-Length".toList, "Content-Type".toList, "Date".toList,
            "Last-Modified".toList] := rfl
      have hsort : sort.Strings ["Connection".toList, "Content-Length".toList,
          "Content-Type".toList, "Date".toList, "Last-Modified".toList] =
          ["Connection".toList, "Content-Length".toList, "Content-Type".toList, "Date".toList,
            "Last-Modified".toList] := by decide
      rw [hkeys, hsort]
      simp only [headerLines, List.append_assoc]
      rfl
    · simp only [hcl, if_false, Response.wire]
      have hkeys : GoMap.keys ([] ++
          [("Content-Length".toList, cl), ("Content-Type".toList, ct), ("Date".toList, d),
            ("Last-Modified".toList, lm)]) =
          ["Content-Length".toList, "Content-Type".toList, "Date".toList,
            "Last-Modified".toList] := rfl
      have hsort : sort.Strings ["Content-Length".toList,
          "Content-Type".toList, "Date".toList, "Last-Modified".toList] =
          ["Content-Length".toList, "Content-Type".toList, "Date".toList,
            "Last-Modified".toList] := by decide
      rw [hkeys, hsort]
      simp only [headerLines, List.append_assoc]
      rfl
  have hset : ({ res with Headers := res.Headers.set "Date".toList d2 } : Response) =
      { res with Headers :=
        (if req.Headers.get "Connection".toList = "close".toList then
          [("Connection".toList, "close".toList)] else []) ++
        [("Content-Length".toList, cl), ("Content-Type".toList, ct), ("Date".toList, d2),
          ("Last-Modified".toList, lm)] } := by
    rw [hh]
    by_cases hcl : req.Headers.get "Connection".toList = "close".toList
    · simp only [hcl, if_true]; rfl
    · simp only [hcl, if_false]; rfl
  have hres : res = { res with Headers :=
        (if req.Headers.get "Connection".toList = "close".toList then
          [("Connection".toList, "close".toList)] else []) ++
        [("Content-Length".toList, cl), ("Content-Type".toList, ct), ("Date".toList, d1),
          ("Last-Modified".toList, lm)] } := by
    rw [← hh]
  rw [hset]
  conv_lhs => rhs; rw [hres]
  rw [hw d2, hw d1]
  constructor
  · intro h
    exact List.append_cancel_left (List.append_cancel_right h)
  · intro h
    rw [h]

/-- C13, as amended. When the same valid, served request is read twice in a row
on a connection that stays open and accepts every byte, with the same
filesystem at both requests, the second response is the first one with its
Date header set to the time of the second request, the handler sends the bytes
of the one and then of the other, and the two are the same bytes exactly when
`FormatTime` renders the clock the same at both requests. -/
theorem repeated_request_same_bytes (s : Server) (lib : Lib) (ws : Nat → World)
    (fuel i : Nat) (conn : Conn) (message : Str) (conn1 : Conn) (req : Request) (message1 : Str)
    (res : Response) (conn2 : Conn) (message2 : Str)
    (hd : conn.deadlineOk = true) (hroom : conn.room = none)
    (hread1 : s.ReadRequest lib (ws i) conn message = (conn1, ReadResult.ok req message1))
    (hex : s.FileExistsInDocRoot (ws i) req = true)
    (hres : s.HandleGoodRequest lib (ws i) req = (some res, none))
    (hopen : req.Headers.get "Connection".toList ≠ "close".toList)
    (hread2 : s.ReadRequest lib (ws (i + 1)) (res.Write (ws i) conn1).1 message1 =
      (conn2, ReadResult.ok req message2))
    (hfs : (ws (i + 1)).fs = (ws i).fs) :
    ∃ body res2, (ws i).fs.ReadFile res.FilePath = some body ∧
      s.HandleGoodRequest lib (ws (i + 1)) req = (some res2, none) ∧
      res2 = { res with Headers := res.Headers.set "Date".toList (lib.FormatTime (ws (i + 1)).now) } ∧
      (res.Write (ws i) conn1).1.sent = conn.sent ++ res.wire body ∧
      s.HandleClient lib ws (fuel + 2) i conn message =
        s.HandleClient lib ws fuel (i + 2)
          { conn2 with sent := conn.sent ++ res.wire body ++ res2.wire body } message2 ∧
      (res2.wire body = res.wire body ↔
        lib.FormatTime (ws (i + 1)).now = lib.FormatTime (ws i).now) := by
  obtain ⟨body, fi, hb, _, _, _, _, _, hhdr⟩ := s.HandleGoodRequest_some lib (ws i) req res none hres
  have hres2 := s.HandleGoodRequest_later lib (ws i) (ws (i + 1)) req res hfs hres
  obtain ⟨hw, hstep1⟩ := s.HandleClient_of_served lib ws (fuel + 1) i conn message conn1 req
    message1 res body hd hroom hread1 hex hres hb hopen
  have hso := s.ReadRequest_sameOut lib (ws i) conn message
  rw [hread1] at hso
  obtain ⟨hd1, hr1, _, _⟩ := hso
  simp only at hd1 hr1
  rw [hw] at hread2
  obtain ⟨_, hstep2⟩ := s.HandleClient_of_served lib ws fuel (i + 1)
    { conn1 with sent := conn.sent ++ res.wire body } message1 conn2 req message2
    { res with Headers := res.Headers.set "Date".toList (lib.FormatTime (ws (i + 1)).now) } body
    (hd1.trans hd) (hr1.trans hroom) hread2
    (by rw [s.FileExistsInDocRoot_congr (ws i) (ws (i + 1)) req hfs]; exact hex)
    hres2 (by rw [hfs]; exact hb) hopen
  refine ⟨body, _, hb, hres2, rfl, by rw [hw], ?_, ?_⟩
  · rw [hstep1, hstep2]
  · exact Response.wire_date res req body _ _ _ _ _ hhdr

/-- C13 as amended, at an instance: the request for `/index.html` twice in the
buffer, the second answered one second after the first. -/
theorem repeated_request_same_bytes_witness :
    ∃ body res2, (tickingWorld 0).fs.ReadFile
        (indexResponse "Mon, 02 Nov 2026 00:00:00 GMT".toList).FilePath = some body ∧
      siteServer.HandleGoodRequest specLib (tickingWorld (0 + 1)) indexRequest = (some res2, none) ∧
      res2 = { indexResponse "Mon, 02 Nov 2026 00:00:00 GMT".toList with
        Headers := (indexResponse "Mon, 02 Nov 2026 00:00:00 GMT".toList).Headers.set "Date".toList
          (specLib.FormatTime (tickingWorld (0 + 1)).now) } ∧
      ((indexResponse "Mon, 02 Nov 2026 00:00:00 GMT".toList).Write (tickingWorld 0)
          (peer [])).1.sent =
        (peer [ReadEvent.data (indexRequestBytes ++ indexRequestBytes)]).sent ++
          (indexResponse "Mon, 02 Nov 2026 00:00:00 GMT".toList).wire body ∧
      siteServer.HandleClient specLib tickingWorld (0 + 2) 0
          (peer [ReadEvent.data (indexRequestBytes ++ indexRequestBytes)]) [] =
        siteServer.HandleClient specLib tickingWorld 0 (0 + 2)
          { ({ peer [] with
                sent := indexResponseBytes "Mon, 02 Nov 2026 00:00:00 GMT".toList } : Conn) with
            sent :=
              (peer [ReadEvent.data (indexRequestBytes ++ indexRequestBytes)]).sent ++
                (indexResponse "Mon, 02 Nov 2026 00:00:00 GMT".toList).wire body ++
                res2.wire body } [] ∧
      (res2.wire body = (indexResponse "Mon, 02 Nov 2026 00:00:00 GMT".toList).wire body ↔
        specLib.FormatTime (tickingWorld (0 + 1)).now = specLib.FormatTime (tickingWorld 0).now) :=
  repeated_request_same_bytes siteServer specLib tickingWorld 0 0
    (peer [ReadEvent.data (indexRequestBytes ++ indexRequestBytes)]) [] (peer [])
    indexRequest indexRequestBytes (indexResponse "Mon, 02 Nov 2026 00:00:00 GMT".toList)
    { peer [] with sent := indexResponseBytes "Mon, 02 Nov 2026 00:00:00 GMT".toList } []
    (by decide) (by decide) (by decide) (by decide) (by decide) (by decide) (by decide) rfl

/-! ## C14: a target that is a directory -/

/-- The URL that `ReadRequest` stores: the target of the start line, joined
with `index.html` exactly when the probe of the document root joined with the
target succeeds and finds a directory or the target ends in a slash. -/
theorem Server.ReadRequest_url (s : Server) (lib : Lib) (w : World) (conn : Conn)
    (message : Str) (c0 : Conn) (line m0 : Str) (c1 : Conn) (req : Request) (m1 : Str)
    (hline : ReadLine conn message = (c0, line, m0, none))
    (hread : s.ReadRequest lib w conn message = (c1, ReadResult.ok req m1)) :
    ∃ target, strings.SplitN ' ' 3 line = ["GET".toList, target, "HTTP/1.1".toList] ∧
      req.URL =
        match w.fs.Stat
          (filepath.Join (s.VirtualHosts.get (req.Headers.get "Host".toList)) target) with
        | Except.ok fileStatus =>
          if fileStatus.isDir = true ∨ target.getLast? = some '/' then
            filepath.Join target "index.html".toList
          else target
        | Except.error _ => target := by
  unfold Server.ReadRequest at hread
  rw [hline] at hread
  dsimp only at hread
  split at hread
  · rename_i f0 f1 f2 hsplit
    split at hread
    · cases hread
    · rename_i hget
      split at hread
      · cases hread
      · split at hread
        · cases hread
        · rename_i hok
          revert hread
          rcases readHeaders lib (m0.length + Conn.pending c0.reads + 1) c0 m0 [] with ⟨c2, r⟩
          cases r with
          | unfinished => intro h; cases h
          | fail m e => intro h; cases h
          | done hdrs m2 =>
            dsimp only
            intro h
            split at h
            · cases h
            · simp only [Prod.mk.injEq, ReadResult.ok.injEq] at h
              obtain ⟨_, h2, _⟩ := h
              subst h2
              have hf0 : f0 = "GET".toList := by simpa using hget
              have hf2 : f2 = "HTTP/1.1".toList := by
                by_contra hne
                exact hok (Or.inr hne)
              subst hf0 hf2
              exact ⟨f1, hsplit, rfl⟩
  · cases hread

/-- C14. The claim fails for the target `/` on the document root `./www`, a
directory that holds `index.html`: `ReadRequest` finds the directory and
stores the URL `/index.html`, and `FileExistsInDocRoot` then compares the
cleaned path `www/index.html` with the prefix `./www`; the server answers 404
although the derived file exists. -/
theorem directory_under_unclean_docroot_answers_404 :
    siteWorld.fs.Stat (filepath.Join "./www".toList "/".toList) = Except.ok dirInfo ∧
    siteWorld.fs.ReadFile "./www/index.html".toList = some "<h1>hi</h1>".toList ∧
    (dotServer.ReadRequest specLib siteWorld
        (peer [ReadEvent.data "GET / HTTP/1.1\r\nHost: site\r\n\r\n".toList]) []).2 =
      ReadResult.ok
        { Method := "GET".toList, URL := "/index.html".toList, Proto := "HTTP/1.1".toList,
          Headers := [("Host".toList, "site".toList)], Host := "site".toList, Close := false }
        [] ∧
    dotServer.HandleClient specLib (fun _ => siteWorld) 1 0
        (peer [ReadEvent.data "GET / HTTP/1.1\r\nHost: site\r\n\r\n".toList]) [] =
      ({ peer [] with sent := notFoundBytes "Mon, 02 Nov 2026 00:00:00 GMT".toList },
        [], Exit.awaiting) := by
  decide

/-! ## C15: a success response read back -/

theorem bytes.IndexCRLF_of_no_CR (s : Str) (h : '\r' ∉ s) : bytes.IndexCRLF s = none := by
  induction s with
  | nil => rfl
  | cons c cs ih =>
    have hc : ¬ c = '\r' := fun hh => h (by simp [hh])
    have hcs : '\r' ∉ cs := fun hh => h (by simp [hh])
    unfold bytes.IndexCRLF
    rw [if_neg (fun hh => hc hh.1), ih hcs]
    rfl

theorem strings.TrimSpace_of_no_space (s : Str) (h : ∀ c ∈ s, plainByte c = true) :
    strings.TrimSpace s = s := by
  have hp : ∀ c, plainByte c = true → c.toNat < 0x80 ∧ strings.asciiSpace c.toNat = false := by
    intro c hc
    unfold plainByte at hc
    simpa using hc
  apply strings.TrimSpace_of_ends
  · intro a t hs
    exact hp a (h a (by simp [hs]))
  · intro b u hs
    exact hp b (h b (by rw [← List.mem_reverse, hs]; simp))

theorem Nat.toDigitsCore_digits (fuel n : Nat) (ds : List Char)
    (h : ∀ c ∈ ds, c ∈ "0123456789".toList) :
    ∀ c ∈ Nat.toDigitsCore 10 fuel n ds, c ∈ "0123456789".toList := by
  induction fuel generalizing n ds with
  | zero => simpa [Nat.toDigitsCore] using h
  | succ fuel ih =>
    have hd : (n % 10).digitChar ∈ "0123456789".toList := by
      have hlt : n % 10 < 10 := Nat.mod_lt _ (by decide)
      generalize n % 10 = k at hlt
      interval_cases k <;> decide
    have hds : ∀ c ∈ (n % 10).digitChar :: ds, c ∈ "0123456789".toList := by
      intro c hc
      rcases List.mem_cons.mp hc with hc | hc
      · rw [hc]; exact hd
      · exact h c hc
    unfold Nat.toDigitsCore
    dsimp only
    split
    · exact hds
    · exact ih _ _ hds

theorem strconv.Itoa_digits (n : Nat) : ∀ c ∈ strconv.Itoa n, c ∈ "0123456789".toList :=
  Nat.toDigitsCore_digits (n + 1) n [] (by simp)

theorem strconv.Itoa_plain (n : Nat) : plainValue (strconv.Itoa n) := by
  constructor
  · apply strings.TrimSpace_of_no_space
    intro c hc
    have hall : ∀ d ∈ "0123456789".toList, plainByte d = true := by decide
    exact hall c (strconv.Itoa_digits n c hc)
  · apply bytes.IndexCRLF_of_no_CR
    intro hc
    have := strconv.Itoa_digits n _ hc
    revert this
    decide

/-- A header line as `Response.Write` emits it, for a key without colon that
is trimmed and canonical and a value that is trimmed, parses to the key and
the value. -/
theorem ParseRequestHeader_of_line (lib : Lib) (k v : Str) (hcolon : ':' ∉ k)
    (hk : strings.TrimSpace k = k) (hne : k ≠ []) (hcanon : lib.CanonicalHeaderKey k = k)
    (hv : strings.TrimSpace v = v) :
    ParseRequestHeader lib (k ++ ": ".toList ++ v) = Except.ok (k, v) := by
  have hline : k ++ ": ".toList ++ v = k ++ ':' :: (' ' :: v) := by simp
  have hsp : strings.TrimSpace (' ' :: v) = v := by
    rw [strings.TrimSpace_cons_space, hv]
  unfold ParseRequestHeader
  rw [hline, strings.SplitN_cut ':' 0 k _ hcolon]
  simp only [strings.SplitN, hk, hsp, hne, if_false, hcanon]

theorem bytes.IndexCRLF_of_line (k v : Str) (hk : '\r' ∉ k) (hv : bytes.IndexCRLF v = none) :
    bytes.IndexCRLF (k ++ ": ".toList ++ v) = none := by
  induction k with
  | nil =>
    show bytes.IndexCRLF (':' :: ' ' :: v) = none
    unfold bytes.IndexCRLF
    rw [if_neg (fun h => absurd h.1 (by decide))]
    unfold bytes.IndexCRLF
    rw [if_neg (fun h => absurd h.1 (by decide)), hv]
    rfl
  | cons c cs ih =>
    have hc : ¬ c = '\r' := fun hh => hk (by simp [hh])
    have hcs : '\r' ∉ cs := fun hh => hk (by simp [hh])
    show bytes.IndexCRLF (c :: (cs ++ ": ".toList ++ v)) = none
    unfold bytes.IndexCRLF
    rw [if_neg (fun hh => hc hh.1), ih hcs]
    rfl

/-- What `readHeaders` needs of a header line `key: value` that was written by
`Response.Write`, for one of the keys of a success response. -/
theorem header_line_reads_back (lib : Lib) (k v : Str) (hk : k ∈ successKeys)
    (hcanon : ∀ k ∈ successKeys, lib.CanonicalHeaderKey k = k) (hv : plainValue v) :
    bytes.IndexCRLF (k ++ ": ".toList ++ v) = none ∧
      ParseRequestHeader lib (k ++ ": ".toList ++ v) = Except.ok (k, v) := by
  have hall : ∀ k ∈ successKeys,
      '\r' ∉ k ∧ ':' ∉ k ∧ strings.TrimSpace k = k ∧ k ≠ [] := by decide
  obtain ⟨h1, h2, h3, h4⟩ := hall k hk
  exact ⟨bytes.IndexCRLF_of_line k v h1 hv.2,
    ParseRequestHeader_of_line lib k v h2 h3 h4 (hcanon k hk) hv.1⟩

theorem parsedHeaders_of_pairs (lib : Lib) (kvs : List (Str × Str)) (acc : GoMap)
    (h : ∀ kv ∈ kvs, ParseRequestHeader lib (kv.1 ++ ": ".toList ++ kv.2) = Except.ok kv) :
    parsedHeaders lib (kvs.map (fun kv => kv.1 ++ ": ".toList ++ kv.2)) acc =
      kvs.foldl (fun (m : GoMap) kv => GoMap.set m kv.1 kv.2) acc := by
  induction kvs generalizing acc with
  | nil => rfl
  | cons kv kvs ih =>
    have h1 := h kv (List.mem_cons_self _ _)
    simp only [List.map_cons, parsedHeaders, h1, List.foldl_cons]
    exact ih _ (fun kv1 hmem => h kv1 (List.mem_cons_of_mem _ hmem))

/-- The header lines of a success response, followed by the empty line and a
body, are read back by the header loop as the header map and the body: the
lines are those of the pairs `kvs`, with keys of a success response and plain
values, and assigning the pairs in order to an empty map gives the map. -/
theorem headers_read_back (lib : Lib) (headers : GoMap) (c0 : Conn) (body : Str)
    (kvs : List (Str × Str)) (hcanon : ∀ k ∈ successKeys, lib.CanonicalHeaderKey k = k)
    (hlines : headerLines headers (sort.Strings headers.keys) =
      headerBlock (kvs.map (fun kv => kv.1 ++ ": ".toList ++ kv.2)))
    (hl : ∀ kv ∈ kvs, kv.1 ∈ successKeys ∧ plainValue kv.2)
    (hset : kvs.foldl (fun (m : GoMap) kv => GoMap.set m kv.1 kv.2) ([] : GoMap) = headers) :
    readHeaders lib ((headerLines headers (sort.Strings headers.keys) ++ CRLF ++ body).length + 1)
        c0 (headerLines headers (sort.Strings headers.keys) ++ CRLF ++ body) [] =
      (c0, HeaderResult.done headers body) := by
  have hboth : ∀ kv ∈ kvs, bytes.IndexCRLF (kv.1 ++ ": ".toList ++ kv.2) = none ∧
      ParseRequestHeader lib (kv.1 ++ ": ".toList ++ kv.2) = Except.ok kv := by
    intro kv hmem
    obtain ⟨h2, h3⟩ := hl kv hmem
    exact header_line_reads_back lib kv.1 kv.2 h2 hcanon h3
  have hl2 : ∀ l ∈ kvs.map (fun kv => kv.1 ++ ": ".toList ++ kv.2),
      bytes.IndexCRLF l = none ∧ ∃ kv, ParseRequestHeader lib l = Except.ok kv := by
    intro l hmem
    obtain ⟨kv, hkv, rfl⟩ := List.mem_map.mp hmem
    exact ⟨(hboth kv hkv).1, kv, (hboth kv hkv).2⟩
  have hp := parsedHeaders_of_pairs lib kvs [] (fun kv hmem => (hboth kv hmem).2)
  rw [hlines, readHeaders_buffered lib _ _ c0 body [] hl2
    (by have := headerBlock_length (kvs.map (fun kv => kv.1 ++ ": ".toList ++ kv.2))
        simp only [List.length_append]; omega), hp, hset]

/-- C15. Round trip of a success response. For library functions that leave
the five header keys of a success response as they are and return plain
values (trimmed, without CRLF), every response that `HandleGoodRequest` builds
is written by `Response.Write`, on a connection that accepts every byte, as
bytes that read back as follows: `ReadLine` returns the status line, whose
three fields are the protocol, the status code 200 of the response and OK;
and the header loop of `ReadRequest`, which splits the rest at each CRLF and
parses each line with `ParseRequestHeader`, comes to the empty line with
exactly the header map of the response, and leaves the body. -/
theorem success_response_round_trip (s : Server) (lib : Lib) (w : World) (req : Request)
    (res : Response) (c c0 : Conn) (hc : c.room = none)
    (hgood : s.HandleGoodRequest lib w req = (some res, none))
    (hcanon : ∀ k ∈ successKeys, lib.CanonicalHeaderKey k = k)
    (hmime : ∀ ext, plainValue (lib.MIMETypeByExtension ext))
    (htime : ∀ t, plainValue (lib.FormatTime t)) :
    ∃ body statusLine rest,
      res.Write w c = ({ c with sent := c.sent ++ res.wire body }, none) ∧
      ReadLine c0 (res.wire body) = (c0, statusLine, rest, none) ∧
      strings.SplitN ' ' 3 statusLine =
        [responseProto, strconv.Itoa res.StatusCode, "OK".toList] ∧
      res.StatusCode = 200 ∧
      readHeaders lib (rest.length + 1) c0 rest [] = (c0, HeaderResult.done res.Headers body) := by
  obtain ⟨body, fi, hb, _, _, hproto, hcode, _, hhdr⟩ :=
    s.HandleGoodRequest_some lib w req res none hgood
  have hw := Response.Write_ok res w c body hc hcode hb
  have hwire : res.wire body = "HTTP/1.1 200 OK".toList ++ CRLF ++
      (headerLines res.Headers (sort.Strings res.Headers.keys) ++ CRLF ++ body) := by
    unfold Response.wire
    rw [hproto, hcode]
    simp only [List.append_assoc]
    rfl
  have hline := ReadLine_buffered c0 "HTTP/1.1 200 OK".toList
    (headerLines res.Headers (sort.Strings res.Headers.keys) ++ CRLF ++ body) (by decide)
  refine ⟨body, "HTTP/1.1 200 OK".toList, _, hw, by rw [hwire, hline], ?_, hcode, ?_⟩
  · rw [hcode]; decide
  · have hcl := strconv.Itoa_plain body.length
    have hct := hmime (filepath.Ext res.FilePath)
    have hdt := htime w.now
    have hlm := htime fi.modTime
    have hclo : plainValue "close".toList := ⟨by decide, by decide⟩
    by_cases hclose : req.Headers.get "Connection".toList = "close".toList
    · rw [if_pos hclose] at hhdr
      rw [hhdr]
      apply headers_read_back lib _ c0 body
        [("Connection".toList, "close".toList),
         ("Content-Length".toList, strconv.Itoa body.length),
         ("Content-Type".toList, lib.MIMETypeByExtension (filepath.Ext res.FilePath)),
         ("Date".toList, lib.FormatTime w.now),
         ("Last-Modified".toList, lib.FormatTime fi.modTime)] hcanon
      · rfl
      · intro kv hmem
        simp only [List.mem_cons, List.mem_singleton, List.not_mem_nil, or_false] at hmem
        rcases hmem with h | h | h | h | h <;> subst h
        · exact ⟨by show "Connection".toList ∈ successKeys; decide, hclo⟩
        · exact ⟨by show "Content-Length".toList ∈ successKeys; decide, hcl⟩
        · exact ⟨by show "Content-Type".toList ∈ successKeys; decide, hct⟩
        · exact ⟨by show "Date".toList ∈ successKeys; decide, hdt⟩
        · exact ⟨by show "Last-Modified".toList ∈ successKeys; decide, hlm⟩
      · rfl
    · rw [if_neg hclose] at hhdr
      rw [hhdr]
      apply headers_read_back lib _ c0 body
        [("Content-Length".toList, strconv.Itoa body.length),
         ("Content-Type".toList, lib.MIMETypeByExtension (filepath.Ext res.FilePath)),
         ("Date".toList, lib.FormatTime w.now),
         ("Last-Modified".toList, lib.FormatTime fi.modTime)] hcanon
      · rfl
      · intro kv hmem
        simp only [List.mem_cons, List.mem_singleton, List.not_mem_nil, or_false] at hmem
        rcases hmem with h | h | h | h <;> subst h
        · exact ⟨by show "Content-Length".toList ∈ successKeys; decide, hcl⟩
        · exact ⟨by show "Content-Type".toList ∈ successKeys; decide, hct⟩
        · exact ⟨by show "Date".toList ∈ successKeys; decide, hdt⟩
        · exact ⟨by show "Last-Modified".toList ∈ successKeys; decide, hlm⟩
      · rfl

/-! ## The library functions as the spec describes them return plain values -/

theorem specLib_canonical : ∀ k ∈ successKeys, specLib.CanonicalHeaderKey k = k := by
  decide

theorem specMIMETypeByExtension_plain (ext : Str) : plainValue (specMIMETypeByExtension ext) := by
  unfold specMIMETypeByExtension
  split_ifs <;> exact ⟨by decide, by decide⟩

theorem twoDigits_digits (n : Nat) : ∀ c ∈ twoDigits n, c ∈ "0123456789".toList := by
  intro c hc
  unfold twoDigits at hc
  split at hc
  · rcases List.mem_cons.mp hc with h | h
    · rw [h]; decide
    · exact strconv.Itoa_digits n c h
  · exact strconv.Itoa_digits n c hc

theorem name_getD_no_CR (names : List String) (i : Nat) (h : ∀ s ∈ names, '\r' ∉ s.toList) :
    '\r' ∉ (names.getD i "").toList := by
  by_cases hi : i < names.length
  · rw [List.getD_eq_getElem _ _ hi]
    exact h _ (List.getElem_mem hi)
  · rw [List.getD_eq_default _ _ (by omega)]
    decide

theorem strings.TrimSpace_of_head_last (s : Str)
    (h1 : s.head?.map plainByte = some true)
    (h2 : s.getLast?.map plainByte = some true) : strings.TrimSpace s = s := by
  have hp : ∀ c, plainByte c = true → c.toNat < 0x80 ∧ strings.asciiSpace c.toNat = false := by
    intro c hc
    unfold plainByte at hc
    simpa using hc
  apply strings.TrimSpace_of_ends
  · intro a u hs
    rw [hs] at h1
    exact hp a (by simpa using h1)
  · intro b u hs
    have : s = (b :: u).reverse := by rw [← hs, List.reverse_reverse]
    rw [this] at h2
    exact hp b (by simpa using h2)

theorem name_getD_head (names : List String) (i : Nat) (hi : i < names.length)
    (h : ∀ s ∈ names, s.toList.head?.map plainByte = some true) :
    (names.getD i "").toList.head?.map plainByte = some true := by
  rw [List.getD_eq_getElem _ _ hi]
  exact h _ (List.getElem_mem hi)

theorem specFormatTime_head (t : Nat) :
    (specFormatTime t).head? =
      (["Thu", "Fri", "Sat", "Sun", "Mon", "Tue", "Wed"].getD (t / 86400 % 7)
        "").toList.head?.or (some ',') := by
  simp only [specFormatTime, List.head?_append]
  cases (["Thu", "Fri", "Sat", "Sun", "Mon", "Tue", "Wed"].getD (t / 86400 % 7)
      "").toList.head? with
  | none => rfl
  | some a => rfl

theorem specFormatTime_last (t : Nat) : (specFormatTime t).getLast? = some 'T' := by
  simp only [specFormatTime, List.getLast?_append]
  rfl

theorem specFormatTime_no_CR (t : Nat) : '\r' ∉ specFormatTime t := by
  have hdig : ∀ c ∈ "0123456789".toList, c ≠ '\r' := by decide
  simp only [specFormatTime, List.mem_append, not_or]
  refine ⟨⟨⟨⟨⟨⟨⟨⟨⟨⟨⟨⟨⟨?_, ?_⟩, ?_⟩, ?_⟩, ?_⟩, ?_⟩, ?_⟩, ?_⟩, ?_⟩, ?_⟩, ?_⟩, ?_⟩, ?_⟩, ?_⟩
  · exact name_getD_no_CR _ _ (by decide)
  · decide
  · exact fun h => hdig _ (twoDigits_digits _ _ h) rfl
  · decide
  · exact name_getD_no_CR _ _ (by decide)
  · decide
  · exact fun h => hdig _ (strconv.Itoa_digits _ _ h) rfl
  · decide
  · exact fun h => hdig _ (twoDigits_digits _ _ h) rfl
  · decide
  · exact fun h => hdig _ (twoDigits_digits _ _ h) rfl
  · decide
  · exact fun h => hdig _ (twoDigits_digits _ _ h) rfl
  · decide

theorem specFormatTime_plain (t : Nat) : plainValue (specFormatTime t) := by
  refine ⟨?_, bytes.IndexCRLF_of_no_CR _ (specFormatTime_no_CR t)⟩
  apply strings.TrimSpace_of_head_last
  · have h1 := name_getD_head ["Thu", "Fri", "Sat", "Sun", "Mon", "Tue", "Wed"] (t / 86400 % 7)
      (Nat.mod_lt _ (by decide)) (by decide)
    rw [specFormatTime_head]
    cases hn : (["Thu", "Fri", "Sat", "Sun", "Mon", "Tue", "Wed"].getD (t / 86400 % 7)
        "").toList.head? with
    | none => rw [hn] at h1; cases h1
    | some a => rw [hn] at h1; exact h1
  · rw [specFormatTime_last]
    rfl

theorem specLib_plain :
    (∀ ext, plainValue (specLib.MIMETypeByExtension ext)) ∧
      ∀ t, plainValue (specLib.FormatTime t) :=
  ⟨specMIMETypeByExtension_plain, specFormatTime_plain⟩

/-- C15, at an instance: the response to a request for `/index.html`, with the
library functions as the spec describes them. -/
theorem success_response_round_trip_witness :
    ∃ body statusLine rest,
      (indexResponse "Mon, 02 Nov 2026 00:00:00 GMT".toList).Write siteWorld (peer []) =
        ({ peer [] with sent := (peer []).sent ++
            (indexResponse "Mon, 02 Nov 2026 00:00:00 GMT".toList).wire body }, none) ∧
      ReadLine (peer []) ((indexResponse "Mon, 02 Nov 2026 00:00:00 GMT".toList).wire body) =
        (peer [], statusLine, rest, none) ∧
      strings.SplitN ' ' 3 statusLine =
        [responseProto,
          strconv.Itoa (indexResponse "Mon, 02 Nov 2026 00:00:00 GMT".toList).StatusCode,
          "OK".toList] ∧
      (indexResponse "Mon, 02 Nov 2026 00:00:00 GMT".toList).StatusCode = 200 ∧
      readHeaders specLib (rest.length + 1) (peer []) rest [] =
        (peer [], HeaderResult.done
          (indexResponse "Mon, 02 Nov 2026 00:00:00 GMT".toList).Headers body) :=
  success_response_round_trip siteServer specLib siteWorld indexRequest
    (indexResponse "Mon, 02 Nov 2026 00:00:00 GMT".toList) (peer []) (peer []) (by decide)
    (by decide) specLib_canonical specLib_plain.1 specLib_plain.2

/-! ## C6: a read that times out while a request is read -/

theorem bytes.IndexCRLF_of_append (m x : Str) (h : bytes.IndexCRLF (m ++ x) = none) :
    bytes.IndexCRLF m = none := by
  cases hm : bytes.IndexCRLF m with
  | none => rfl
  | some i =>
    rw [bytes.IndexCRLF_append_right m x i hm] at h
    cases h

/-- When the message and the chunks that arrive before the deadline hold no
CRLF, the loop of `ReadLine` reads all the chunks and ends with the timeout. -/
theorem readUntilCRLF_timeout (evs : List ReadEvent) (message : Str)
    (ht : Conn.timesOut evs = true)
    (hn : bytes.IndexCRLF (message ++ Conn.stream evs) = none) :
    ∃ evs1, readUntilCRLF evs message = (evs1, message ++ Conn.stream evs, some Err.timeout) := by
  induction evs generalizing message with
  | nil =>
    have hmn : bytes.IndexCRLF message = none := bytes.IndexCRLF_of_append _ _ hn
    refine ⟨[], ?_⟩
    unfold readUntilCRLF
    simp only [hmn, Option.isSome_none, Bool.false_eq_true, if_false, Conn.stream,
      List.append_nil]
  | cons ev evs ih =>
    have hmn : bytes.IndexCRLF message = none := bytes.IndexCRLF_of_append _ _ hn
    cases ev with
    | data chunk =>
      obtain ⟨evs1, h1⟩ := ih (message ++ chunk) ht (by simpa [Conn.stream] using hn)
      refine ⟨evs1, ?_⟩
      unfold readUntilCRLF
      simp only [hmn, Option.isSome_none, Bool.false_eq_true, if_false]
      rw [h1]
      simp [Conn.stream]
    | EOF => cases ht
    | timeout =>
      refine ⟨evs, ?_⟩
      unfold readUntilCRLF
      simp only [hmn, Option.isSome_none, Bool.false_eq_true, if_false, Conn.stream,
        List.append_nil]
    | failure => cases ht

theorem ReadLine_timeout (conn : Conn) (message : Str) (ht : Conn.timesOut conn.reads = true)
    (hn : bytes.IndexCRLF (message ++ Conn.stream conn.reads) = none) :
    ∃ conn1, ReadLine conn message =
        (conn1, [], message ++ Conn.stream conn.reads, some Err.timeout) ∧
      conn1.SameOut conn := by
  obtain ⟨evs1, h1⟩ := readUntilCRLF_timeout conn.reads message ht hn
  refine ⟨{ conn with reads := evs1 }, ?_, ⟨rfl, rfl, rfl, rfl⟩⟩
  unfold ReadLine
  rw [h1]

/-- The loop of `ReadLine` that finds a line has read chunks only: the first
read that delivers no bytes is still to come. -/
theorem readUntilCRLF_timesOut (evs : List ReadEvent) (message : Str) (evs1 : List ReadEvent)
    (M : Str) (h : readUntilCRLF evs message = (evs1, M, none)) :
    Conn.timesOut evs1 = Conn.timesOut evs := by
  induction evs generalizing message with
  | nil =>
    unfold readUntilCRLF at h
    split at h
    · simp only [Prod.mk.injEq] at h
      rw [← h.1]
    · cases h
  | cons ev evs ih =>
    unfold readUntilCRLF at h
    split at h
    · simp only [Prod.mk.injEq] at h
      rw [← h.1]
    · cases ev with
      | data chunk => exact ih (message ++ chunk) h
      | EOF => cases h
      | timeout => cases h
      | failure => cases h

theorem ReadLine_timesOut (conn : Conn) (message : Str) (conn1 : Conn) (line m1 : Str)
    (h : ReadLine conn message = (conn1, line, m1, none)) :
    Conn.timesOut conn1.reads = Conn.timesOut conn.reads := by
  unfold ReadLine at h
  rcases hr : readUntilCRLF conn.reads message with ⟨evs1, M, e⟩
  rw [hr] at h
  cases e with
  | some e => cases h
  | none =>
    have ht := readUntilCRLF_timesOut conn.reads message evs1 M hr
    dsimp only at h
    split at h
    · simp only [Prod.mk.injEq] at h
      rw [← h.1]
      exact ht
    · cases h

/-- The header loop on a header block that the deadline cuts short: the lines
that are complete parse, what follows them holds no CRLF, and the next read
times out. The loop returns the error "Timeout with partial request". -/
theorem readHeaders_timeout (lib : Lib) (lines : List Str) (fuel : Nat) (conn : Conn)
    (message part : Str) (headers : GoMap)
    (hs : message ++ Conn.stream conn.reads = headerBlock lines ++ part)
    (ht : Conn.timesOut conn.reads = true)
    (hl : ∀ l ∈ lines, bytes.IndexCRLF l = none ∧ ∃ kv, ParseRequestHeader lib l = Except.ok kv)
    (hp : bytes.IndexCRLF part = none) (hf : lines.length < fuel) :
    ∃ conn1 m1, readHeaders lib fuel conn message headers =
        (conn1, HeaderResult.fail m1 Err.timeoutPartial) ∧ conn1.SameOut conn := by
  induction lines generalizing fuel conn message headers with
  | nil =>
    cases fuel with
    | zero => exact absurd hf (by simp)
    | succ fuel =>
      simp only [headerBlock, List.nil_append] at hs
      obtain ⟨conn1, h1, h2⟩ := ReadLine_timeout conn message ht (by rw [hs]; exact hp)
      refine ⟨conn1, message ++ Conn.stream conn.reads, ?_, h2⟩
      unfold readHeaders
      rw [h1]
      simp
  | cons l lines ih =>
    cases fuel with
    | zero => exact absurd hf (by simp)
    | succ fuel =>
      obtain ⟨hl1, kv, hkv⟩ := hl l (List.mem_cons_self _ _)
      have hs2 : message ++ Conn.stream conn.reads = l ++ CRLF ++ (headerBlock lines ++ part) := by
        rw [hs]; simp [headerBlock]
      obtain ⟨conn1, m1, h1, h2, h3⟩ := ReadLine_stream conn message l _ hs2 hl1
      have ht1 := ReadLine_timesOut conn message conn1 l m1 h1
      have hne : l ≠ [] := by
        intro h
        rw [h, ParseRequestHeader_nil] at hkv
        cases hkv
      obtain ⟨conn2, m2, h4, h5⟩ := ih fuel conn1 m1 (headers.set kv.1 kv.2) h2
        (by rw [ht1]; exact ht) (fun x hx => hl x (List.mem_cons_of_mem _ hx))
        (by simpa using hf)
      refine ⟨conn2, m2, ?_, Conn.sameOut_trans h5 h3⟩
      unfold readHeaders
      rw [h1]
      have hlen : ¬ (l.length = 0 ∨ l = []) := by
        intro h
        rcases h with h | h
        · exact hne (List.length_eq_zero.mp h)
        · exact hne h
      simp only [hlen, if_false, hkv]
      exact h4

/-- C6, as amended. A read on the connection times out while a request is
being read: the chunks that arrive before the deadline, with what is buffered,
hold either no complete start line (no CRLF at all), or a valid start line and
complete header lines that parse, followed by bytes without CRLF. Then
`HandleClient`, on a connection that accepts its writes, closes the connection
and returns; it writes nothing when no byte at all was buffered or received,
where `ReadRequest` returns the timeout error, and it writes the 400 response
in every other case, where `ReadRequest` returns "Timeout with partial
request". -/
theorem timeout_closes_with_400_iff_partial (s : Server) (lib : Lib) (ws : Nat → World)
    (fuel i : Nat) (conn : Conn) (message : Str)
    (hd : conn.deadlineOk = true) (hroom : conn.room = none)
    (ht : Conn.timesOut conn.reads = true)
    (hpart : bytes.IndexCRLF (message ++ Conn.stream conn.reads) = none ∨
      ∃ target lines part,
        message ++ Conn.stream conn.reads = startLine target ++ CRLF ++ (headerBlock lines ++ part) ∧
        target.head? = some '/' ∧ ' ' ∉ target ∧ bytes.IndexCRLF (startLine target) = none ∧
        (∀ l ∈ lines, bytes.IndexCRLF l = none ∧ ∃ kv, ParseRequestHeader lib l = Except.ok kv) ∧
        bytes.IndexCRLF part = none) :
    ∃ conn1 message1,
      s.ReadRequest lib (ws i) conn message =
        (conn1, ReadResult.fail message1
          (if message ++ Conn.stream conn.reads = [] then Err.timeout else Err.timeoutPartial)) ∧
      s.HandleClient lib ws (fuel + 1) i conn message =
        ({ conn1 with
            sent := conn.sent ++
              (if message ++ Conn.stream conn.reads = [] then []
                else badRequestBytes (lib.FormatTime (ws i).now)),
            closed := true },
          message1, Exit.returned) := by
  have hread : ∃ conn1 message1, s.ReadRequest lib (ws i) conn message =
      (conn1, ReadResult.fail message1
        (if message ++ Conn.stream conn.reads = [] then Err.timeout else Err.timeoutPartial)) := by
    rcases hpart with hn | ⟨target, lines, part, hs, hth, hsp, hcr, hl, hp⟩
    · obtain ⟨conn1, h1, _⟩ := ReadLine_timeout conn message ht hn
      refine ⟨conn1, message ++ Conn.stream conn.reads, ?_⟩
      unfold Server.ReadRequest
      rw [h1]
      by_cases he : message ++ Conn.stream conn.reads = []
      · simp [he]
      · have hlen : (message ++ Conn.stream conn.reads).length > 0 :=
          List.length_pos.mpr he
        simp only [he, if_false, hlen, and_self, if_true]
    · obtain ⟨c0, m0, h1, h2, h3⟩ := ReadLine_stream conn message (startLine target) _ hs hcr
      have ht0 := ReadLine_timesOut conn message c0 _ m0 h1
      obtain ⟨c1, m1, h4, _⟩ := readHeaders_timeout lib lines
        (m0.length + Conn.pending c0.reads + 1) c0 m0 part [] h2 (by rw [ht0]; exact ht) hl hp
        (by
          have e1 := congrArg List.length h2
          have e2 := headerBlock_length lines
          have e3 := Conn.stream_le_pending c0.reads
          simp only [List.length_append] at e1
          omega)
      refine ⟨c1, m1, ?_⟩
      have hne : message ++ Conn.stream conn.reads ≠ [] := by
        rw [hs]
        simp [startLine]
      rw [if_neg hne]
      unfold Server.ReadRequest
      rw [h1]
      simp only [strings.SplitN_startLine target hsp, hth, h4]
      simp
  obtain ⟨conn1, message1, hr⟩ := hread
  refine ⟨conn1, message1, hr, ?_⟩
  by_cases he : message ++ Conn.stream conn.reads = []
  · rw [if_pos he] at hr ⊢
    rw [s.HandleClient_of_silent lib ws fuel i conn message conn1 message1 Err.timeout hd hr
      (Or.inr rfl)]
    simp
  · rw [if_neg he] at hr ⊢
    rw [s.HandleClient_of_fail lib ws fuel i conn message conn1 message1 Err.timeoutPartial hd
      hroom hr (by decide) (by decide)]

/-- C6 as amended, at an instance: the start line and the Host header have
arrived in two chunks, the empty line has not, and the next read times out. -/
theorem timeout_closes_with_400_iff_partial_witness :
    ∃ conn1 message1,
      siteServer.ReadRequest specLib siteWorld
          (peer [ReadEvent.data "GET / HTTP/1.1\r\nHo".toList, ReadEvent.data "st: site\r\nAcc".toList,
            ReadEvent.timeout, ReadEvent.data "late".toList]) [] =
        (conn1, ReadResult.fail message1
          (if [] ++ Conn.stream [ReadEvent.data "GET / HTTP/1.1\r\nHo".toList,
              ReadEvent.data "st: site\r\nAcc".toList, ReadEvent.timeout,
              ReadEvent.data "late".toList] = [] then Err.timeout else Err.timeoutPartial)) ∧
      siteServer.HandleClient specLib (fun _ => siteWorld) (0 + 1) 0
          (peer [ReadEvent.data "GET / HTTP/1.1\r\nHo".toList, ReadEvent.data "st: site\r\nAcc".toList,
            ReadEvent.timeout, ReadEvent.data "late".toList]) [] =
        ({ conn1 with
            sent := (peer [ReadEvent.data "GET / HTTP/1.1\r\nHo".toList,
                ReadEvent.data "st: site\r\nAcc".toList, ReadEvent.timeout,
                ReadEvent.data "late".toList]).sent ++
              (if [] ++ Conn.stream [ReadEvent.data "GET / HTTP/1.1\r\nHo".toList,
                  ReadEvent.data "st: site\r\nAcc".toList, ReadEvent.timeout,
                  ReadEvent.data "late".toList] = [] then []
                else badRequestBytes (specLib.FormatTime siteWorld.now)),
            closed := true },
          message1, Exit.returned) :=
  timeout_closes_with_400_iff_partial siteServer specLib (fun _ => siteWorld) 0 0
    (peer [ReadEvent.data "GET / HTTP/1.1\r\nHo".toList, ReadEvent.data "st: site\r\nAcc".toList,
      ReadEvent.timeout, ReadEvent.data "late".toList]) []
    (by decide) (by decide) (by decide)
    (Or.inr ⟨"/".toList, ["Host: site".toList], "Acc".toList, by decide, by decide, by decide,
      by decide,
      by
        intro l hl
        simp only [List.mem_singleton] at hl
        subst hl
        exact ⟨by decide, ("Host".toList, "site".toList), by decide⟩,
      by decide⟩)
